import Mathlib

/-!
# Consistent-hash ring of `pkg/consistenthash`

A shallow embedding of `consistenthash.go`: the ring state (`consistentHash`), its
constructor `New`, the mutators `Add` and `Del`, the lookup `Get` and the
distribution report `Nodes`.  The embeddings of `pkg/lru` and `pkg/circularqueue` follow
in namespaces of their own, and the properties proved about the three packages come after
all definitions.

Conventions of the embedding
* `uint32` and `uint64` values are natural numbers; every operation that can wrap
  is written with an explicit reduction modulo `2^32` or `2^64`.
* a Go `map[K]V` is an association list with at most one entry per key; reading a
  missing key yields the zero value of `V`.
* a `nil` map or slice is the empty list.
-/

namespace ConsistentHash

/-! ## Go maps as association lists -/

/-- Two-valued map read `v, ok := m[k]`: the value stored under `k`, if any. -/
def mapLookup {κ ν : Type} [DecidableEq κ] : List (κ × ν) → κ → Option ν
  | [], _ => none
  | (k', v) :: m, k => if k' = k then some v else mapLookup m k

/-- Map read `m[k]`: the stored value, or the zero value `zero` when `k` is missing. -/
def mapGet {κ ν : Type} [DecidableEq κ] (m : List (κ × ν)) (k : κ) (zero : ν) : ν :=
  (mapLookup m k).getD zero

/-- Map write `m[k] = v`: replaces the entry of `k`, or creates it. -/
def mapSet {κ ν : Type} [DecidableEq κ] : List (κ × ν) → κ → ν → List (κ × ν)
  | [], k, v => [(k, v)]
  | (k', v') :: m, k, v => if k' = k then (k, v) :: m else (k', v') :: mapSet m k v

/-- Builtin `delete(m, k)`: removes the entry of `k`; nothing happens when it is missing. -/
def mapDelete {κ ν : Type} [DecidableEq κ] : List (κ × ν) → κ → List (κ × ν)
  | [], _ => []
  | (k', v) :: m, k => if k' = k then mapDelete m k else (k', v) :: mapDelete m k

/-- Keys visited by `for k := range m`. -/
def mapKeys {κ ν : Type} (m : List (κ × ν)) : List κ :=
  m.map Prod.fst

/-! ## Machine arithmetic -/

/-- Number of `uint32` values, `math.MaxUint32 + 1`. -/
def two32 : Nat := 4294967296

/-- Number of `uint64` values. -/
def two64 : Nat := 18446744073709551616

/-- Constant `math.MaxUint32`. -/
def MaxUint32 : Nat := 4294967295

/-- Wrapping `uint32` addition. -/
def add32 (a b : Nat) : Nat := (a + b) % two32

/-- Wrapping `uint32` subtraction. -/
def sub32 (a b : Nat) : Nat := (a + two32 - b % two32) % two32

/-- Wrapping `uint64` addition. -/
def add64 (a b : Nat) : Nat := (a + b) % two64

/-- Wrapping `uint64` subtraction. -/
def sub64 (a b : Nat) : Nat := (a + two64 - b % two64) % two64

/-! ## Library routines used by the ring -/

/-- Loop of `sort.Search`: `i, j := 0, n; for i < j { h := int(uint(i+j) >> 1);
if !f(h) { i = h + 1 } else { j = h } }; return i`.  The first argument bounds the
number of iterations. -/
def searchLoop (f : Nat → Bool) : Nat → Nat → Nat → Nat
  | 0, i, _ => i
  | fuel + 1, i, j =>
    if i < j then
      let h := (i + j) / 2
      if !f h then searchLoop f fuel (h + 1) j else searchLoop f fuel i h
    else i

/-- Go `sort.Search(n, f)`; each iteration shrinks `j - i`, so `n` iterations suffice. -/
def Search (n : Nat) (f : Nat → Bool) : Nat :=
  searchLoop f n 0 n

/-- Function `sortSlice`: sorts ascending (`sort.Slice` with `a[i] < a[j]`). -/
def sortSlice (a : List Nat) : List Nat :=
  a.insertionSort (fun x y => x ≤ y)

/-! ## Data model -/

/-- Type `HashFunc func([]byte) uint32`; results are reduced to `uint32` where applied. -/
abbrev HashFunc := String → Nat

/-- Struct `Option`: the replaceable hash function. -/
structure HashOption where
  hfn : HashFunc

/-- Type `ModOption func(option *Option)`. -/
abbrev ModOption := HashOption → HashOption

/-- Struct `consistentHash`. -/
structure consistentHash where
  point2node : List (Nat × String)
  points : List Nat
  dups : Int
  option : HashOption

/-- Error values of the package. -/
inductive Error where
  | ErrIsEmpty
  deriving DecidableEq, Repr

/-- Constructor `New(dups, modOptions...)`; `crc32` stands for the default
`crc32.ChecksumIEEE` of `defaultOption`. -/
def New (crc32 : HashFunc) (dups : Int) (modOptions : List ModOption) : consistentHash :=
  { point2node := []
    points := []
    dups := dups
    option := modOptions.foldl (fun o fn => fn o) { hfn := crc32 } }

/-- Method `hash2point`: the configured hash of `key`, a `uint32`. -/
def hash2point (ch : consistentHash) (key : String) : Nat :=
  ch.option.hfn key % two32

/-- Function `virtualKey`: `node + strconv.Itoa(index)`. -/
def virtualKey (node : String) (index : Nat) : String :=
  node ++ toString index

/-- Inner loop of `Add` for one node: `for i := 0; i < ch.dups; i++`. -/
def addNode (ch : consistentHash) (node : String) : consistentHash :=
  (List.range ch.dups.toNat).foldl
    (fun c i =>
      let point := hash2point c (virtualKey node i)
      { c with point2node := mapSet c.point2node point node
               points := c.points ++ [point] })
    ch

/-- Method `Add(nodes ...string)`. -/
def Add (ch : consistentHash) (nodes : List String) : consistentHash :=
  let ch1 := nodes.foldl addNode ch
  { ch1 with points := sortSlice ch1.points }

/-- Inner loop of `Del` for one node. -/
def delNode (ch : consistentHash) (node : String) : consistentHash :=
  (List.range ch.dups.toNat).foldl
    (fun c i =>
      let point := hash2point c (virtualKey node i)
      { c with point2node := mapDelete c.point2node point })
    ch

/-- Method `Del(nodes ...string)`: the point slice is rebuilt from the keys of the map and
sorted, so the order in which `range` visits the keys does not show in the result. -/
def Del (ch : consistentHash) (nodes : List String) : consistentHash :=
  let ch1 := nodes.foldl delNode ch
  { ch1 with points := sortSlice (mapKeys ch1.point2node) }

/-- Method `Get(key)`: the node and the error. -/
def Get (ch : consistentHash) (key : String) : String × Option Error :=
  if ch.points.length = 0 then ("", some Error.ErrIsEmpty)
  else
    let point := hash2point ch key
    let index := Search ch.points.length (fun i => decide (ch.points.getD i 0 ≥ point))
    let index := if index = ch.points.length then 0 else index
    (mapGet ch.point2node (ch.points.getD index 0) "", none)

/-- Body of the `for _, point := range ch.points` loop of `Nodes`, on `(ret, prev)`. -/
def nodesStep (point2node : List (Nat × String)) (st : List (String × Nat) × Nat)
    (point : Nat) : List (String × Nat) × Nat :=
  let node := mapGet point2node point ""
  (mapSet st.1 node (sub64 (add64 (mapGet st.1 node 0) point) st.2), point)

/-- Method `Nodes()`; the `nil` result of an empty ring is the empty list. -/
def Nodes (ch : consistentHash) : List (String × Nat) :=
  if ch.points.length = 0 then []
  else
    let st := ch.points.foldl (nodesStep ch.point2node) ([], 0)
    let point := ch.points.getD (ch.points.length - 1) 0
    let node := mapGet ch.point2node point ""
    mapSet st.1 node (add64 (mapGet st.1 node 0) (add32 (sub32 MaxUint32 point) 1))

/-! ## Call sequences -/

/-- One mutating call on a ring. -/
inductive Op where
  | add (nodes : List String)
  | del (nodes : List String)

/-- Effect of one call. -/
def applyOp (ch : consistentHash) : Op → consistentHash
  | Op.add nodes => Add ch nodes
  | Op.del nodes => Del ch nodes

/-- Effect of a sequence of calls, first call first. -/
def run (ch : consistentHash) (ops : List Op) : consistentHash :=
  ops.foldl applyOp ch

/-- Points that `Add` and `Del` compute for `node`: one per replica index below `dups`. -/
def virtualPoints (ch : consistentHash) (node : String) : List Nat :=
  (List.range ch.dups.toNat).map (fun i => hash2point ch (virtualKey node i))

/-- Scan of a call history, latest call first, for the latest call that names `n`:
`true` when that call is an `Add`. -/
def liveRev : List Op → String → Bool
  | [], _ => false
  | Op.add nodes :: ops, n => if n ∈ nodes then true else liveRev ops n
  | Op.del nodes :: ops, n => if n ∈ nodes then false else liveRev ops n

/-- Whether the most recent call of `ops` (first call first) that names `n` is an `Add`. -/
def live (ops : List Op) (n : String) : Bool :=
  liveRev ops.reverse n

/-- Nodes named by the calls of `ops`. -/
def opNodes : List Op → List String
  | [] => []
  | Op.add nodes :: ops => nodes ++ opNodes ops
  | Op.del nodes :: ops => nodes ++ opNodes ops

/-! ## Specification vocabulary -/

/-- Ring successor of a hash `h` among the points `pts`: the least point that is at least
`h`, or the least point of all when every point is below `h`. -/
def IsSucc (pts : List Nat) (h p : Nat) : Prop :=
  p ∈ pts ∧ ((h ≤ p ∧ ∀ q ∈ pts, h ≤ q → p ≤ q) ∨ ((∀ q ∈ pts, q < h) ∧ ∀ q ∈ pts, p ≤ q))

/-- Index that `Get` reads after the wraparound test. -/
def getIndex (pts : List Nat) (h : Nat) : Nat :=
  if Search pts.length (fun i => decide (pts.getD i 0 ≥ h)) = pts.length then 0
  else Search pts.length (fun i => decide (pts.getD i 0 ≥ h))

/-- Well-formedness of the mapping: one entry per key, and every entry `(p, n)` is one of
the points that `Add` computes for `n`. -/
def MapInv (ch : consistentHash) : Prop :=
  (mapKeys ch.point2node).Nodup ∧
    ∀ p n, mapLookup ch.point2node p = some n → p ∈ virtualPoints ch n

/-- Ring invariant: the point slice is sorted, it lists exactly the keys of the mapping, and
the mapping is well formed. -/
def Inv (ch : consistentHash) : Prop :=
  ch.points.Sorted (fun x y => x ≤ y) ∧
    (∀ p, p ∈ ch.points ↔ p ∈ mapKeys ch.point2node) ∧ MapInv ch

/-- No two distinct nodes of `nodes` have a virtual point in common. -/
def NoShare (ch : consistentHash) (nodes : List String) : Prop :=
  ∀ n ∈ nodes, ∀ m ∈ nodes, n ≠ m → ∀ p ∈ virtualPoints ch n, p ∉ virtualPoints ch m

/-- Sum of the values of a report. -/
def valuesSum (m : List (String × Nat)) : Nat :=
  (m.map Prod.snd).sum

/-- Sum of the gaps `p - prev` between consecutive points of `pts`, taken over the positions
whose point is mapped to `n`; `prev` is the point before the first one. -/
def gapSum (point2node : List (Nat × String)) (n : String) : Nat → List Nat → Nat
  | _, [] => 0
  | prev, p :: ps =>
    (if mapGet point2node p "" = n then p - prev else 0) + gapSum point2node n p ps

end ConsistentHash

/-! # LRU container of `pkg/lru`

The container keeps a `container/list` of `pair` values, most recently used first, and a map
from key to list element.  A list element is a pointer in the source; here it is a record
of an identifier, fresh for each `PushFront`, and of the value stored in the element (the
source never assigns `Value` again).  The list operations find an element by its
identifier.

Keys are interface values.  The map compares them with Go's `==`: a key that is not equal to
itself (a NaN) is never found, always makes a new entry and is never deleted, and a map
operation on an unhashable key (slice, map, function) panics.  `KeyKind` records which of
the three a key is; a panic is the result `none`. -/

namespace Lru

open ConsistentHash (mapLookup mapSet mapDelete mapKeys)

/-- Struct `pair`. -/
structure pair (K V : Type) where
  k : K
  v : V
  deriving DecidableEq, Repr

/-- Type `list.Element`: the identity `id` of the element and its `Value`. -/
structure Element (K V : Type) where
  id : Nat
  Value : pair K V
  deriving DecidableEq, Repr

/-- Struct `LRU`; `alloc` is the identifier of the next element that `PushFront` creates. -/
structure LRU (K V : Type) where
  c : Int
  m : List (K × Element K V)
  l : List (Element K V)
  alloc : Nat
  deriving DecidableEq, Repr

/-- Method `list.Remove(e)`: unlinks the element `e` when it is in the list. -/
def listRemove {K V : Type} : List (Element K V) → Element K V → List (Element K V)
  | [], _ => []
  | x :: xs, e => if x.id = e.id then xs else x :: listRemove xs e

/-- Method `list.PushFront`, given the element it creates. -/
def listPushFront {K V : Type} (l : List (Element K V)) (e : Element K V) :
    List (Element K V) :=
  e :: l

/-- Method `list.Back()`: the last element, or `nil`. -/
def listBack {K V : Type} (l : List (Element K V)) : Option (Element K V) :=
  l.getLast?

/-- Method `list.MoveToFront(e)`: moves `e` to the front when it is in the list. -/
def listMoveToFront {K V : Type} (l : List (Element K V)) (e : Element K V) :
    List (Element K V) :=
  match l.find? (fun x => decide (x.id = e.id)) with
  | some x => x :: listRemove l e
  | none => l

/-- Method `list.Len()`. -/
def listLen {K V : Type} (l : List (Element K V)) : Nat :=
  l.length

/-- Constructor `New(capacity)`. -/
def New {K V : Type} (capacity : Int) : LRU K V :=
  { c := capacity, m := [], l := [], alloc := 0 }

/-- How Go's `==` treats an interface value that is used as a key of
`map[interface{}]*list.Element`.  `K` is a type of key values on which `==` between
comparable values is equality. -/
inductive KeyKind where
  | comparable
  | irreflexive
  | unhashable
  deriving DecidableEq, Repr

/-- Map read `e, exist = m[k]` with an interface key: a key that is not equal to itself
(a NaN, or a struct or array holding one) is never found. -/
def goLookup {K E : Type} [DecidableEq K] (kind : K → KeyKind) (m : List (K × E)) (k : K) :
    Option E :=
  if kind k = KeyKind.comparable then mapLookup m k else none

/-- Map write `m[k] = e` with an interface key: a key that is not equal to itself always
makes a new entry. -/
def goSet {K E : Type} [DecidableEq K] (kind : K → KeyKind) (m : List (K × E)) (k : K)
    (e : E) : List (K × E) :=
  if kind k = KeyKind.comparable then mapSet m k e else m ++ [(k, e)]

/-- Builtin `delete(m, k)` with an interface key: nothing is deleted for a key that is not
equal to itself. -/
def goDelete {K E : Type} [DecidableEq K] (kind : K → KeyKind) (m : List (K × E)) (k : K) :
    List (K × E) :=
  if kind k = KeyKind.comparable then mapDelete m k else m

/-- Method `Put(k, v)`: the returned flag and the container after the call; `none` is the
runtime panic of the map read `lru.m[k]` on an unhashable key (slice, map, function). -/
def Put {K V : Type} [DecidableEq K] (kind : K → KeyKind) (lru : LRU K V) (k : K) (v : V) :
    Option (Bool × LRU K V) :=
  if kind k = KeyKind.unhashable then none
  else
    let found := goLookup kind lru.m k
    let lru1 : LRU K V :=
      match found with
      | some e => { lru with l := listRemove lru.l e, m := goDelete kind lru.m k }
      | none => lru
    let e : Element K V := { id := lru1.alloc, Value := { k := k, v := v } }
    let lru2 : LRU K V :=
      { lru1 with l := listPushFront lru1.l e, m := goSet kind lru1.m k e
                  alloc := lru1.alloc + 1 }
    let lru3 : LRU K V :=
      if (listLen lru2.l : Int) > lru2.c then
        match listBack lru2.l with
        | some b =>
          { lru2 with l := listRemove lru2.l b, m := goDelete kind lru2.m b.Value.k }
        | none => lru2
      else lru2
    some (!found.isSome, lru3)

/-- Method `Get(k)`: the value (`none` is `nil`) with the flag, and the container after the
call; the outer `none` is the runtime panic of the map read on an unhashable key. -/
def Get {K V : Type} [DecidableEq K] (kind : K → KeyKind) (lru : LRU K V) (k : K) :
    Option ((Option V × Bool) × LRU K V) :=
  if kind k = KeyKind.unhashable then none
  else
    match goLookup kind lru.m k with
    | none => some ((none, false), lru)
    | some e => some ((some e.Value.v, true), { lru with l := listMoveToFront lru.l e })

/-- Method `Size()`. -/
def Size {K V : Type} (lru : LRU K V) : Nat :=
  listLen lru.l

/-- One call on a container. -/
inductive Call (K V : Type) where
  | put (k : K) (v : V)
  | get (k : K)

/-- Key given to a call. -/
def callKey {K V : Type} : Call K V → K
  | Call.put k _ => k
  | Call.get k => k

/-- Container after one call; `none` when the call panics. -/
def step {K V : Type} [DecidableEq K] (kind : K → KeyKind) (lru : LRU K V) :
    Call K V → Option (LRU K V)
  | Call.put k v => (Put kind lru k v).map Prod.snd
  | Call.get k => (Get kind lru k).map Prod.snd

/-- Container after a sequence of calls, first call first; `none` when a call panics. -/
def run {K V : Type} [DecidableEq K] (kind : K → KeyKind) :
    LRU K V → List (Call K V) → Option (LRU K V)
  | lru, [] => some lru
  | lru, call :: calls =>
    match step kind lru call with
    | none => none
    | some lru1 => run kind lru1 calls

/-- A container together with the number of calls made so far and, for every key, the
position of the latest call that used it (a `Put` of the key or a successful `Get` of it);
0 stands for a key that was never used. -/
structure Timed (K V : Type) where
  st : LRU K V
  clock : Nat
  used : K → Nat

/-- One call on a timed container; `none` when the call panics. -/
def stepT {K V : Type} [DecidableEq K] (kind : K → KeyKind) (x : Timed K V) :
    Call K V → Option (Timed K V)
  | Call.put k v =>
    (Put kind x.st k v).map (fun r =>
      { st := r.2
        clock := x.clock + 1
        used := fun y => if y = k then x.clock + 1 else x.used y })
  | Call.get k =>
    (Get kind x.st k).map (fun r =>
      { st := r.2
        clock := x.clock + 1
        used := fun y => if r.1.2 = true ∧ y = k then x.clock + 1 else x.used y })

/-- Timed container after a sequence of calls; `none` when a call panics. -/
def runTFrom {K V : Type} [DecidableEq K] (kind : K → KeyKind) :
    Timed K V → List (Call K V) → Option (Timed K V)
  | x, [] => some x
  | x, call :: calls =>
    match stepT kind x call with
    | none => none
    | some x1 => runTFrom kind x1 calls

/-- Timed container after a sequence of calls on `New capacity`. -/
def runT {K V : Type} [DecidableEq K] (kind : K → KeyKind) (capacity : Int)
    (calls : List (Call K V)) : Option (Timed K V) :=
  runTFrom kind { st := New capacity, clock := 0, used := fun _ => 0 } calls

/-- Position of the latest call of `calls` that used `k`, 0 when there is none. -/
def lastUse {K V : Type} [DecidableEq K] (kind : K → KeyKind) (capacity : Int)
    (calls : List (Call K V)) (k : K) : Nat :=
  match runT kind capacity calls with
  | some x => x.used k
  | none => 0

/-- Interface values used as keys in the examples: strings, the `float64` NaN, and a
slice. -/
inductive SampleKey where
  | str (s : String)
  | nan
  | slice
  deriving DecidableEq, Repr

/-- Go's `==` on the example keys. -/
def sampleKind : SampleKey → KeyKind
  | SampleKey.str _ => KeyKind.comparable
  | SampleKey.nan => KeyKind.irreflexive
  | SampleKey.slice => KeyKind.unhashable

/-! ## The container on comparable keys

When every key in the container and the key of the call are comparable, the map behaves as
a map with lawful key equality and no call panics.  The definitions of this section are
`Put`, `Get` and the call sequences in that case; `Put_comparable`, `Get_comparable` and
`run_comparable` relate them to the methods above. -/

/-- Method `Put` on comparable keys. -/
def putCmp {K V : Type} [DecidableEq K] (lru : LRU K V) (k : K) (v : V) : Bool × LRU K V :=
  let found := mapLookup lru.m k
  let lru1 : LRU K V :=
    match found with
    | some e => { lru with l := listRemove lru.l e, m := mapDelete lru.m k }
    | none => lru
  let e : Element K V := { id := lru1.alloc, Value := { k := k, v := v } }
  let lru2 : LRU K V :=
    { lru1 with l := listPushFront lru1.l e, m := mapSet lru1.m k e, alloc := lru1.alloc + 1 }
  let lru3 : LRU K V :=
    if (listLen lru2.l : Int) > lru2.c then
      match listBack lru2.l with
      | some b => { lru2 with l := listRemove lru2.l b, m := mapDelete lru2.m b.Value.k }
      | none => lru2
    else lru2
  (!found.isSome, lru3)

/-- Method `Get` on comparable keys. -/
def getCmp {K V : Type} [DecidableEq K] (lru : LRU K V) (k : K) :
    (Option V × Bool) × LRU K V :=
  match mapLookup lru.m k with
  | none => ((none, false), lru)
  | some e => ((some e.Value.v, true), { lru with l := listMoveToFront lru.l e })

/-- Container after one call on a comparable key. -/
def stepCmp {K V : Type} [DecidableEq K] (lru : LRU K V) : Call K V → LRU K V
  | Call.put k v => (putCmp lru k v).2
  | Call.get k => (getCmp lru k).2

/-- Container after a sequence of calls on comparable keys, first call first. -/
def runCmp {K V : Type} [DecidableEq K] (lru : LRU K V) (calls : List (Call K V)) :
    LRU K V :=
  calls.foldl stepCmp lru

/-- One call on a comparable key on a timed container. -/
def stepTCmp {K V : Type} [DecidableEq K] (x : Timed K V) : Call K V → Timed K V
  | Call.put k v =>
    { st := (putCmp x.st k v).2
      clock := x.clock + 1
      used := fun y => if y = k then x.clock + 1 else x.used y }
  | Call.get k =>
    { st := (getCmp x.st k).2
      clock := x.clock + 1
      used := fun y => if (getCmp x.st k).1.2 = true ∧ y = k then x.clock + 1 else x.used y }

/-- Timed container after a sequence of calls on comparable keys on `New capacity`. -/
def runTCmp {K V : Type} [DecidableEq K] (capacity : Int) (calls : List (Call K V)) :
    Timed K V :=
  calls.foldl stepTCmp { st := New capacity, clock := 0, used := fun _ => 0 }

/-- Position of the latest call of `calls`, all on comparable keys, that used `k`. -/
def lastUseCmp {K V : Type} [DecidableEq K] (capacity : Int) (calls : List (Call K V))
    (k : K) : Nat :=
  (runTCmp capacity calls).used k

/-- Every key of the list is comparable. -/
def AllCmp {K V : Type} (kind : K → KeyKind) (s : LRU K V) : Prop :=
  ∀ e ∈ s.l, kind e.Value.k = KeyKind.comparable

/-- Key of an element. -/
def keyOf {K V : Type} (e : Element K V) : K :=
  e.Value.k

/-- No two elements of the list share an identifier or a key. -/
def Uniq {K V : Type} (l : List (Element K V)) : Prop :=
  l.Pairwise (fun a b => a.id ≠ b.id ∧ keyOf a ≠ keyOf b)

/-- Consistency of list and map: elements are unique, their identifiers are below `alloc`,
and the map sends exactly the keys of the list to their elements. -/
def Core {K V : Type} [DecidableEq K] (s : LRU K V) : Prop :=
  Uniq s.l ∧ (∀ e ∈ s.l, e.id < s.alloc) ∧
    (∀ k e, mapLookup s.m k = some e ↔ (e ∈ s.l ∧ keyOf e = k))

/-- Container invariant: list and map are consistent, and a non-negative capacity bounds
the length of the list. -/
def WF {K V : Type} [DecidableEq K] (s : LRU K V) : Prop :=
  Core s ∧ (0 ≤ s.c → (s.l.length : Int) ≤ s.c)

/-- The list without the elements of key `k`. -/
def dropKey {K V : Type} [DecidableEq K] (k : K) : List (Element K V) → List (Element K V)
  | [] => []
  | x :: xs => if keyOf x = k then dropKey k xs else x :: dropKey k xs

/-- Container in the middle of `putCmp`, after the new element is pushed and before the
capacity test, on a consistent container. -/
def putFront {K V : Type} [DecidableEq K] (s : LRU K V) (k : K) (v : V) : LRU K V :=
  { c := s.c
    m := mapSet (mapDelete s.m k) k { id := s.alloc, Value := { k := k, v := v } }
    l := { id := s.alloc, Value := { k := k, v := v } } :: dropKey k s.l
    alloc := s.alloc + 1 }

/-- Capacity test at the end of `putCmp`, on a consistent container. -/
def evict {K V : Type} [DecidableEq K] (s : LRU K V) : LRU K V :=
  if (s.l.length : Int) > s.c then
    match s.l.getLast? with
    | some b => { s with l := s.l.dropLast, m := mapDelete s.m (keyOf b) }
    | none => s
  else s

/-- Invariant of a timed container: the container invariant holds, no key of the list was
used after the latest call, and the list is ordered by the time of the latest use, latest
first. -/
def TInv {K V : Type} [DecidableEq K] (x : Timed K V) : Prop :=
  WF x.st ∧ (∀ e ∈ x.st.l, x.used (keyOf e) ≤ x.clock) ∧
    x.st.l.Pairwise (fun a b => x.used (keyOf b) < x.used (keyOf a))

end Lru

/-! # Circular queue of `pkg/circularqueue`

The queue is a slice `core` of `capacity + 1` slots used as a ring, with the index `first`
of the oldest element and the index `last` of the slot after the newest one.  A slot holds
`none` for `nil` and `some v` for a pushed value.  The constructor is given a capacity that
is not negative, and all indices are natural numbers: `first` stays below `capacity`, so
`last + capacity - first` is never negative. -/

namespace Circularqueue

/-- Error values of the package. -/
inductive Error where
  | ErrCircularQueue
  deriving DecidableEq, Repr

/-- Struct `CircularQueue`. -/
structure CircularQueue (V : Type) where
  capacity : Nat
  core : List (Option V)
  first : Nat
  last : Nat
  deriving DecidableEq, Repr

/-- Constructor `New(capacity)`. -/
def New {V : Type} (capacity : Nat) : CircularQueue V :=
  { capacity := capacity + 1
    core := List.replicate (capacity + 1) none
    first := 0
    last := 0 }

/-- Method `Size()`. -/
def Size {V : Type} (c : CircularQueue V) : Nat :=
  (c.last + c.capacity - c.first) % c.capacity

/-- Method `Full()`. -/
def Full {V : Type} (c : CircularQueue V) : Bool :=
  decide ((c.last + 1) % c.capacity = c.first)

/-- Method `Empty()`. -/
def Empty {V : Type} (c : CircularQueue V) : Bool :=
  decide (c.first = c.last)

/-- Method `PushBack(v)`: the error and the queue after the call. -/
def PushBack {V : Type} (c : CircularQueue V) (v : V) : Option Error × CircularQueue V :=
  if Full c = true then (some Error.ErrCircularQueue, c)
  else
    (none, { c with core := c.core.set c.last (some v)
                    last := (c.last + 1) % c.capacity })

/-- Method `PopFront()`: the value with the error, and the queue after the call. -/
def PopFront {V : Type} (c : CircularQueue V) :
    (Option V × Option Error) × CircularQueue V :=
  if Empty c = true then ((none, some Error.ErrCircularQueue), c)
  else ((c.core.getD c.first none, none), { c with first := (c.first + 1) % c.capacity })

/-- Method `Front()`. -/
def Front {V : Type} (c : CircularQueue V) : Option V × Option Error :=
  if Empty c = true then (none, some Error.ErrCircularQueue)
  else (c.core.getD c.first none, none)

/-- Method `Back()`. -/
def Back {V : Type} (c : CircularQueue V) : Option V × Option Error :=
  if Empty c = true then (none, some Error.ErrCircularQueue)
  else (c.core.getD ((c.last + c.capacity - 1) % c.capacity) none, none)

/-- Method `At(i)` for an index `i` that is not negative; the test `i > c.Size()-1` is on
integers. -/
def At {V : Type} (c : CircularQueue V) (i : Nat) : Option V × Option Error :=
  if (i : Int) > (Size c : Int) - 1 then (none, some Error.ErrCircularQueue)
  else (c.core.getD ((c.first + i) % c.capacity) none, none)

/-! ## Bounded FIFO list -/

/-- Model of `PushBack`: appends while fewer than `cap` elements are held. -/
def specPushBack {V : Type} (cap : Nat) (xs : List V) (v : V) : Option Error × List V :=
  if xs.length < cap then (none, xs ++ [v]) else (some Error.ErrCircularQueue, xs)

/-- Model of `PopFront`: removes and returns the oldest element. -/
def specPopFront {V : Type} : List V → (Option V × Option Error) × List V
  | [] => ((none, some Error.ErrCircularQueue), [])
  | x :: xs => ((some x, none), xs)

/-- Model of `Front`: the head. -/
def specFront {V : Type} : List V → Option V × Option Error
  | [] => (none, some Error.ErrCircularQueue)
  | x :: _ => (some x, none)

/-- Model of `Back`: the last element. -/
def specBack {V : Type} (xs : List V) : Option V × Option Error :=
  match xs.getLast? with
  | none => (none, some Error.ErrCircularQueue)
  | some x => (some x, none)

/-- Model of `At`: the element at position `i`. -/
def specAt {V : Type} (xs : List V) (i : Nat) : Option V × Option Error :=
  match xs[i]? with
  | none => (none, some Error.ErrCircularQueue)
  | some x => (some x, none)

/-! ## Call sequences -/

/-- One call on a queue. -/
inductive QCall (V : Type) where
  | pushBack (v : V)
  | popFront
  | front
  | back
  | atIndex (i : Nat)
  | size
  | full
  | empty

/-- What a call returns. -/
inductive QResult (V : Type) where
  | err (e : Option Error)
  | val (r : Option V × Option Error)
  | num (n : Nat)
  | flag (b : Bool)
  deriving DecidableEq, Repr

/-- One call on the queue: its result and the queue after it. -/
def stepImpl {V : Type} (c : CircularQueue V) : QCall V → QResult V × CircularQueue V
  | QCall.pushBack v => (QResult.err (PushBack c v).1, (PushBack c v).2)
  | QCall.popFront => (QResult.val (PopFront c).1, (PopFront c).2)
  | QCall.front => (QResult.val (Front c), c)
  | QCall.back => (QResult.val (Back c), c)
  | QCall.atIndex i => (QResult.val (At c i), c)
  | QCall.size => (QResult.num (Size c), c)
  | QCall.full => (QResult.flag (Full c), c)
  | QCall.empty => (QResult.flag (Empty c), c)

/-- One call on the list model of bound `cap`: its result and the list after it. -/
def stepSpec {V : Type} (cap : Nat) (xs : List V) : QCall V → QResult V × List V
  | QCall.pushBack v => (QResult.err (specPushBack cap xs v).1, (specPushBack cap xs v).2)
  | QCall.popFront => (QResult.val (specPopFront xs).1, (specPopFront xs).2)
  | QCall.front => (QResult.val (specFront xs), xs)
  | QCall.back => (QResult.val (specBack xs), xs)
  | QCall.atIndex i => (QResult.val (specAt xs i), xs)
  | QCall.size => (QResult.num xs.length, xs)
  | QCall.full => (QResult.flag (decide (xs.length = cap)), xs)
  | QCall.empty => (QResult.flag (decide (xs.length = 0)), xs)

/-- Results of a sequence of calls on the queue, and the queue after them. -/
def runImpl {V : Type} (c : CircularQueue V) (calls : List (QCall V)) :
    List (QResult V) × CircularQueue V :=
  calls.foldl (fun acc call => (acc.1 ++ [(stepImpl acc.2 call).1], (stepImpl acc.2 call).2))
    ([], c)

/-- Results of a sequence of calls on the list model, and the list after them. -/
def runSpec {V : Type} (cap : Nat) (xs : List V) (calls : List (QCall V)) :
    List (QResult V) × List V :=
  calls.foldl
    (fun acc call => (acc.1 ++ [(stepSpec cap acc.2 call).1], (stepSpec cap acc.2 call).2))
    ([], xs)

/-- Contents of the queue, oldest element first. -/
def toList {V : Type} (c : CircularQueue V) : List (Option V) :=
  (List.range (Size c)).map (fun i => c.core.getD ((c.first + i) % c.capacity) none)

/-- Simulation relation between a queue built by `New cap` and the list model. -/
def Rel {V : Type} (cap : Nat) (c : CircularQueue V) (xs : List V) : Prop :=
  c.capacity = cap + 1 ∧ c.core.length = cap + 1 ∧ c.first < cap + 1 ∧ c.last < cap + 1 ∧
    Size c = xs.length ∧
    ∀ i, i < xs.length → c.core.getD ((c.first + i) % c.capacity) none = xs[i]?

end Circularqueue

namespace ConsistentHash

/-! ## Association lists: lookups after writes and deletions -/

theorem mapLookup_mapSet {κ ν : Type} [DecidableEq κ] (m : List (κ × ν)) (k k' : κ) (v : ν) :
    mapLookup (mapSet m k v) k' = if k = k' then some v else mapLookup m k' := by
  induction m with
  | nil => simp [mapSet, mapLookup]
  | cons e m ih =>
    obtain ⟨a, b⟩ := e
    by_cases hak : a = k
    · subst hak
      by_cases hak' : a = k' <;> simp [mapSet, mapLookup, hak']
    · by_cases hak' : a = k'
      · subst hak'
        have hne : ¬ k = a := fun h => hak h.symm
        simp [mapSet, mapLookup, hak, hne]
      · simp [mapSet, mapLookup, hak, hak', ih]

theorem mapLookup_mapDelete {κ ν : Type} [DecidableEq κ] (m : List (κ × ν)) (k k' : κ) :
    mapLookup (mapDelete m k) k' = if k = k' then none else mapLookup m k' := by
  induction m with
  | nil => simp [mapDelete, mapLookup]
  | cons e m ih =>
    obtain ⟨a, b⟩ := e
    by_cases hak : a = k
    · subst hak
      by_cases hak' : a = k'
      · subst hak'
        simpa [mapDelete, mapLookup] using ih
      · simp [mapDelete, mapLookup, hak', ih]
    · by_cases hak' : a = k'
      · subst hak'
        have hne : ¬ k = a := fun h => hak h.symm
        simp [mapDelete, mapLookup, hak, hne]
      · simp [mapDelete, mapLookup, hak, hak', ih]

theorem mem_mapKeys_iff {κ ν : Type} [DecidableEq κ] (m : List (κ × ν)) (k : κ) :
    k ∈ mapKeys m ↔ ∃ v, mapLookup m k = some v := by
  induction m with
  | nil => simp [mapKeys, mapLookup]
  | cons e m ih =>
    obtain ⟨a, b⟩ := e
    by_cases hak : a = k
    · subst hak
      simp [mapKeys, mapLookup]
    · have hne : ¬ k = a := fun h => hak h.symm
      unfold mapKeys at ih
      simp [mapKeys, mapLookup, hak, hne, ih]

theorem not_mem_mapKeys_iff {κ ν : Type} [DecidableEq κ] (m : List (κ × ν)) (k : κ) :
    k ∉ mapKeys m ↔ mapLookup m k = none := by
  rw [mem_mapKeys_iff]
  cases h : mapLookup m k <;> simp

theorem mem_of_mapLookup {κ ν : Type} [DecidableEq κ] (m : List (κ × ν)) (k : κ) (v : ν)
    (h : mapLookup m k = some v) : (k, v) ∈ m := by
  induction m with
  | nil => simp [mapLookup] at h
  | cons e m ih =>
    obtain ⟨a, b⟩ := e
    by_cases hak : a = k
    · subst hak
      simp [mapLookup] at h
      simp [h]
    · simp [mapLookup, hak] at h
      exact List.mem_cons_of_mem _ (ih h)

theorem mapLookup_of_mem {κ ν : Type} [DecidableEq κ] (m : List (κ × ν)) (k : κ) (v : ν)
    (hnd : (mapKeys m).Nodup) (h : (k, v) ∈ m) : mapLookup m k = some v := by
  induction m with
  | nil => simp at h
  | cons e m ih =>
    obtain ⟨a, b⟩ := e
    simp only [mapKeys, List.map_cons, List.nodup_cons] at hnd
    rcases List.mem_cons.1 h with heq | hmem
    · cases heq
      simp [mapLookup]
    · have hne : a ≠ k := by
        intro hak
        subst hak
        exact hnd.1 (List.mem_map.2 ⟨(a, v), hmem, rfl⟩)
      simp [mapLookup, hne]
      exact ih hnd.2 hmem

theorem mapSet_eq_self {κ ν : Type} [DecidableEq κ] (m : List (κ × ν)) (k : κ) (v : ν)
    (h : mapLookup m k = some v) : mapSet m k v = m := by
  induction m with
  | nil => simp [mapLookup] at h
  | cons e m ih =>
    obtain ⟨a, b⟩ := e
    by_cases hak : a = k
    · subst hak
      simp [mapLookup] at h
      simp [mapSet, h]
    · simp [mapLookup, hak] at h
      simp [mapSet, hak, ih h]

theorem mapDelete_eq_self {κ ν : Type} [DecidableEq κ] (m : List (κ × ν)) (k : κ)
    (h : mapLookup m k = none) : mapDelete m k = m := by
  induction m with
  | nil => simp [mapDelete]
  | cons e m ih =>
    obtain ⟨a, b⟩ := e
    by_cases hak : a = k
    · subst hak
      simp [mapLookup] at h
    · simp [mapLookup, hak] at h
      simp [mapDelete, hak, ih h]

theorem mapDelete_sublist {κ ν : Type} [DecidableEq κ] (m : List (κ × ν)) (k : κ) :
    List.Sublist (mapDelete m k) m := by
  induction m with
  | nil => simp [mapDelete]
  | cons e m ih =>
    obtain ⟨a, b⟩ := e
    by_cases hak : a = k
    · simp only [mapDelete, hak, if_true]
      exact List.Sublist.cons _ ih
    · simp only [mapDelete, hak, if_false]
      exact List.Sublist.cons₂ _ ih

theorem mapKeys_mapSet_mem {κ ν : Type} [DecidableEq κ] (m : List (κ × ν)) (k k' : κ) (v : ν) :
    k' ∈ mapKeys (mapSet m k v) ↔ k' = k ∨ k' ∈ mapKeys m := by
  rw [mem_mapKeys_iff, mem_mapKeys_iff, mapLookup_mapSet]
  by_cases h : k = k'
  · subst h
    simp
  · have h' : ¬ k' = k := fun e => h e.symm
    simp [h, h']

theorem nodup_mapKeys_mapSet {κ ν : Type} [DecidableEq κ] (m : List (κ × ν)) (k : κ) (v : ν)
    (hnd : (mapKeys m).Nodup) : (mapKeys (mapSet m k v)).Nodup := by
  induction m with
  | nil => simp [mapSet, mapKeys]
  | cons e m ih =>
    obtain ⟨a, b⟩ := e
    have hnd' := hnd
    simp only [mapKeys, List.map_cons, List.nodup_cons] at hnd'
    by_cases hak : a = k
    · subst hak
      simpa [mapSet, mapKeys] using hnd'
    · have h1 : a ∉ mapKeys (mapSet m k v) := by
        rw [mapKeys_mapSet_mem]
        rintro (h | h)
        · exact hak h
        · exact hnd'.1 h
      have h2 := ih hnd'.2
      simp only [mapSet, hak, if_false, mapKeys, List.map_cons, List.nodup_cons]
      exact ⟨h1, h2⟩

theorem nodup_mapKeys_mapDelete {κ ν : Type} [DecidableEq κ] (m : List (κ × ν)) (k : κ)
    (hnd : (mapKeys m).Nodup) : (mapKeys (mapDelete m k)).Nodup := by
  unfold mapKeys
  exact List.Nodup.sublist (List.Sublist.map _ (mapDelete_sublist m k)) hnd

/-! ## Binary search -/

theorem searchLoop_spec (f : Nat → Bool) (n : Nat)
    (hmono : ∀ a b, a ≤ b → b < n → f a = true → f b = true) :
    ∀ (fuel i j : Nat), i ≤ j → j ≤ n → j - i ≤ fuel →
      (∀ a, a < i → f a = false) → (∀ a, j ≤ a → a < n → f a = true) →
      searchLoop f fuel i j ≤ n ∧ (∀ a, a < searchLoop f fuel i j → f a = false) ∧
        (∀ a, searchLoop f fuel i j ≤ a → a < n → f a = true) := by
  intro fuel
  induction fuel with
  | zero =>
    intro i j hij hjn hfuel hlo hhi
    have heq : i = j := by omega
    subst heq
    exact ⟨hjn, hlo, hhi⟩
  | succ fuel ih =>
    intro i j hij hjn hfuel hlo hhi
    unfold searchLoop
    by_cases hlt : i < j
    · have hh1 : i ≤ (i + j) / 2 := by omega
      have hh2 : (i + j) / 2 < j := by omega
      simp only [hlt, if_true]
      cases hf : f ((i + j) / 2) with
      | false =>
        simp only [Bool.not_false, if_true]
        refine ih ((i + j) / 2 + 1) j (by omega) hjn (by omega) ?_ hhi
        intro a ha
        cases hfa : f a with
        | false => rfl
        | true =>
          have := hmono a ((i + j) / 2) (by omega) (by omega) hfa
          rw [hf] at this
          exact (Bool.false_ne_true this).elim
      | true =>
        simp only [Bool.not_true, Bool.false_eq_true, if_false]
        refine ih i ((i + j) / 2) hh1 (by omega) (by omega) hlo ?_
        intro a ha han
        exact hmono ((i + j) / 2) a ha han hf
    · have heq : i = j := by omega
      subst heq
      simp only [hlt, if_false]
      exact ⟨hjn, hlo, hhi⟩

theorem Search_spec (f : Nat → Bool) (n : Nat)
    (hmono : ∀ a b, a ≤ b → b < n → f a = true → f b = true) :
    Search n f ≤ n ∧ (∀ a, a < Search n f → f a = false) ∧
      (∀ a, Search n f ≤ a → a < n → f a = true) := by
  unfold Search
  refine searchLoop_spec f n hmono n 0 n (Nat.zero_le _) (Nat.le_refl _) (by omega) ?_ ?_
  · intro a ha
    omega
  · intro a ha han
    omega

theorem sorted_getD_le (l : List Nat) (hs : l.Sorted (fun x y => x ≤ y)) (a b : Nat)
    (hab : a ≤ b) (hb : b < l.length) : l.getD a 0 ≤ l.getD b 0 := by
  have ha : a < l.length := by omega
  rw [List.getD_eq_getElem l 0 ha, List.getD_eq_getElem l 0 hb]
  exact hs.rel_get_of_le (Fin.mk_le_mk.2 hab)

theorem getD_mem (l : List Nat) (a : Nat) (ha : a < l.length) : l.getD a 0 ∈ l := by
  rw [List.getD_eq_getElem l 0 ha]
  exact List.getElem_mem ha

theorem exists_getD_of_mem (l : List Nat) (q : Nat) (hq : q ∈ l) :
    ∃ a, a < l.length ∧ l.getD a 0 = q := by
  obtain ⟨i, hi⟩ := List.get_of_mem hq
  exact ⟨i.1, i.2, by rw [List.getD_eq_getElem l 0 i.2]; exact hi⟩

theorem getIndex_spec (pts : List Nat) (h : Nat) (hs : pts.Sorted (fun x y => x ≤ y))
    (hne : pts ≠ []) : getIndex pts h < pts.length ∧ IsSucc pts h (pts.getD (getIndex pts h) 0) := by
  have hlen : 0 < pts.length := List.length_pos.2 hne
  have hmono : ∀ a b, a ≤ b → b < pts.length →
      (fun i => decide (pts.getD i 0 ≥ h)) a = true →
      (fun i => decide (pts.getD i 0 ≥ h)) b = true := by
    intro a b hab hb hfa
    simp only [ge_iff_le, decide_eq_true_eq] at hfa ⊢
    exact Nat.le_trans hfa (sorted_getD_le pts hs a b hab hb)
  obtain ⟨h1, h2, h3⟩ := Search_spec _ pts.length hmono
  unfold getIndex
  by_cases hr : Search pts.length (fun i => decide (pts.getD i 0 ≥ h)) = pts.length
  · simp only [hr, if_true]
    refine ⟨hlen, getD_mem pts 0 hlen, Or.inr ⟨?_, ?_⟩⟩
    · intro q hq
      obtain ⟨a, ha, rfl⟩ := exists_getD_of_mem pts q hq
      have := h2 a (by rw [hr]; exact ha)
      simp only [ge_iff_le, decide_eq_false_iff_not, not_le] at this
      exact this
    · intro q hq
      obtain ⟨a, ha, rfl⟩ := exists_getD_of_mem pts q hq
      exact sorted_getD_le pts hs 0 a (Nat.zero_le _) ha
  · simp only [hr, if_false]
    have hlt : Search pts.length (fun i => decide (pts.getD i 0 ≥ h)) < pts.length := by omega
    refine ⟨hlt, getD_mem pts _ hlt, Or.inl ⟨?_, ?_⟩⟩
    · have := h3 _ (Nat.le_refl _) hlt
      simp only [ge_iff_le, decide_eq_true_eq] at this
      exact this
    · intro q hq hhq
      obtain ⟨a, ha, rfl⟩ := exists_getD_of_mem pts q hq
      by_cases hra : Search pts.length (fun i => decide (pts.getD i 0 ≥ h)) ≤ a
      · exact sorted_getD_le pts hs _ a hra ha
      · have := h2 a (by omega)
        simp only [ge_iff_le, decide_eq_false_iff_not, not_le] at this
        omega

theorem IsSucc_unique (pts : List Nat) (h p q : Nat) (hp : IsSucc pts h p)
    (hq : IsSucc pts h q) : p = q := by
  obtain ⟨hp1, hp2⟩ := hp
  obtain ⟨hq1, hq2⟩ := hq
  rcases hp2 with ⟨a1, a2⟩ | ⟨a1, a2⟩ <;> rcases hq2 with ⟨b1, b2⟩ | ⟨b1, b2⟩
  · exact Nat.le_antisymm (a2 q hq1 b1) (b2 p hp1 a1)
  · have := b1 p hp1
    omega
  · have := a1 q hq1
    omega
  · exact Nat.le_antisymm (a2 q hq1) (b2 p hp1)

theorem IsSucc_congr (pts pts' : List Nat) (h p : Nat) (hmem : ∀ q, q ∈ pts ↔ q ∈ pts')
    (hp : IsSucc pts h p) : IsSucc pts' h p := by
  obtain ⟨hp1, hp2⟩ := hp
  refine ⟨(hmem p).1 hp1, ?_⟩
  rcases hp2 with ⟨a1, a2⟩ | ⟨a1, a2⟩
  · exact Or.inl ⟨a1, fun q hq => a2 q ((hmem q).2 hq)⟩
  · exact Or.inr ⟨fun q hq => a1 q ((hmem q).2 hq), fun q hq => a2 q ((hmem q).2 hq)⟩

theorem Get_eq_of_ne (ch : consistentHash) (key : String) (hne : ch.points ≠ []) :
    Get ch key =
      (mapGet ch.point2node (ch.points.getD (getIndex ch.points (hash2point ch key)) 0) "",
        none) := by
  have hlen : ¬ ch.points.length = 0 := fun h => hne (List.length_eq_zero.1 h)
  unfold Get getIndex
  simp only [hlen, if_false]

theorem Get_eq_of_nil (ch : consistentHash) (key : String) (hnil : ch.points = []) :
    Get ch key = ("", some Error.ErrIsEmpty) := by
  unfold Get
  simp [hnil]

/-! ## The loops of `Add` and `Del` -/

theorem mapLookup_foldl_mapSet (ps : List Nat) (v : String) :
    ∀ (m : List (Nat × String)) (q : Nat),
      mapLookup (ps.foldl (fun m p => mapSet m p v) m) q =
        if q ∈ ps then some v else mapLookup m q := by
  induction ps with
  | nil => intro m q; simp
  | cons a ps ih =>
    intro m q
    rw [List.foldl_cons, ih, mapLookup_mapSet]
    by_cases h1 : q ∈ ps
    · simp [h1]
    · by_cases h2 : a = q
      · subst h2
        simp
      · have h3 : ¬ q = a := fun e => h2 e.symm
        simp [h1, h2, h3]

theorem mapLookup_foldl_mapDelete (ps : List Nat) :
    ∀ (m : List (Nat × String)) (q : Nat),
      mapLookup (ps.foldl (fun m p => mapDelete m p) m) q =
        if q ∈ ps then none else mapLookup m q := by
  induction ps with
  | nil => intro m q; simp
  | cons a ps ih =>
    intro m q
    rw [List.foldl_cons, ih, mapLookup_mapDelete]
    by_cases h1 : q ∈ ps
    · simp [h1]
    · by_cases h2 : a = q
      · subst h2
        simp
      · have h3 : ¬ q = a := fun e => h2 e.symm
        simp [h1, h2, h3]

theorem nodup_foldl_mapSet (ps : List Nat) (v : String) :
    ∀ (m : List (Nat × String)), (mapKeys m).Nodup →
      (mapKeys (ps.foldl (fun m p => mapSet m p v) m)).Nodup := by
  induction ps with
  | nil => intro m h; exact h
  | cons a ps ih =>
    intro m h
    rw [List.foldl_cons]
    exact ih _ (nodup_mapKeys_mapSet m a v h)

theorem nodup_foldl_mapDelete (ps : List Nat) :
    ∀ (m : List (Nat × String)), (mapKeys m).Nodup →
      (mapKeys (ps.foldl (fun m p => mapDelete m p) m)).Nodup := by
  induction ps with
  | nil => intro m h; exact h
  | cons a ps ih =>
    intro m h
    rw [List.foldl_cons]
    exact ih _ (nodup_mapKeys_mapDelete m a h)

theorem addLoop_spec (node : String) (is : List Nat) :
    ∀ (ch : consistentHash),
      (is.foldl
        (fun c i =>
          let point := hash2point c (virtualKey node i)
          { c with point2node := mapSet c.point2node point node
                   points := c.points ++ [point] })
        ch) =
      { ch with
        point2node :=
          (is.map (fun i => hash2point ch (virtualKey node i))).foldl
            (fun m p => mapSet m p node) ch.point2node
        points := ch.points ++ is.map (fun i => hash2point ch (virtualKey node i)) } := by
  induction is with
  | nil => intro ch; simp
  | cons i is ih =>
    intro ch
    rw [List.foldl_cons, ih]
    simp [hash2point, List.append_assoc]

theorem delLoop_spec (node : String) (is : List Nat) :
    ∀ (ch : consistentHash),
      (is.foldl
        (fun c i =>
          let point := hash2point c (virtualKey node i)
          { c with point2node := mapDelete c.point2node point })
        ch) =
      { ch with
        point2node :=
          (is.map (fun i => hash2point ch (virtualKey node i))).foldl
            (fun m p => mapDelete m p) ch.point2node } := by
  induction is with
  | nil => intro ch; simp
  | cons i is ih =>
    intro ch
    rw [List.foldl_cons, ih]
    simp [hash2point]

theorem addNode_eq (ch : consistentHash) (node : String) :
    addNode ch node =
      { ch with
        point2node := (virtualPoints ch node).foldl (fun m p => mapSet m p node) ch.point2node
        points := ch.points ++ virtualPoints ch node } := by
  unfold addNode virtualPoints
  exact addLoop_spec node _ ch

theorem delNode_eq (ch : consistentHash) (node : String) :
    delNode ch node =
      { ch with
        point2node := (virtualPoints ch node).foldl (fun m p => mapDelete m p) ch.point2node } := by
  unfold delNode virtualPoints
  exact delLoop_spec node _ ch

theorem virtualPoints_congr (ch ch' : consistentHash) (hd : ch'.dups = ch.dups)
    (ho : ch'.option = ch.option) (node : String) :
    virtualPoints ch' node = virtualPoints ch node := by
  unfold virtualPoints hash2point
  rw [hd, ho]

theorem hash2point_congr (ch ch' : consistentHash) (ho : ch'.option = ch.option) (key : String) :
    hash2point ch' key = hash2point ch key := by
  unfold hash2point
  rw [ho]

theorem hash2point_lt (ch : consistentHash) (key : String) : hash2point ch key < two32 := by
  unfold hash2point two32
  exact Nat.mod_lt _ (by decide)

theorem virtualPoints_lt (ch : consistentHash) (node : String) (p : Nat)
    (hp : p ∈ virtualPoints ch node) : p < two32 := by
  unfold virtualPoints at hp
  obtain ⟨i, _, rfl⟩ := List.mem_map.1 hp
  exact hash2point_lt ch _

theorem addNode_dups (ch : consistentHash) (node : String) : (addNode ch node).dups = ch.dups := by
  rw [addNode_eq]

theorem addNode_option (ch : consistentHash) (node : String) :
    (addNode ch node).option = ch.option := by
  rw [addNode_eq]

theorem delNode_dups (ch : consistentHash) (node : String) : (delNode ch node).dups = ch.dups := by
  rw [delNode_eq]

theorem delNode_option (ch : consistentHash) (node : String) :
    (delNode ch node).option = ch.option := by
  rw [delNode_eq]

theorem addNode_points (ch : consistentHash) (node : String) :
    (addNode ch node).points = ch.points ++ virtualPoints ch node := by
  rw [addNode_eq]

theorem delNode_points (ch : consistentHash) (node : String) :
    (delNode ch node).points = ch.points := by
  rw [delNode_eq]

theorem mapLookup_addNode (ch : consistentHash) (node : String) (q : Nat) :
    mapLookup (addNode ch node).point2node q =
      if q ∈ virtualPoints ch node then some node else mapLookup ch.point2node q := by
  rw [addNode_eq]
  exact mapLookup_foldl_mapSet _ _ _ _

theorem mapLookup_delNode (ch : consistentHash) (node : String) (q : Nat) :
    mapLookup (delNode ch node).point2node q =
      if q ∈ virtualPoints ch node then none else mapLookup ch.point2node q := by
  rw [delNode_eq]
  exact mapLookup_foldl_mapDelete _ _ _

theorem nodup_addNode (ch : consistentHash) (node : String) (h : (mapKeys ch.point2node).Nodup) :
    (mapKeys (addNode ch node).point2node).Nodup := by
  rw [addNode_eq]
  exact nodup_foldl_mapSet _ _ _ h

theorem nodup_delNode (ch : consistentHash) (node : String) (h : (mapKeys ch.point2node).Nodup) :
    (mapKeys (delNode ch node).point2node).Nodup := by
  rw [delNode_eq]
  exact nodup_foldl_mapDelete _ _ h

/-! ## Invariants of the ring state -/

theorem MapInv_addNode (ch : consistentHash) (node : String) (h : MapInv ch) :
    MapInv (addNode ch node) := by
  refine ⟨nodup_addNode ch node h.1, ?_⟩
  intro p n hpn
  rw [virtualPoints_congr ch (addNode ch node) (addNode_dups ch node) (addNode_option ch node)]
  rw [mapLookup_addNode] at hpn
  by_cases hp : p ∈ virtualPoints ch node
  · simp only [hp, if_true, Option.some.injEq] at hpn
    subst hpn
    exact hp
  · simp only [hp, if_false] at hpn
    exact h.2 p n hpn

theorem MapInv_delNode (ch : consistentHash) (node : String) (h : MapInv ch) :
    MapInv (delNode ch node) := by
  refine ⟨nodup_delNode ch node h.1, ?_⟩
  intro p n hpn
  rw [virtualPoints_congr ch (delNode ch node) (delNode_dups ch node) (delNode_option ch node)]
  rw [mapLookup_delNode] at hpn
  by_cases hp : p ∈ virtualPoints ch node
  · simp [hp] at hpn
  · simp only [hp, if_false] at hpn
    exact h.2 p n hpn

theorem mem_keys_addNode (ch : consistentHash) (node : String) (p : Nat) :
    p ∈ mapKeys (addNode ch node).point2node ↔
      p ∈ mapKeys ch.point2node ∨ p ∈ virtualPoints ch node := by
  rw [mem_mapKeys_iff, mem_mapKeys_iff, mapLookup_addNode]
  by_cases hp : p ∈ virtualPoints ch node <;> simp [hp]

theorem mem_keys_delNode (ch : consistentHash) (node : String) (p : Nat) :
    p ∈ mapKeys (delNode ch node).point2node ↔
      p ∈ mapKeys ch.point2node ∧ p ∉ virtualPoints ch node := by
  rw [mem_mapKeys_iff, mem_mapKeys_iff, mapLookup_delNode]
  by_cases hp : p ∈ virtualPoints ch node <;> simp [hp]

theorem foldl_addNode_dups (nodes : List String) :
    ∀ ch : consistentHash, (nodes.foldl addNode ch).dups = ch.dups := by
  induction nodes with
  | nil => intro ch; rfl
  | cons n nodes ih => intro ch; rw [List.foldl_cons, ih, addNode_dups]

theorem foldl_addNode_option (nodes : List String) :
    ∀ ch : consistentHash, (nodes.foldl addNode ch).option = ch.option := by
  induction nodes with
  | nil => intro ch; rfl
  | cons n nodes ih => intro ch; rw [List.foldl_cons, ih, addNode_option]

theorem foldl_delNode_dups (nodes : List String) :
    ∀ ch : consistentHash, (nodes.foldl delNode ch).dups = ch.dups := by
  induction nodes with
  | nil => intro ch; rfl
  | cons n nodes ih => intro ch; rw [List.foldl_cons, ih, delNode_dups]

theorem foldl_delNode_option (nodes : List String) :
    ∀ ch : consistentHash, (nodes.foldl delNode ch).option = ch.option := by
  induction nodes with
  | nil => intro ch; rfl
  | cons n nodes ih => intro ch; rw [List.foldl_cons, ih, delNode_option]

theorem foldl_addNode_inv (nodes : List String) :
    ∀ ch : consistentHash, MapInv ch → (∀ p, p ∈ ch.points ↔ p ∈ mapKeys ch.point2node) →
      MapInv (nodes.foldl addNode ch) ∧
        ∀ p, p ∈ (nodes.foldl addNode ch).points ↔
          p ∈ mapKeys (nodes.foldl addNode ch).point2node := by
  induction nodes with
  | nil => intro ch h1 h2; exact ⟨h1, h2⟩
  | cons n nodes ih =>
    intro ch h1 h2
    rw [List.foldl_cons]
    refine ih (addNode ch n) (MapInv_addNode ch n h1) ?_
    intro p
    rw [mem_keys_addNode, addNode_points, List.mem_append, h2 p]

theorem foldl_delNode_inv (nodes : List String) :
    ∀ ch : consistentHash, MapInv ch → MapInv (nodes.foldl delNode ch) := by
  induction nodes with
  | nil => intro ch h1; exact h1
  | cons n nodes ih =>
    intro ch h1
    rw [List.foldl_cons]
    exact ih (delNode ch n) (MapInv_delNode ch n h1)

theorem mem_sortSlice (a : List Nat) (p : Nat) : p ∈ sortSlice a ↔ p ∈ a :=
  (List.perm_insertionSort _ a).mem_iff

theorem sorted_sortSlice (a : List Nat) : (sortSlice a).Sorted (fun x y => x ≤ y) :=
  List.sorted_insertionSort _ a

theorem Add_dups (ch : consistentHash) (nodes : List String) : (Add ch nodes).dups = ch.dups :=
  foldl_addNode_dups nodes ch

theorem Add_option (ch : consistentHash) (nodes : List String) :
    (Add ch nodes).option = ch.option :=
  foldl_addNode_option nodes ch

theorem Del_dups (ch : consistentHash) (nodes : List String) : (Del ch nodes).dups = ch.dups :=
  foldl_delNode_dups nodes ch

theorem Del_option (ch : consistentHash) (nodes : List String) :
    (Del ch nodes).option = ch.option :=
  foldl_delNode_option nodes ch

theorem Add_point2node (ch : consistentHash) (nodes : List String) :
    (Add ch nodes).point2node = (nodes.foldl addNode ch).point2node := rfl

theorem Add_points (ch : consistentHash) (nodes : List String) :
    (Add ch nodes).points = sortSlice (nodes.foldl addNode ch).points := rfl

theorem Del_point2node (ch : consistentHash) (nodes : List String) :
    (Del ch nodes).point2node = (nodes.foldl delNode ch).point2node := rfl

theorem Del_points (ch : consistentHash) (nodes : List String) :
    (Del ch nodes).points = sortSlice (mapKeys (Del ch nodes).point2node) := rfl

theorem MapInv_congr (ch ch' : consistentHash) (hm : ch'.point2node = ch.point2node)
    (hd : ch'.dups = ch.dups) (ho : ch'.option = ch.option) (h : MapInv ch) : MapInv ch' := by
  unfold MapInv
  rw [hm]
  refine ⟨h.1, fun p n hpn => ?_⟩
  rw [virtualPoints_congr ch ch' hd ho]
  exact h.2 p n hpn

theorem Inv_Add (ch : consistentHash) (nodes : List String) (h : Inv ch) :
    Inv (Add ch nodes) := by
  obtain ⟨h1, h2⟩ := foldl_addNode_inv nodes ch h.2.2 h.2.1
  refine ⟨sorted_sortSlice _, ?_, ?_⟩
  · intro p
    rw [Add_points, mem_sortSlice, Add_point2node]
    exact h2 p
  · exact MapInv_congr (nodes.foldl addNode ch) (Add ch nodes) rfl rfl rfl h1

theorem Inv_Del (ch : consistentHash) (nodes : List String) (h : Inv ch) :
    Inv (Del ch nodes) := by
  have h1 := foldl_delNode_inv nodes ch h.2.2
  refine ⟨sorted_sortSlice _, ?_, ?_⟩
  · intro p
    rw [Del_points, mem_sortSlice]
  · exact MapInv_congr (nodes.foldl delNode ch) (Del ch nodes) rfl rfl rfl h1

theorem Inv_New (crc32 : HashFunc) (dups : Int) (modOptions : List ModOption) :
    Inv (New crc32 dups modOptions) := by
  refine ⟨?_, ?_, ?_, ?_⟩
  · simp [New]
  · intro p
    simp [New, mapKeys]
  · simp [New, mapKeys]
  · intro p n h
    simp [New, mapLookup] at h

theorem Inv_applyOp (ch : consistentHash) (op : Op) (h : Inv ch) : Inv (applyOp ch op) := by
  cases op with
  | add nodes => exact Inv_Add ch nodes h
  | del nodes => exact Inv_Del ch nodes h

theorem Inv_run_of (ops : List Op) : ∀ ch : consistentHash, Inv ch → Inv (run ch ops) := by
  induction ops with
  | nil => intro ch h; exact h
  | cons op ops ih =>
    intro ch h
    unfold run
    rw [List.foldl_cons]
    exact ih _ (Inv_applyOp ch op h)

theorem Inv_run (crc32 : HashFunc) (dups : Int) (modOptions : List ModOption) (ops : List Op) :
    Inv (run (New crc32 dups modOptions) ops) :=
  Inv_run_of ops _ (Inv_New crc32 dups modOptions)

theorem run_append (ch : consistentHash) (ops : List Op) (op : Op) :
    run ch (ops ++ [op]) = applyOp (run ch ops) op := by
  unfold run
  rw [List.foldl_append]
  rfl

theorem run_dups (ops : List Op) : ∀ ch : consistentHash, (run ch ops).dups = ch.dups := by
  induction ops with
  | nil => intro ch; rfl
  | cons op ops ih =>
    intro ch
    unfold run at ih ⊢
    rw [List.foldl_cons, ih]
    cases op with
    | add nodes => exact Add_dups ch nodes
    | del nodes => exact Del_dups ch nodes

theorem run_option (ops : List Op) : ∀ ch : consistentHash, (run ch ops).option = ch.option := by
  induction ops with
  | nil => intro ch; rfl
  | cons op ops ih =>
    intro ch
    unfold run at ih ⊢
    rw [List.foldl_cons, ih]
    cases op with
    | add nodes => exact Add_option ch nodes
    | del nodes => exact Del_option ch nodes

/-! ## The mapping after a batch of nodes -/

theorem mapLookup_foldl_addNode (ch : consistentHash) (p : Nat) (nodes : List String) :
    mapLookup (nodes.foldl addNode ch).point2node p =
      match nodes.reverse.find? (fun m => decide (p ∈ virtualPoints ch m)) with
      | some m => some m
      | none => mapLookup ch.point2node p := by
  induction nodes using List.reverseRecOn with
  | nil => simp
  | append_singleton nodes x ih =>
    rw [List.foldl_append, List.foldl_cons, List.foldl_nil, mapLookup_addNode,
      virtualPoints_congr ch _ (foldl_addNode_dups nodes ch) (foldl_addNode_option nodes ch),
      List.reverse_append, List.reverse_singleton, List.singleton_append, List.find?_cons]
    by_cases hx : p ∈ virtualPoints ch x
    · simp [hx]
    · simp only [hx, if_false, decide_False]
      exact ih

theorem mapLookup_foldl_delNode (ch : consistentHash) (p : Nat) (nodes : List String) :
    mapLookup (nodes.foldl delNode ch).point2node p =
      if ∃ m ∈ nodes, p ∈ virtualPoints ch m then none else mapLookup ch.point2node p := by
  induction nodes using List.reverseRecOn with
  | nil => simp
  | append_singleton nodes x ih =>
    rw [List.foldl_append, List.foldl_cons, List.foldl_nil, mapLookup_delNode,
      virtualPoints_congr ch _ (foldl_delNode_dups nodes ch) (foldl_delNode_option nodes ch), ih]
    by_cases hx : p ∈ virtualPoints ch x
    · have : ∃ m ∈ nodes ++ [x], p ∈ virtualPoints ch m := ⟨x, by simp, hx⟩
      rw [if_pos hx, if_pos this]
    · by_cases hn : ∃ m ∈ nodes, p ∈ virtualPoints ch m
      · have : ∃ m ∈ nodes ++ [x], p ∈ virtualPoints ch m := by
          obtain ⟨m, hm, hp⟩ := hn
          exact ⟨m, by simp [hm], hp⟩
        rw [if_neg hx, if_pos hn, if_pos this]
      · have : ¬ ∃ m ∈ nodes ++ [x], p ∈ virtualPoints ch m := by
          rintro ⟨m, hm, hp⟩
          rcases List.mem_append.1 hm with h | h
          · exact hn ⟨m, h, hp⟩
          · rw [List.mem_singleton.1 h] at hp
            exact hx hp
        simp only [hx, hn, this, if_false]

theorem mapLookup_Add_some (ch : consistentHash) (nodes : List String) (p : Nat) (n : String)
    (h : mapLookup (Add ch nodes).point2node p = some n) :
    (n ∈ nodes ∧ p ∈ virtualPoints ch n) ∨
      (mapLookup ch.point2node p = some n ∧ ∀ m ∈ nodes, p ∉ virtualPoints ch m) := by
  rw [Add_point2node, mapLookup_foldl_addNode] at h
  cases hf : nodes.reverse.find? (fun m => decide (p ∈ virtualPoints ch m)) with
  | some m =>
    rw [hf] at h
    simp only [Option.some.injEq] at h
    subst h
    left
    have h1 := List.find?_some hf
    have h2 := List.mem_of_find?_eq_some hf
    exact ⟨List.mem_reverse.1 h2, by simpa using h1⟩
  | none =>
    rw [hf] at h
    right
    refine ⟨h, ?_⟩
    intro m hm hp
    have := List.find?_eq_none.1 hf m (List.mem_reverse.2 hm)
    simp [hp] at this

theorem mapLookup_Add_of_mem (ch : consistentHash) (nodes : List String) (p : Nat)
    (h : ∃ m ∈ nodes, p ∈ virtualPoints ch m) :
    ∃ n ∈ nodes, p ∈ virtualPoints ch n ∧ mapLookup (Add ch nodes).point2node p = some n := by
  rw [Add_point2node, mapLookup_foldl_addNode]
  cases hf : nodes.reverse.find? (fun m => decide (p ∈ virtualPoints ch m)) with
  | some m =>
    have h1 := List.find?_some hf
    have h2 := List.mem_of_find?_eq_some hf
    exact ⟨m, List.mem_reverse.1 h2, by simpa using h1, rfl⟩
  | none =>
    obtain ⟨m, hm, hp⟩ := h
    have := List.find?_eq_none.1 hf m (List.mem_reverse.2 hm)
    simp [hp] at this

theorem mapLookup_Add_of_not_mem (ch : consistentHash) (nodes : List String) (p : Nat)
    (h : ∀ m ∈ nodes, p ∉ virtualPoints ch m) :
    mapLookup (Add ch nodes).point2node p = mapLookup ch.point2node p := by
  rw [Add_point2node, mapLookup_foldl_addNode]
  have hf : nodes.reverse.find? (fun m => decide (p ∈ virtualPoints ch m)) = none := by
    rw [List.find?_eq_none]
    intro m hm
    simpa using h m (List.mem_reverse.1 hm)
  rw [hf]

theorem mapLookup_Del (ch : consistentHash) (nodes : List String) (p : Nat) :
    mapLookup (Del ch nodes).point2node p =
      if ∃ m ∈ nodes, p ∈ virtualPoints ch m then none else mapLookup ch.point2node p := by
  rw [Del_point2node, mapLookup_foldl_delNode]

theorem mapLookup_Add_single (ch : consistentHash) (node : String) (p : Nat) :
    mapLookup (Add ch [node]).point2node p =
      if p ∈ virtualPoints ch node then some node else mapLookup ch.point2node p := by
  rw [Add_point2node, List.foldl_cons, List.foldl_nil, mapLookup_addNode]

theorem mapLookup_Del_single (ch : consistentHash) (node : String) (p : Nat) :
    mapLookup (Del ch [node]).point2node p =
      if p ∈ virtualPoints ch node then none else mapLookup ch.point2node p := by
  rw [Del_point2node, List.foldl_cons, List.foldl_nil, mapLookup_delNode]

theorem eq_nil_of_mapLookup_none {κ ν : Type} [DecidableEq κ] (m : List (κ × ν))
    (h : ∀ k, mapLookup m k = none) : m = [] := by
  cases m with
  | nil => rfl
  | cons e m =>
    obtain ⟨a, b⟩ := e
    have := h a
    simp [mapLookup] at this

theorem points_eq_nil_of_map_nil (ch : consistentHash) (h : Inv ch) (hm : ch.point2node = []) :
    ch.points = [] := by
  apply List.eq_nil_iff_forall_not_mem.2
  intro p hp
  have := (h.2.1 p).1 hp
  rw [hm] at this
  simp [mapKeys] at this

/-! ## Call histories -/

theorem live_append_add (ops : List Op) (nodes : List String) (n : String) :
    live (ops ++ [Op.add nodes]) n = if n ∈ nodes then true else live ops n := by
  unfold live
  rw [List.reverse_append, List.reverse_singleton, List.singleton_append]
  rfl

theorem live_append_del (ops : List Op) (nodes : List String) (n : String) :
    live (ops ++ [Op.del nodes]) n = if n ∈ nodes then false else live ops n := by
  unfold live
  rw [List.reverse_append, List.reverse_singleton, List.singleton_append]
  rfl

theorem liveRev_mem (ops : List Op) (n : String) (h : liveRev ops n = true) :
    n ∈ opNodes ops := by
  induction ops with
  | nil => simp [liveRev] at h
  | cons op ops ih =>
    cases op with
    | add nodes =>
      simp only [liveRev] at h
      simp only [opNodes, List.mem_append]
      by_cases hn : n ∈ nodes
      · exact Or.inl hn
      · rw [if_neg hn] at h
        exact Or.inr (ih h)
    | del nodes =>
      simp only [liveRev] at h
      simp only [opNodes, List.mem_append]
      by_cases hn : n ∈ nodes
      · exact Or.inl hn
      · rw [if_neg hn] at h
        exact Or.inr (ih h)

theorem mem_opNodes_append (xs ys : List Op) (n : String) :
    n ∈ opNodes (xs ++ ys) ↔ n ∈ opNodes xs ∨ n ∈ opNodes ys := by
  induction xs with
  | nil => simp [opNodes]
  | cons x xs ihx =>
    cases x <;> simp [opNodes, ihx, or_assoc]

theorem mem_opNodes_reverse (ops : List Op) (n : String) :
    n ∈ opNodes ops.reverse ↔ n ∈ opNodes ops := by
  induction ops with
  | nil => simp
  | cons op ops ih =>
    rw [List.reverse_cons, mem_opNodes_append, ih]
    cases op <;> simp [opNodes, or_comm]

theorem live_mem_opNodes (ops : List Op) (n : String) (h : live ops n = true) :
    n ∈ opNodes ops :=
  (mem_opNodes_reverse ops n).1 (liveRev_mem ops.reverse n h)

theorem live_of_mapLookup (crc32 : HashFunc) (dups : Int) (modOptions : List ModOption)
    (ops : List Op) :
    ∀ p n, mapLookup (run (New crc32 dups modOptions) ops).point2node p = some n →
      live ops n = true := by
  induction ops using List.reverseRecOn with
  | nil =>
    intro p n h
    simp [run, New, mapLookup] at h
  | append_singleton ops op ih =>
    intro p n h
    rw [run_append] at h
    cases op with
    | add nodes =>
      rw [live_append_add]
      rcases mapLookup_Add_some _ nodes p n h with ⟨h1, _⟩ | ⟨h1, _⟩
      · simp [h1]
      · simp [ih p n h1]
    | del nodes =>
      rw [live_append_del]
      simp only [applyOp] at h
      rw [mapLookup_Del] at h
      by_cases hex : ∃ m ∈ nodes, p ∈ virtualPoints (run (New crc32 dups modOptions) ops) m
      · rw [if_pos hex] at h
        cases h
      · rw [if_neg hex] at h
        have hown := (Inv_run crc32 dups modOptions ops).2.2.2 p n h
        have hn : n ∉ nodes := fun hmem => hex ⟨n, hmem, hown⟩
        simp [hn, ih p n h]

/-! ## Properties of `Get` -/

/-- C2: on a ring reached from `New` by `Add`/`Del` calls that holds at least one point,
`Get key` returns without error the node stored under the least ring point `p` with
`hash key ≤ p` (a point equal to the hash is selected), and the node stored under the
least ring point of all when every ring point is below the hash. -/
theorem Get_returns_ring_successor (crc32 : HashFunc) (dups : Int)
    (modOptions : List ModOption) (ops : List Op) (key : String)
    (hne : (run (New crc32 dups modOptions) ops).points ≠ []) :
    ∃ p node,
      p ∈ (run (New crc32 dups modOptions) ops).points ∧
      mapLookup (run (New crc32 dups modOptions) ops).point2node p = some node ∧
      Get (run (New crc32 dups modOptions) ops) key = (node, none) ∧
      ((hash2point (run (New crc32 dups modOptions) ops) key ≤ p ∧
          ∀ q ∈ (run (New crc32 dups modOptions) ops).points,
            hash2point (run (New crc32 dups modOptions) ops) key ≤ q → p ≤ q) ∨
        ((∀ q ∈ (run (New crc32 dups modOptions) ops).points,
            q < hash2point (run (New crc32 dups modOptions) ops) key) ∧
          ∀ q ∈ (run (New crc32 dups modOptions) ops).points, p ≤ q)) := by
  have hinv := Inv_run crc32 dups modOptions ops
  obtain ⟨_, hsucc⟩ := getIndex_spec _ (hash2point (run (New crc32 dups modOptions) ops) key)
    hinv.1 hne
  obtain ⟨v, hv⟩ := (mem_mapKeys_iff _ _).1 ((hinv.2.1 _).1 hsucc.1)
  refine ⟨_, v, hsucc.1, hv, ?_, hsucc.2⟩
  rw [Get_eq_of_ne _ _ hne]
  unfold mapGet
  rw [hv]
  rfl

/-- Witness for C2: a ring with one node of three replicas, hashed by string length. -/
theorem Get_returns_ring_successor_witness :
    ∃ p node,
      p ∈ (run (New (fun s => s.length) 3 []) [Op.add ["a"]]).points ∧
      mapLookup (run (New (fun s => s.length) 3 []) [Op.add ["a"]]).point2node p = some node ∧
      Get (run (New (fun s => s.length) 3 []) [Op.add ["a"]]) "key" = (node, none) ∧
      ((hash2point (run (New (fun s => s.length) 3 []) [Op.add ["a"]]) "key" ≤ p ∧
          ∀ q ∈ (run (New (fun s => s.length) 3 []) [Op.add ["a"]]).points,
            hash2point (run (New (fun s => s.length) 3 []) [Op.add ["a"]]) "key" ≤ q → p ≤ q) ∨
        ((∀ q ∈ (run (New (fun s => s.length) 3 []) [Op.add ["a"]]).points,
            q < hash2point (run (New (fun s => s.length) 3 []) [Op.add ["a"]]) "key") ∧
          ∀ q ∈ (run (New (fun s => s.length) 3 []) [Op.add ["a"]]).points, p ≤ q)) :=
  Get_returns_ring_successor (fun s => s.length) 3 [] [Op.add ["a"]] "key" (by decide)

/-- C3: `Get` returns `ErrIsEmpty` with the empty node string exactly when the ring holds
no points; it returns no error when the ring holds a point; it fails on a fresh ring; and
it fails after any call history that leaves no node whose latest call is an `Add`. -/
theorem Get_ErrIsEmpty_iff (crc32 : HashFunc) (dups : Int) (modOptions : List ModOption)
    (ops : List Op) (key : String) :
    (Get (run (New crc32 dups modOptions) ops) key = ("", some Error.ErrIsEmpty) ↔
        (run (New crc32 dups modOptions) ops).points = []) ∧
      ((Get (run (New crc32 dups modOptions) ops) key).2 = none ↔
        (run (New crc32 dups modOptions) ops).points ≠ []) ∧
      Get (New crc32 dups modOptions) key = ("", some Error.ErrIsEmpty) ∧
      ((∀ n ∈ opNodes ops, live ops n = false) →
        Get (run (New crc32 dups modOptions) ops) key = ("", some Error.ErrIsEmpty)) := by
  refine ⟨?_, ?_, ?_, ?_⟩
  · constructor
    · intro h
      by_contra hne
      rw [Get_eq_of_ne _ _ hne] at h
      simp at h
    · exact Get_eq_of_nil _ _
  · constructor
    · intro h hnil
      rw [Get_eq_of_nil _ _ hnil] at h
      simp at h
    · intro hne
      rw [Get_eq_of_ne _ _ hne]
  · exact Get_eq_of_nil _ _ rfl
  · intro hlive
    apply Get_eq_of_nil
    apply points_eq_nil_of_map_nil _ (Inv_run crc32 dups modOptions ops)
    apply eq_nil_of_mapLookup_none
    intro p
    cases hl : mapLookup (run (New crc32 dups modOptions) ops).point2node p with
    | none => rfl
    | some n =>
      have h1 := live_of_mapLookup crc32 dups modOptions ops p n hl
      have h2 : n ∈ opNodes ops := live_mem_opNodes ops n h1
      rw [hlive n h2] at h1
      cases h1

/-- Witness for C3: two nodes are added and both are deleted again. -/
theorem Get_ErrIsEmpty_iff_witness :
    Get (run (New (fun s => s.length) 2 [])
      [Op.add ["a", "bb"], Op.del ["bb"], Op.del ["a"]]) "key" = ("", some Error.ErrIsEmpty) :=
  (Get_ErrIsEmpty_iff (fun s => s.length) 2 []
    [Op.add ["a", "bb"], Op.del ["bb"], Op.del ["a"]] "key").2.2.2 (by decide)

/-- C4: `Add X` followed by `Del X` on a fresh ring leaves the point slice and the
point-to-node mapping empty, for every hash function, replication factor and node. -/
theorem Add_then_Del_empty (crc32 : HashFunc) (dups : Int) (modOptions : List ModOption)
    (X : String) :
    (Del (Add (New crc32 dups modOptions) [X]) [X]).points = [] ∧
      (Del (Add (New crc32 dups modOptions) [X]) [X]).point2node = [] := by
  have hmap : (Del (Add (New crc32 dups modOptions) [X]) [X]).point2node = [] := by
    apply eq_nil_of_mapLookup_none
    intro p
    rw [mapLookup_Del_single, mapLookup_Add_single,
      virtualPoints_congr (New crc32 dups modOptions) _ (Add_dups _ _) (Add_option _ _)]
    by_cases hp : p ∈ virtualPoints (New crc32 dups modOptions) X
    · simp [hp]
    · simp [hp, New, mapLookup]
  refine ⟨?_, hmap⟩
  exact points_eq_nil_of_map_nil _ (Inv_Del _ _ (Inv_Add _ _ (Inv_New _ _ _))) hmap

/-! ## The report of `Nodes` -/

theorem sub64_add64_self (v p : Nat) (hv : v < two64) : sub64 (add64 v p) p = v := by
  unfold sub64 add64 two64 at *
  omega

theorem sub64_lt (a b : Nat) : sub64 a b < two64 := by
  unfold sub64 two64
  omega

theorem nodesStep_idem (m : List (Nat × String)) (st : List (String × Nat) × Nat) (p : Nat) :
    nodesStep m (nodesStep m st p) p = nodesStep m st p := by
  unfold nodesStep
  simp only
  have hl : mapLookup
      (mapSet st.1 (mapGet m p "") (sub64 (add64 (mapGet st.1 (mapGet m p "") 0) p) st.2))
      (mapGet m p "") = some (sub64 (add64 (mapGet st.1 (mapGet m p "") 0) p) st.2) := by
    rw [mapLookup_mapSet]
    simp
  have hg : mapGet
      (mapSet st.1 (mapGet m p "") (sub64 (add64 (mapGet st.1 (mapGet m p "") 0) p) st.2))
      (mapGet m p "") 0 = sub64 (add64 (mapGet st.1 (mapGet m p "") 0) p) st.2 := by
    unfold mapGet at hl ⊢
    rw [hl]
    rfl
  rw [hg, sub64_add64_self _ _ (sub64_lt _ _), mapSet_eq_self _ _ _ hl]

theorem foldl_nodesStep_dedup (m : List (Nat × String)) (l : List Nat) :
    ∀ st : List (String × Nat) × Nat, l.Sorted (fun x y => x ≤ y) →
      l.foldl (nodesStep m) st = l.dedup.foldl (nodesStep m) st := by
  induction l with
  | nil => intro st _; rfl
  | cons a t ih =>
    intro st hs
    have hst : t.Sorted (fun x y => x ≤ y) := List.Sorted.of_cons hs
    by_cases ha : a ∈ t
    · rw [List.dedup_cons_of_mem ha, ← ih st hst]
      cases t with
      | nil => simp at ha
      | cons b t' =>
        have hab : a ≤ b := List.rel_of_sorted_cons hs b (List.mem_cons_self _ _)
        have hba : b ≤ a := by
          rcases List.mem_cons.1 ha with h | h
          · omega
          · exact List.rel_of_sorted_cons hst a h
        have heq : b = a := by omega
        subst heq
        rw [List.foldl_cons, List.foldl_cons, List.foldl_cons, nodesStep_idem]
    · rw [List.dedup_cons_of_not_mem ha, List.foldl_cons, List.foldl_cons]
      exact ih _ hst

theorem dedup_eq_of_sorted (l1 l2 : List Nat) (h1 : l1.Sorted (fun x y => x ≤ y))
    (h2 : l2.Sorted (fun x y => x ≤ y)) (hmem : ∀ p, p ∈ l1 ↔ p ∈ l2) :
    l1.dedup = l2.dedup := by
  apply List.eq_of_perm_of_sorted (r := fun x y => x ≤ y)
  · rw [List.perm_ext_iff_of_nodup (List.nodup_dedup _) (List.nodup_dedup _)]
    intro p
    rw [List.mem_dedup, List.mem_dedup]
    exact hmem p
  · exact List.Pairwise.sublist (List.dedup_sublist _) h1
  · exact List.Pairwise.sublist (List.dedup_sublist _) h2

/-- The last element of a non-empty sorted slice is one of its greatest elements. -/
theorem last_spec (l : List Nat) (hs : l.Sorted (fun x y => x ≤ y)) (hne : l ≠ []) :
    l.getD (l.length - 1) 0 ∈ l ∧ ∀ q ∈ l, q ≤ l.getD (l.length - 1) 0 := by
  have hlen : 0 < l.length := List.length_pos.2 hne
  refine ⟨getD_mem l _ (by omega), ?_⟩
  intro q hq
  obtain ⟨a, ha, rfl⟩ := exists_getD_of_mem l q hq
  exact sorted_getD_le l hs a _ (by omega) (by omega)

theorem last_eq_of_sorted (l1 l2 : List Nat) (h1 : l1.Sorted (fun x y => x ≤ y))
    (h2 : l2.Sorted (fun x y => x ≤ y)) (hmem : ∀ p, p ∈ l1 ↔ p ∈ l2) (hne : l1 ≠ []) :
    l1.getD (l1.length - 1) 0 = l2.getD (l2.length - 1) 0 := by
  have hne2 : l2 ≠ [] := by
    intro h
    obtain ⟨x, hx⟩ := List.exists_mem_of_ne_nil l1 hne
    have := (hmem x).1 hx
    rw [h] at this
    simp at this
  obtain ⟨a1, a2⟩ := last_spec l1 h1 hne
  obtain ⟨b1, b2⟩ := last_spec l2 h2 hne2
  exact Nat.le_antisymm (b2 _ ((hmem _).1 a1)) (a2 _ ((hmem _).2 b1))

theorem eq_nil_iff_of_mem_iff (l1 l2 : List Nat) (hmem : ∀ p, p ∈ l1 ↔ p ∈ l2) :
    l1 = [] ↔ l2 = [] := by
  rw [List.eq_nil_iff_forall_not_mem, List.eq_nil_iff_forall_not_mem]
  exact ⟨fun h p hp => h p ((hmem p).2 hp), fun h p hp => h p ((hmem p).1 hp)⟩

/-- The report depends on the point slice only through the set of its points. -/
theorem Nodes_congr (ch ch' : consistentHash) (hm : ch'.point2node = ch.point2node)
    (hs : ch.points.Sorted (fun x y => x ≤ y)) (hs' : ch'.points.Sorted (fun x y => x ≤ y))
    (hmem : ∀ p, p ∈ ch'.points ↔ p ∈ ch.points) : Nodes ch' = Nodes ch := by
  unfold Nodes
  by_cases hnil : ch.points = []
  · have hnil' : ch'.points = [] := (eq_nil_iff_of_mem_iff _ _ hmem).2 hnil
    simp [hnil, hnil']
  · have hnil' : ch'.points ≠ [] := fun h => hnil ((eq_nil_iff_of_mem_iff _ _ hmem).1 h)
    have hl : ¬ ch.points.length = 0 := fun h => hnil (List.length_eq_zero.1 h)
    have hl' : ¬ ch'.points.length = 0 := fun h => hnil' (List.length_eq_zero.1 h)
    simp only [hl, hl', if_false]
    rw [hm, last_eq_of_sorted _ _ hs' hs hmem hnil', foldl_nodesStep_dedup _ _ _ hs',
      foldl_nodesStep_dedup _ _ _ hs, dedup_eq_of_sorted _ _ hs' hs hmem]

theorem mem_keys_foldl_nodesStep (m : List (Nat × String)) (l : List Nat) (n : String) :
    ∀ st : List (String × Nat) × Nat,
      n ∈ mapKeys (l.foldl (nodesStep m) st).1 ↔
        n ∈ mapKeys st.1 ∨ ∃ p ∈ l, mapGet m p "" = n := by
  induction l with
  | nil => intro st; simp
  | cons a t ih =>
    intro st
    rw [List.foldl_cons, ih]
    unfold nodesStep
    simp only [mapKeys_mapSet_mem, List.mem_cons, exists_eq_or_imp]
    constructor
    · rintro ((h | h) | h)
      · exact Or.inr (Or.inl h.symm)
      · exact Or.inl h
      · exact Or.inr (Or.inr h)
    · rintro (h | h | h)
      · exact Or.inl (Or.inr h)
      · exact Or.inl (Or.inl h.symm)
      · exact Or.inr h

/-- Keys of the report: the nodes read from the mapping at the ring points. -/
theorem mem_keys_Nodes (ch : consistentHash) (n : String) :
    n ∈ mapKeys (Nodes ch) ↔ ∃ p ∈ ch.points, mapGet ch.point2node p "" = n := by
  unfold Nodes
  by_cases hnil : ch.points = []
  · simp [hnil, mapKeys]
  · have hl : ¬ ch.points.length = 0 := fun h => hnil (List.length_eq_zero.1 h)
    simp only [hl, if_false]
    rw [mapKeys_mapSet_mem, mem_keys_foldl_nodesStep]
    constructor
    · rintro (h | h | h)
      · exact ⟨_, getD_mem _ _ (by omega), h.symm⟩
      · simp [mapKeys] at h
      · exact h
    · intro h
      exact Or.inr (Or.inr h)

theorem nodup_keys_foldl_nodesStep (m : List (Nat × String)) (l : List Nat) :
    ∀ st : List (String × Nat) × Nat, (mapKeys st.1).Nodup →
      (mapKeys (l.foldl (nodesStep m) st).1).Nodup := by
  induction l with
  | nil => intro st h; exact h
  | cons a t ih =>
    intro st h
    rw [List.foldl_cons]
    exact ih _ (nodup_mapKeys_mapSet _ _ _ h)

/-- The report has one entry per node. -/
theorem nodup_keys_Nodes (ch : consistentHash) : (mapKeys (Nodes ch)).Nodup := by
  unfold Nodes
  by_cases hl : ch.points.length = 0
  · simp [hl, mapKeys]
  · simp only [hl, if_false]
    exact nodup_mapKeys_mapSet _ _ _ (nodup_keys_foldl_nodesStep _ _ _ (by simp [mapKeys]))

/-- With the ring invariant, the keys of the report are the values of the mapping. -/
theorem mem_keys_Nodes_of_Inv (ch : consistentHash) (h : Inv ch) (n : String) :
    n ∈ mapKeys (Nodes ch) ↔ ∃ p, mapLookup ch.point2node p = some n := by
  rw [mem_keys_Nodes]
  constructor
  · rintro ⟨p, hp, hg⟩
    obtain ⟨v, hv⟩ := (mem_mapKeys_iff _ _).1 ((h.2.1 p).1 hp)
    refine ⟨p, ?_⟩
    unfold mapGet at hg
    rw [hv] at hg
    rw [hv]
    exact congrArg some hg
  · rintro ⟨p, hp⟩
    refine ⟨p, (h.2.1 p).2 ((mem_mapKeys_iff _ _).2 ⟨n, hp⟩), ?_⟩
    unfold mapGet
    rw [hp]
    rfl

/-! ## Lookups on rings with the same points -/

theorem IsSucc_subset (l l' : List Nat) (h p : Nat) (hp : IsSucc l' h p)
    (hsub : ∀ q ∈ l, q ∈ l') (hmem : p ∈ l) : IsSucc l h p := by
  obtain ⟨_, hp2⟩ := hp
  refine ⟨hmem, ?_⟩
  rcases hp2 with ⟨a1, a2⟩ | ⟨a1, a2⟩
  · exact Or.inl ⟨a1, fun q hq => a2 q (hsub q hq)⟩
  · exact Or.inr ⟨fun q hq => a1 q (hsub q hq), fun q hq => a2 q (hsub q hq)⟩

/-- The point read by `Get` is the same on two sorted slices with the same elements. -/
theorem getIndex_congr (l l' : List Nat) (h : Nat) (hs : l.Sorted (fun x y => x ≤ y))
    (hs' : l'.Sorted (fun x y => x ≤ y)) (hmem : ∀ p, p ∈ l' ↔ p ∈ l) (hne : l ≠ []) :
    l'.getD (getIndex l' h) 0 = l.getD (getIndex l h) 0 := by
  have hne' : l' ≠ [] := fun e => hne ((eq_nil_iff_of_mem_iff _ _ hmem).1 e)
  have h1 := (getIndex_spec l h hs hne).2
  have h2 := (getIndex_spec l' h hs' hne').2
  exact IsSucc_unique l h _ _ (IsSucc_congr l' l h _ hmem h2) h1

theorem Get_congr (ch ch' : consistentHash) (key : String) (ho : ch'.option = ch.option)
    (hs : ch.points.Sorted (fun x y => x ≤ y)) (hs' : ch'.points.Sorted (fun x y => x ≤ y))
    (hmem : ∀ p, p ∈ ch'.points ↔ p ∈ ch.points)
    (hmap : ∀ p ∈ ch.points, mapLookup ch'.point2node p = mapLookup ch.point2node p) :
    Get ch' key = Get ch key := by
  by_cases hnil : ch.points = []
  · have hnil' : ch'.points = [] := (eq_nil_iff_of_mem_iff _ _ hmem).2 hnil
    rw [Get_eq_of_nil _ _ hnil, Get_eq_of_nil _ _ hnil']
  · have hnil' : ch'.points ≠ [] := fun h => hnil ((eq_nil_iff_of_mem_iff _ _ hmem).1 h)
    rw [Get_eq_of_ne _ _ hnil, Get_eq_of_ne _ _ hnil', hash2point_congr ch ch' ho,
      getIndex_congr _ _ _ hs hs' hmem hnil]
    unfold mapGet
    rw [hmap _ (getIndex_spec _ _ hs hnil).2.1]

theorem mem_points_Add_single (ch : consistentHash) (node : String) (p : Nat) :
    p ∈ (Add ch [node]).points ↔ p ∈ ch.points ∨ p ∈ virtualPoints ch node := by
  rw [Add_points, mem_sortSlice, List.foldl_cons, List.foldl_nil, addNode_points,
    List.mem_append]

theorem mem_points_Add (ch : consistentHash) (nodes : List String) (p : Nat) :
    p ∈ (Add ch nodes).points ↔ p ∈ ch.points ∨ ∃ m ∈ nodes, p ∈ virtualPoints ch m := by
  rw [Add_points, mem_sortSlice]
  induction nodes using List.reverseRecOn with
  | nil => simp
  | append_singleton nodes x ih =>
    rw [List.foldl_append, List.foldl_cons, List.foldl_nil, addNode_points, List.mem_append,
      ih, virtualPoints_congr ch _ (foldl_addNode_dups nodes ch) (foldl_addNode_option nodes ch)]
    constructor
    · rintro ((h | ⟨m, hm, hp⟩) | h)
      · exact Or.inl h
      · exact Or.inr ⟨m, by simp [hm], hp⟩
      · exact Or.inr ⟨x, by simp, h⟩
    · rintro (h | ⟨m, hm, hp⟩)
      · exact Or.inl (Or.inl h)
      · rcases List.mem_append.1 hm with h | h
        · exact Or.inl (Or.inr ⟨m, h, hp⟩)
        · rw [List.mem_singleton.1 h] at hp
          exact Or.inr hp

theorem foldl_mapSet_eq_self (ps : List Nat) (v : String) :
    ∀ m : List (Nat × String), (∀ p ∈ ps, mapLookup m p = some v) →
      ps.foldl (fun m p => mapSet m p v) m = m := by
  induction ps with
  | nil => intro m _; rfl
  | cons a ps ih =>
    intro m h
    rw [List.foldl_cons, mapSet_eq_self m a v (h a (List.mem_cons_self _ _))]
    exact ih m (fun p hp => h p (List.mem_cons_of_mem _ hp))

theorem foldl_mapDelete_eq_self (ps : List Nat) :
    ∀ m : List (Nat × String), (∀ p ∈ ps, mapLookup m p = none) →
      ps.foldl (fun m p => mapDelete m p) m = m := by
  induction ps with
  | nil => intro m _; rfl
  | cons a ps ih =>
    intro m h
    rw [List.foldl_cons, mapDelete_eq_self m a (h a (List.mem_cons_self _ _))]
    exact ih m (fun p hp => h p (List.mem_cons_of_mem _ hp))

theorem mem_virtualPoints (ch : consistentHash) (node : String) (p : Nat) :
    p ∈ virtualPoints ch node ↔
      ∃ i, i < ch.dups.toNat ∧ hash2point ch (virtualKey node i) = p := by
  unfold virtualPoints
  simp [List.mem_map, List.mem_range]

/-! ## Order and batching of `Add` -/

theorem virtualPoints_Add (ch : consistentHash) (nodes : List String) (node : String) :
    virtualPoints (Add ch nodes) node = virtualPoints ch node :=
  virtualPoints_congr ch _ (Add_dups ch nodes) (Add_option ch nodes) node

theorem virtualPoints_Del (ch : consistentHash) (nodes : List String) (node : String) :
    virtualPoints (Del ch nodes) node = virtualPoints ch node :=
  virtualPoints_congr ch _ (Del_dups ch nodes) (Del_option ch nodes) node

theorem Get_Add_Add_comm (ch : consistentHash) (hinv : Inv ch) (X Y key : String)
    (hdisj : ∀ p ∈ virtualPoints ch X, p ∉ virtualPoints ch Y) :
    Get (Add (Add ch [X]) [Y]) key = Get (Add (Add ch [Y]) [X]) key := by
  have h1 := Inv_Add _ [Y] (Inv_Add ch [X] hinv)
  have h2 := Inv_Add _ [X] (Inv_Add ch [Y] hinv)
  apply Get_congr _ _ key _ h2.1 h1.1
  · intro p
    rw [mem_points_Add_single, mem_points_Add_single, mem_points_Add_single,
      mem_points_Add_single, virtualPoints_Add, virtualPoints_Add]
    constructor
    · rintro ((h | h) | h)
      · exact Or.inl (Or.inl h)
      · exact Or.inr h
      · exact Or.inl (Or.inr h)
    · rintro ((h | h) | h)
      · exact Or.inl (Or.inl h)
      · exact Or.inr h
      · exact Or.inl (Or.inr h)
  · intro p _
    rw [mapLookup_Add_single, mapLookup_Add_single, mapLookup_Add_single, mapLookup_Add_single,
      virtualPoints_Add, virtualPoints_Add]
    by_cases hx : p ∈ virtualPoints ch X
    · have hy := hdisj p hx
      simp [hx, hy]
    · simp [hx]
  · rw [Add_option, Add_option, Add_option, Add_option]

theorem Get_Add_batch (ch : consistentHash) (hinv : Inv ch) (X Y key : String) :
    Get (Add ch [X, Y]) key = Get (Add (Add ch [X]) [Y]) key := by
  have h1 := Inv_Add _ [Y] (Inv_Add ch [X] hinv)
  have h2 := Inv_Add ch [X, Y] hinv
  apply Get_congr _ _ key _ h1.1 h2.1
  · intro p
    rw [mem_points_Add, mem_points_Add_single, mem_points_Add_single, virtualPoints_Add]
    constructor
    · rintro (h | ⟨m, hm, hp⟩)
      · exact Or.inl (Or.inl h)
      · simp only [List.mem_cons, List.mem_singleton, List.not_mem_nil, or_false] at hm
        rcases hm with rfl | rfl
        · exact Or.inl (Or.inr hp)
        · exact Or.inr hp
    · rintro ((h | h) | h)
      · exact Or.inl h
      · exact Or.inr ⟨X, by simp, h⟩
      · exact Or.inr ⟨Y, by simp, h⟩
  · intro p _
    rw [mapLookup_Add_single, mapLookup_Add_single, virtualPoints_Add, Add_point2node,
      List.foldl_cons, List.foldl_cons, List.foldl_nil, mapLookup_addNode, mapLookup_addNode,
      virtualPoints_congr ch _ (addNode_dups ch X) (addNode_option ch X)]
  · rw [Add_option, Add_option, Add_option]

/-- C1 (failing input): with one replica per node and a hash function that sends the
virtual key of the only node to 0, the ring holds the single point 0, `Nodes` reports the
width 0 for that node, and the widths sum to 0 and not to 2^32. -/
theorem Nodes_sum_at_zero_point :
    (run (New (fun _ => 0) 1 []) [Op.add ["a"]]).points = [0] ∧
      Nodes (run (New (fun _ => 0) 1 []) [Op.add ["a"]]) = [("a", 0)] ∧
      ((Nodes (run (New (fun _ => 0) 1 []) [Op.add ["a"]])).map Prod.snd).sum = 0 ∧
      ((Nodes (run (New (fun _ => 0) 1 []) [Op.add ["a"]])).map Prod.snd).sum ≠ two32 := by
  decide

/-- C5 (counterexample): with a hash function under which the points of "a" and "b"
coincide, `Add a` then `Add b` and `Add b` then `Add a` answer `Get` differently. -/
theorem Get_Add_order_counterexample :
    Get (Add (Add (New (fun _ => 0) 1 []) ["a"]) ["b"]) "k" = ("b", none) ∧
      Get (Add (Add (New (fun _ => 0) 1 []) ["b"]) ["a"]) "k" = ("a", none) ∧
      ¬ (∀ (crc32 : HashFunc) (dups : Int) (modOptions : List ModOption) (X Y key : String),
        Get (Add (Add (New crc32 dups modOptions) [X]) [Y]) key =
          Get (Add (Add (New crc32 dups modOptions) [Y]) [X]) key) := by
  refine ⟨by decide, by decide, ?_⟩
  intro h
  have := h (fun _ => 0) 1 [] "a" "b" "k"
  revert this
  decide

/-- C5 (amended): on a fresh ring the batch call `Add (X, Y)` and `Add X` then `Add Y`
return the same result from `Get key` for every key, without any condition; when no
virtual point of `X` equals a virtual point of `Y`, `Add Y` then `Add X` returns that
result too, so the three rings agree. -/
theorem Get_Add_order_insensitive (crc32 : HashFunc) (dups : Int)
    (modOptions : List ModOption) (X Y key : String) :
    Get (Add (New crc32 dups modOptions) [X, Y]) key =
        Get (Add (Add (New crc32 dups modOptions) [X]) [Y]) key ∧
      ((∀ i < dups.toNat, ∀ j < dups.toNat,
          hash2point (New crc32 dups modOptions) (virtualKey X i) ≠
            hash2point (New crc32 dups modOptions) (virtualKey Y j)) →
        Get (Add (Add (New crc32 dups modOptions) [X]) [Y]) key =
            Get (Add (Add (New crc32 dups modOptions) [Y]) [X]) key ∧
          Get (Add (New crc32 dups modOptions) [X, Y]) key =
            Get (Add (Add (New crc32 dups modOptions) [Y]) [X]) key) := by
  have hbatch := Get_Add_batch _ (Inv_New crc32 dups modOptions) X Y key
  refine ⟨hbatch, ?_⟩
  intro hdisj
  have hcomm : Get (Add (Add (New crc32 dups modOptions) [X]) [Y]) key =
      Get (Add (Add (New crc32 dups modOptions) [Y]) [X]) key := by
    apply Get_Add_Add_comm _ (Inv_New _ _ _) X Y key
    intro p hx hy
    obtain ⟨i, hi, rfl⟩ := (mem_virtualPoints _ _ _).1 hx
    obtain ⟨j, hj, hji⟩ := (mem_virtualPoints _ _ _).1 hy
    exact hdisj i hi j hj hji.symm
  exact ⟨hcomm, hbatch.trans hcomm⟩

/-- Witness for C5 (amended): two nodes whose virtual keys have different lengths, hashed
by string length. -/
theorem Get_Add_order_insensitive_witness :
    Get (Add (Add (New (fun s => s.length) 2 []) ["a"]) ["bb"]) "key" =
        Get (Add (Add (New (fun s => s.length) 2 []) ["bb"]) ["a"]) "key" ∧
      Get (Add (New (fun s => s.length) 2 []) ["a", "bb"]) "key" =
        Get (Add (Add (New (fun s => s.length) 2 []) ["bb"]) ["a"]) "key" :=
  (Get_Add_order_insensitive (fun s => s.length) 2 [] "a" "bb" "key").2 (by decide)

/-! ## Present nodes -/

theorem virtualPoints_run (ch : consistentHash) (ops : List Op) (node : String) :
    virtualPoints (run ch ops) node = virtualPoints ch node :=
  virtualPoints_congr ch _ (run_dups ops ch) (run_option ops ch) node

/-- Without shared points, every virtual point of a node whose latest call is an `Add`
is mapped to that node. -/
theorem mapLookup_of_live (crc32 : HashFunc) (dups : Int) (modOptions : List ModOption)
    (ops : List Op) (hno : NoShare (New crc32 dups modOptions) (opNodes ops)) :
    ∀ n, live ops n = true → ∀ p ∈ virtualPoints (New crc32 dups modOptions) n,
      mapLookup (run (New crc32 dups modOptions) ops).point2node p = some n := by
  induction ops using List.reverseRecOn with
  | nil =>
    intro n h
    simp [live, liveRev] at h
  | append_singleton ops op ih =>
    have hno' : NoShare (New crc32 dups modOptions) (opNodes ops) := by
      intro n hn m hm hne
      exact hno n ((mem_opNodes_append _ _ _).2 (Or.inl hn)) m
        ((mem_opNodes_append _ _ _).2 (Or.inl hm)) hne
    have ih' := ih hno'
    intro n hlive p hp
    rw [run_append]
    cases op with
    | add nodes =>
      have hin : ∀ m ∈ nodes, m ∈ opNodes (ops ++ [Op.add nodes]) := by
        intro m hm
        exact (mem_opNodes_append _ _ _).2 (Or.inr (by simp [opNodes, hm]))
      rw [live_append_add] at hlive
      simp only [applyOp]
      by_cases hn : n ∈ nodes
      · obtain ⟨m, hm, hpm, hl⟩ := mapLookup_Add_of_mem (run (New crc32 dups modOptions) ops)
          nodes p ⟨n, hn, by rw [virtualPoints_run]; exact hp⟩
        rw [virtualPoints_run] at hpm
        by_cases hnm : n = m
        · rw [hnm]
          exact hl
        · exact absurd hpm (hno n (hin n hn) m (hin m hm) hnm p hp)
      · rw [if_neg hn] at hlive
        rw [mapLookup_Add_of_not_mem]
        · exact ih' n hlive p hp
        · intro m hm hpm
          rw [virtualPoints_run] at hpm
          have hnm : n ≠ m := fun e => hn (e ▸ hm)
          exact hno n ((mem_opNodes_append _ _ _).2 (Or.inl (live_mem_opNodes ops n hlive)))
            m (hin m hm) hnm p hp hpm
    | del nodes =>
      have hin : ∀ m ∈ nodes, m ∈ opNodes (ops ++ [Op.del nodes]) := by
        intro m hm
        exact (mem_opNodes_append _ _ _).2 (Or.inr (by simp [opNodes, hm]))
      rw [live_append_del] at hlive
      simp only [applyOp]
      by_cases hn : n ∈ nodes
      · rw [if_pos hn] at hlive
        cases hlive
      · rw [if_neg hn] at hlive
        rw [mapLookup_Del]
        have hex : ¬ ∃ m ∈ nodes, p ∈ virtualPoints (run (New crc32 dups modOptions) ops) m := by
          rintro ⟨m, hm, hpm⟩
          rw [virtualPoints_run] at hpm
          have hnm : n ≠ m := fun e => hn (e ▸ hm)
          exact hno n ((mem_opNodes_append _ _ _).2 (Or.inl (live_mem_opNodes ops n hlive)))
            m (hin m hm) hnm p hp hpm
        rw [if_neg hex]
        exact ih' n hlive p hp

/-- C6: with a replication factor of at least 1 and a call history in which no two
distinct nodes share a point, the keys of the map returned by `Nodes` are exactly the nodes
whose most recent call is an `Add`, each listed once. -/
theorem Nodes_keys_eq_live (crc32 : HashFunc) (dups : Int) (modOptions : List ModOption)
    (ops : List Op) (hdups : 1 ≤ dups)
    (hno : ∀ n ∈ opNodes ops, ∀ m ∈ opNodes ops, n ≠ m →
      ∀ i < dups.toNat, ∀ j < dups.toNat,
        hash2point (New crc32 dups modOptions) (virtualKey n i) ≠
          hash2point (New crc32 dups modOptions) (virtualKey m j)) :
    (∀ n, n ∈ mapKeys (Nodes (run (New crc32 dups modOptions) ops)) ↔ live ops n = true) ∧
      (mapKeys (Nodes (run (New crc32 dups modOptions) ops))).Nodup := by
  refine ⟨?_, nodup_keys_Nodes _⟩
  intro n
  rw [mem_keys_Nodes_of_Inv _ (Inv_run crc32 dups modOptions ops)]
  constructor
  · rintro ⟨p, hp⟩
    exact live_of_mapLookup crc32 dups modOptions ops p n hp
  · intro hlive
    have hshare : NoShare (New crc32 dups modOptions) (opNodes ops) := by
      intro a ha b hb hab p hpa hpb
      obtain ⟨i, hi, rfl⟩ := (mem_virtualPoints _ _ _).1 hpa
      obtain ⟨j, hj, hji⟩ := (mem_virtualPoints _ _ _).1 hpb
      exact hno a ha b hb hab i hi j hj hji.symm
    have h0 : (0 : Nat) < (New crc32 dups modOptions).dups.toNat := by
      show 0 < dups.toNat
      omega
    exact ⟨_, mapLookup_of_live crc32 dups modOptions ops hshare n hlive _
      ((mem_virtualPoints _ _ _).2 ⟨0, h0, rfl⟩)⟩

/-- Witness for C6: the call history of `TestConsistentHash` in miniature, with two
replicas per node and nodes whose virtual keys differ in length. -/
theorem Nodes_keys_eq_live_witness :
    (∀ n, n ∈ mapKeys (Nodes (run (New (fun s => s.length) 2 [])
        [Op.add ["a"], Op.add ["bb", "ccc"], Op.del ["a", "ccc"], Op.add ["dddd"]])) ↔
      live [Op.add ["a"], Op.add ["bb", "ccc"], Op.del ["a", "ccc"], Op.add ["dddd"]] n
        = true) ∧
      (mapKeys (Nodes (run (New (fun s => s.length) 2 [])
        [Op.add ["a"], Op.add ["bb", "ccc"], Op.del ["a", "ccc"], Op.add ["dddd"]]))).Nodup :=
  Nodes_keys_eq_live (fun s => s.length) 2 []
    [Op.add ["a"], Op.add ["bb", "ccc"], Op.del ["a", "ccc"], Op.add ["dddd"]]
    (by decide) (by decide)

/-! ## Removing and adding one node -/

/-- C7: after `Del X` on a ring reached from `New` by `Add`/`Del` calls (any hash function,
collisions included) the node `X` is gone: no entry of the mapping has the value `X`, `X` is
not a key of `Nodes`, and `Get` never returns `X`; the only result of `Get` whose node
component can equal `X` is the failure `("", ErrIsEmpty)` of an empty ring. -/
theorem Del_removes_node (crc32 : HashFunc) (dups : Int) (modOptions : List ModOption)
    (ops : List Op) (X : String) :
    (∀ p, (p, X) ∉ (Del (run (New crc32 dups modOptions) ops) [X]).point2node) ∧
      (∀ p, mapLookup (Del (run (New crc32 dups modOptions) ops) [X]).point2node p ≠ some X) ∧
      X ∉ mapKeys (Nodes (Del (run (New crc32 dups modOptions) ops) [X])) ∧
      (∀ key, Get (Del (run (New crc32 dups modOptions) ops) [X]) key ≠ (X, none)) ∧
      (∀ key, (Get (Del (run (New crc32 dups modOptions) ops) [X]) key).1 = X →
        Get (Del (run (New crc32 dups modOptions) ops) [X]) key =
          ("", some Error.ErrIsEmpty)) := by
  have hinv := Inv_Del _ [X] (Inv_run crc32 dups modOptions ops)
  have hlook : ∀ p,
      mapLookup (Del (run (New crc32 dups modOptions) ops) [X]).point2node p ≠ some X := by
    intro p hp
    have hown := hinv.2.2.2 p X hp
    rw [virtualPoints_Del] at hown
    rw [mapLookup_Del_single, if_pos hown] at hp
    cases hp
  have hget : ∀ key, (Del (run (New crc32 dups modOptions) ops) [X]).points ≠ [] →
      (Get (Del (run (New crc32 dups modOptions) ops) [X]) key).1 ≠ X := by
    intro key hne hX
    obtain ⟨_, hsucc⟩ := getIndex_spec _
      (hash2point (Del (run (New crc32 dups modOptions) ops) [X]) key) hinv.1 hne
    obtain ⟨v, hv⟩ := (mem_mapKeys_iff _ _).1 ((hinv.2.1 _).1 hsucc.1)
    rw [Get_eq_of_ne _ _ hne] at hX
    unfold mapGet at hX
    rw [hv] at hX
    exact hlook _ (hv.trans (congrArg some hX))
  refine ⟨?_, hlook, ?_, ?_, ?_⟩
  · intro p hp
    exact hlook p (mapLookup_of_mem _ p X hinv.2.2.1 hp)
  · rw [mem_keys_Nodes_of_Inv _ hinv]
    rintro ⟨p, hp⟩
    exact hlook p hp
  · intro key hk
    by_cases hnil : (Del (run (New crc32 dups modOptions) ops) [X]).points = []
    · rw [Get_eq_of_nil _ _ hnil] at hk
      simp at hk
    · exact hget key hnil (by rw [hk])
  · intro key hk
    by_cases hnil : (Del (run (New crc32 dups modOptions) ops) [X]).points = []
    · exact Get_eq_of_nil _ _ hnil
    · exact absurd hk (hget key hnil)

/-- C8: on a non-empty ring reached from `New` by `Add`/`Del` calls, `Get key` after
`Add X` returns either what `Get key` returned before the call or the node `X`. -/
theorem Get_after_Add (crc32 : HashFunc) (dups : Int) (modOptions : List ModOption)
    (ops : List Op) (X key : String)
    (hne : (run (New crc32 dups modOptions) ops).points ≠ []) :
    Get (Add (run (New crc32 dups modOptions) ops) [X]) key =
        Get (run (New crc32 dups modOptions) ops) key ∨
      Get (Add (run (New crc32 dups modOptions) ops) [X]) key = (X, none) := by
  have hinv := Inv_run crc32 dups modOptions ops
  have hinv' := Inv_Add _ [X] hinv
  have hne' : (Add (run (New crc32 dups modOptions) ops) [X]).points ≠ [] := by
    intro h
    obtain ⟨x, hx⟩ := List.exists_mem_of_ne_nil _ hne
    have := (mem_points_Add_single _ X x).2 (Or.inl hx)
    rw [h] at this
    simp at this
  have hh : hash2point (Add (run (New crc32 dups modOptions) ops) [X]) key =
      hash2point (run (New crc32 dups modOptions) ops) key :=
    hash2point_congr _ _ (Add_option _ _) key
  obtain ⟨_, hsucc'⟩ := getIndex_spec _
    (hash2point (run (New crc32 dups modOptions) ops) key) hinv'.1 hne'
  obtain ⟨_, hsucc⟩ := getIndex_spec _
    (hash2point (run (New crc32 dups modOptions) ops) key) hinv.1 hne
  rw [Get_eq_of_ne _ _ hne', Get_eq_of_ne _ _ hne, hh]
  unfold mapGet
  rw [mapLookup_Add_single]
  by_cases hp : (Add (run (New crc32 dups modOptions) ops) [X]).points.getD
      (getIndex (Add (run (New crc32 dups modOptions) ops) [X]).points
        (hash2point (run (New crc32 dups modOptions) ops) key)) 0 ∈
      virtualPoints (run (New crc32 dups modOptions) ops) X
  · right
    rw [if_pos hp]
    rfl
  · left
    rw [if_neg hp]
    have hmem : (Add (run (New crc32 dups modOptions) ops) [X]).points.getD
        (getIndex (Add (run (New crc32 dups modOptions) ops) [X]).points
          (hash2point (run (New crc32 dups modOptions) ops) key)) 0 ∈
        (run (New crc32 dups modOptions) ops).points := by
      rcases (mem_points_Add_single _ X _).1 hsucc'.1 with h | h
      · exact h
      · exact absurd h hp
    have hsub := IsSucc_subset (run (New crc32 dups modOptions) ops).points _ _ _ hsucc'
      (fun q hq => (mem_points_Add_single _ X q).2 (Or.inl hq)) hmem
    rw [IsSucc_unique _ _ _ _ hsub hsucc]

/-- Witness for C8: a ring of two nodes with two replicas each receives a third node. -/
theorem Get_after_Add_witness :
    Get (Add (run (New (fun s => s.length) 2 []) [Op.add ["a", "ccc"]]) ["bb"]) "key" =
        Get (run (New (fun s => s.length) 2 []) [Op.add ["a", "ccc"]]) "key" ∨
      Get (Add (run (New (fun s => s.length) 2 []) [Op.add ["a", "ccc"]]) ["bb"]) "key" =
        ("bb", none) :=
  Get_after_Add (fun s => s.length) 2 [] [Op.add ["a", "ccc"]] "bb" "key" (by decide)

/-- C9 (counterexample): "b" was never added, yet `Del b` removes the entry of "a" when the
two nodes have the same virtual point; afterwards `Get` fails where it returned "a". -/
theorem Del_absent_counterexample :
    live [Op.add ["a"]] "b" = false ∧
      (run (New (fun _ => 0) 1 []) [Op.add ["a"]]).point2node = [(0, "a")] ∧
      (Del (run (New (fun _ => 0) 1 []) [Op.add ["a"]]) ["b"]).point2node = [] ∧
      Get (run (New (fun _ => 0) 1 []) [Op.add ["a"]]) "k" = ("a", none) ∧
      Get (Del (run (New (fun _ => 0) 1 []) [Op.add ["a"]]) ["b"]) "k" =
        ("", some Error.ErrIsEmpty) := by
  decide

/-- C9 (amended): on a ring reached from `New` by `Add`/`Del` calls, `Del X` for a node `X`
none of whose virtual points is a key of the mapping leaves the mapping, the result of
`Nodes` and the result of `Get key` for every key unchanged. -/
theorem Del_absent_noop (crc32 : HashFunc) (dups : Int) (modOptions : List ModOption)
    (ops : List Op) (X : String)
    (habs : ∀ i < dups.toNat,
      mapLookup (run (New crc32 dups modOptions) ops).point2node
        (hash2point (run (New crc32 dups modOptions) ops) (virtualKey X i)) = none) :
    (Del (run (New crc32 dups modOptions) ops) [X]).point2node =
        (run (New crc32 dups modOptions) ops).point2node ∧
      Nodes (Del (run (New crc32 dups modOptions) ops) [X]) =
        Nodes (run (New crc32 dups modOptions) ops) ∧
      ∀ key, Get (Del (run (New crc32 dups modOptions) ops) [X]) key =
        Get (run (New crc32 dups modOptions) ops) key := by
  have hinv := Inv_run crc32 dups modOptions ops
  have hinv' := Inv_Del _ [X] hinv
  have hd : (run (New crc32 dups modOptions) ops).dups = dups := run_dups ops _
  have hmap : (Del (run (New crc32 dups modOptions) ops) [X]).point2node =
      (run (New crc32 dups modOptions) ops).point2node := by
    rw [Del_point2node, List.foldl_cons, List.foldl_nil, delNode_eq]
    apply foldl_mapDelete_eq_self
    intro p hp
    obtain ⟨i, hi, rfl⟩ := (mem_virtualPoints _ _ _).1 hp
    rw [hd] at hi
    exact habs i hi
  have hmem : ∀ p, p ∈ (Del (run (New crc32 dups modOptions) ops) [X]).points ↔
      p ∈ (run (New crc32 dups modOptions) ops).points := by
    intro p
    rw [hinv'.2.1 p, hmap, hinv.2.1 p]
  refine ⟨hmap, Nodes_congr _ _ hmap hinv.1 hinv'.1 hmem, ?_⟩
  intro key
  exact Get_congr _ _ key (Del_option _ _) hinv.1 hinv'.1 hmem (fun p _ => by rw [hmap])

/-- Witness for C9 (amended): "bb" is deleted from a ring that holds only "a". -/
theorem Del_absent_noop_witness :
    (Del (run (New (fun s => s.length) 2 []) [Op.add ["a"]]) ["bb"]).point2node =
        (run (New (fun s => s.length) 2 []) [Op.add ["a"]]).point2node ∧
      Nodes (Del (run (New (fun s => s.length) 2 []) [Op.add ["a"]]) ["bb"]) =
        Nodes (run (New (fun s => s.length) 2 []) [Op.add ["a"]]) ∧
      ∀ key, Get (Del (run (New (fun s => s.length) 2 []) [Op.add ["a"]]) ["bb"]) key =
        Get (run (New (fun s => s.length) 2 []) [Op.add ["a"]]) key :=
  Del_absent_noop (fun s => s.length) 2 [] [Op.add ["a"]] "bb" (by decide)

/-- C10: on a ring reached from `New` by `Add`/`Del` calls in which every virtual point of
`X` is mapped to `X`, `Add X` leaves the mapping, the result of `Nodes` and the result of
`Get key` for every key unchanged. -/
theorem Add_present_noop (crc32 : HashFunc) (dups : Int) (modOptions : List ModOption)
    (ops : List Op) (X : String)
    (hpres : ∀ i < dups.toNat,
      mapLookup (run (New crc32 dups modOptions) ops).point2node
        (hash2point (run (New crc32 dups modOptions) ops) (virtualKey X i)) = some X) :
    (Add (run (New crc32 dups modOptions) ops) [X]).point2node =
        (run (New crc32 dups modOptions) ops).point2node ∧
      Nodes (Add (run (New crc32 dups modOptions) ops) [X]) =
        Nodes (run (New crc32 dups modOptions) ops) ∧
      ∀ key, Get (Add (run (New crc32 dups modOptions) ops) [X]) key =
        Get (run (New crc32 dups modOptions) ops) key := by
  have hinv := Inv_run crc32 dups modOptions ops
  have hinv' := Inv_Add _ [X] hinv
  have hd : (run (New crc32 dups modOptions) ops).dups = dups := run_dups ops _
  have hvp : ∀ p ∈ virtualPoints (run (New crc32 dups modOptions) ops) X,
      mapLookup (run (New crc32 dups modOptions) ops).point2node p = some X := by
    intro p hp
    obtain ⟨i, hi, rfl⟩ := (mem_virtualPoints _ _ _).1 hp
    rw [hd] at hi
    exact hpres i hi
  have hmap : (Add (run (New crc32 dups modOptions) ops) [X]).point2node =
      (run (New crc32 dups modOptions) ops).point2node := by
    rw [Add_point2node, List.foldl_cons, List.foldl_nil, addNode_eq]
    exact foldl_mapSet_eq_self _ _ _ hvp
  have hmem : ∀ p, p ∈ (Add (run (New crc32 dups modOptions) ops) [X]).points ↔
      p ∈ (run (New crc32 dups modOptions) ops).points := by
    intro p
    rw [hinv'.2.1 p, hmap, hinv.2.1 p]
  refine ⟨hmap, Nodes_congr _ _ hmap hinv.1 hinv'.1 hmem, ?_⟩
  intro key
  exact Get_congr _ _ key (Add_option _ _) hinv.1 hinv'.1 hmem (fun p _ => by rw [hmap])

/-- Witness for C10: "a" is added again to a ring that holds "a" and "bb". -/
theorem Add_present_noop_witness :
    (Add (run (New (fun s => s.length) 2 []) [Op.add ["a", "bb"]]) ["a"]).point2node =
        (run (New (fun s => s.length) 2 []) [Op.add ["a", "bb"]]).point2node ∧
      Nodes (Add (run (New (fun s => s.length) 2 []) [Op.add ["a", "bb"]]) ["a"]) =
        Nodes (run (New (fun s => s.length) 2 []) [Op.add ["a", "bb"]]) ∧
      ∀ key, Get (Add (run (New (fun s => s.length) 2 []) [Op.add ["a", "bb"]]) ["a"]) key =
        Get (run (New (fun s => s.length) 2 []) [Op.add ["a", "bb"]]) key :=
  Add_present_noop (fun s => s.length) 2 [] [Op.add ["a", "bb"]] "a" (by decide)

/-! ## The total of the report -/

theorem valuesSum_mapSet (m : List (String × Nat)) (k : String) (v : Nat) :
    valuesSum (mapSet m k v) + mapGet m k 0 = valuesSum m + v := by
  induction m with
  | nil => simp [mapSet, valuesSum, mapGet, mapLookup]
  | cons e m ih =>
    obtain ⟨a, b⟩ := e
    by_cases hak : a = k
    · subst hak
      simp [mapSet, valuesSum, mapGet, mapLookup]
      omega
    · unfold valuesSum mapGet at ih
      simp [mapSet, valuesSum, mapGet, mapLookup, hak]
      omega

theorem mapGet_le_valuesSum (m : List (String × Nat)) (k : String) :
    mapGet m k 0 ≤ valuesSum m := by
  induction m with
  | nil => simp [valuesSum, mapGet, mapLookup]
  | cons e m ih =>
    obtain ⟨a, b⟩ := e
    by_cases hak : a = k
    · subst hak
      simp [valuesSum, mapGet, mapLookup]
    · unfold valuesSum mapGet at ih
      simp [valuesSum, mapGet, mapLookup, hak]
      omega

theorem valuesSum_nodesStep (m : List (Nat × String)) (st : List (String × Nat) × Nat)
    (p : Nat) (hsum : valuesSum st.1 = st.2) (hle : st.2 ≤ p) (hp : p < two32) :
    valuesSum (nodesStep m st p).1 = p ∧ (nodesStep m st p).2 = p := by
  refine ⟨?_, rfl⟩
  unfold nodesStep
  simp only
  have h1 := valuesSum_mapSet st.1 (mapGet m p "")
    (sub64 (add64 (mapGet st.1 (mapGet m p "") 0) p) st.2)
  have h2 := mapGet_le_valuesSum st.1 (mapGet m p "")
  have h3 : sub64 (add64 (mapGet st.1 (mapGet m p "") 0) p) st.2 =
      mapGet st.1 (mapGet m p "") 0 + p - st.2 := by
    unfold sub64 add64 two64
    unfold two32 at hp
    omega
  rw [h3] at h1 ⊢
  omega

theorem valuesSum_foldl_nodesStep (m : List (Nat × String)) (l : List Nat) :
    ∀ st : List (String × Nat) × Nat, l.Sorted (fun x y => x ≤ y) →
      (∀ q ∈ l, st.2 ≤ q ∧ q < two32) → valuesSum st.1 = st.2 →
      valuesSum (l.foldl (nodesStep m) st).1 = (l.foldl (nodesStep m) st).2 := by
  induction l with
  | nil => intro st _ _ h; exact h
  | cons a t ih =>
    intro st hs hb hsum
    rw [List.foldl_cons]
    obtain ⟨e1, e2⟩ := valuesSum_nodesStep m st a hsum (hb a (List.mem_cons_self _ _)).1
      (hb a (List.mem_cons_self _ _)).2
    apply ih _ (List.Sorted.of_cons hs)
    · intro q hq
      rw [e2]
      exact ⟨List.rel_of_sorted_cons hs q hq, (hb q (List.mem_cons_of_mem _ hq)).2⟩
    · rw [e1, e2]

theorem snd_foldl_nodesStep (m : List (Nat × String)) (l : List Nat)
    (st : List (String × Nat) × Nat) (hne : l ≠ []) :
    (l.foldl (nodesStep m) st).2 = l.getD (l.length - 1) 0 := by
  induction l using List.reverseRecOn with
  | nil => exact absurd rfl hne
  | append_singleton t x _ =>
    rw [List.foldl_append, List.foldl_cons, List.foldl_nil]
    have hlen : (t ++ [x]).length - 1 = t.length := by simp
    rw [hlen, List.getD_eq_getElem (t ++ [x]) 0 (by simp)]
    simp [nodesStep]

/-- Total of the report of a well-formed non-empty ring: 2^32, except that the 32-bit
computation of the last arc wraps to 0 when the greatest ring point is 0. -/
theorem valuesSum_Nodes_of_Inv (ch : consistentHash) (hinv : Inv ch) (hne : ch.points ≠ []) :
    valuesSum (Nodes ch) =
      if ch.points.getD (ch.points.length - 1) 0 = 0 then 0 else two32 := by
  have hlt : ∀ q ∈ ch.points, q < two32 := by
    intro q hq
    obtain ⟨v, hv⟩ := (mem_mapKeys_iff _ _).1 ((hinv.2.1 q).1 hq)
    exact virtualPoints_lt ch v q (hinv.2.2.2 q v hv)
  have hl : ¬ ch.points.length = 0 := fun h => hne (List.length_eq_zero.1 h)
  have hsum := valuesSum_foldl_nodesStep ch.point2node ch.points ([], 0) hinv.1
    (fun q hq => ⟨Nat.zero_le _, hlt q hq⟩) rfl
  rw [snd_foldl_nodesStep _ _ _ hne] at hsum
  have hlast := hlt _ (last_spec _ hinv.1 hne).1
  unfold Nodes
  simp only [hl, if_false]
  have h1 := valuesSum_mapSet (ch.points.foldl (nodesStep ch.point2node) ([], 0)).1
    (mapGet ch.point2node (ch.points.getD (ch.points.length - 1) 0) "")
    (add64 (mapGet (ch.points.foldl (nodesStep ch.point2node) ([], 0)).1
      (mapGet ch.point2node (ch.points.getD (ch.points.length - 1) 0) "") 0)
      (add32 (sub32 MaxUint32 (ch.points.getD (ch.points.length - 1) 0)) 1))
  have h2 := mapGet_le_valuesSum (ch.points.foldl (nodesStep ch.point2node) ([], 0)).1
    (mapGet ch.point2node (ch.points.getD (ch.points.length - 1) 0) "")
  rw [hsum] at h1 h2
  generalize ch.points.getD (ch.points.length - 1) 0 = last at *
  generalize mapGet (ch.points.foldl (nodesStep ch.point2node) ([], 0)).1
    (mapGet ch.point2node last "") 0 = g at *
  generalize valuesSum (mapSet (ch.points.foldl (nodesStep ch.point2node) ([], 0)).1
    (mapGet ch.point2node last "") (add64 g (add32 (sub32 MaxUint32 last) 1))) = total at *
  unfold add64 add32 sub32 MaxUint32 two64 two32 at h1
  unfold two32 at hlast ⊢
  by_cases h0 : last = 0
  · rw [if_pos h0]
    omega
  · rw [if_neg h0]
    omega

/-- Total of the report on every non-empty ring reached from `New` by `Add`/`Del` calls:
2^32 when the greatest ring point is not 0, and 0 when it is 0. -/
theorem valuesSum_Nodes_run (crc32 : HashFunc) (dups : Int) (modOptions : List ModOption)
    (ops : List Op) (hne : (run (New crc32 dups modOptions) ops).points ≠ []) :
    ((Nodes (run (New crc32 dups modOptions) ops)).map Prod.snd).sum =
      if (run (New crc32 dups modOptions) ops).points.getD
          ((run (New crc32 dups modOptions) ops).points.length - 1) 0 = 0 then 0
      else two32 :=
  valuesSum_Nodes_of_Inv _ (Inv_run crc32 dups modOptions ops) hne

/-! ## The wraparound arc and the shape of the point slice -/

/-- C11 (failing input): on the ring with the points 2 (node "a") and 3 (node "bb"), `Get`
wraps a hash above 3 around to "a", the owner of the smallest point, yet `Nodes` adds the
arc of width 2^32 - 3 to the entry of "bb", the owner of the largest point: "a" is reported
with 2 and "bb" with 1 + (2^32 - 3). -/
theorem Nodes_wraparound_credit :
    (run (New (fun s => s.length) 1 []) [Op.add ["a", "bb"]]).points = [2, 3] ∧
      (run (New (fun s => s.length) 1 []) [Op.add ["a", "bb"]]).point2node =
        [(2, "a"), (3, "bb")] ∧
      Get (run (New (fun s => s.length) 1 []) [Op.add ["a", "bb"]]) "long key" = ("a", none) ∧
      Nodes (run (New (fun s => s.length) 1 []) [Op.add ["a", "bb"]]) =
        [("a", 2), ("bb", 4294967294)] ∧
      mapGet (Nodes (run (New (fun s => s.length) 1 []) [Op.add ["a", "bb"]])) "a" 0 ≠
        2 + (two32 - 3) := by
  decide

/-- C12: on every ring reached from `New` by `Add`/`Del` calls the point slice is sorted in
ascending order, and its elements are exactly the keys of the point-to-node mapping. -/
theorem points_sorted_and_keys (crc32 : HashFunc) (dups : Int) (modOptions : List ModOption)
    (ops : List Op) :
    (run (New crc32 dups modOptions) ops).points.Sorted (fun x y => x ≤ y) ∧
      ∀ p, p ∈ (run (New crc32 dups modOptions) ops).points ↔
        p ∈ mapKeys (run (New crc32 dups modOptions) ops).point2node := by
  have hinv := Inv_run crc32 dups modOptions ops
  exact ⟨hinv.1, hinv.2.1⟩

theorem foldl_addNode_points (nodes : List String) :
    ∀ ch : consistentHash,
      (nodes.foldl addNode ch).points = ch.points ++ nodes.flatMap (virtualPoints ch) := by
  induction nodes with
  | nil => intro ch; simp
  | cons n nodes ih =>
    intro ch
    rw [List.foldl_cons, ih, addNode_points, List.flatMap_cons, List.append_assoc]
    congr 2
    apply List.flatMap_congr
    intro x _
    exact virtualPoints_congr ch _ (addNode_dups ch n) (addNode_option ch n) x

theorem length_eq_of_nodup_keys (ch : consistentHash) (hinv : Inv ch) (hnd : ch.points.Nodup) :
    ch.points.length = ch.point2node.length := by
  have hperm : ch.points.Perm (mapKeys ch.point2node) :=
    (List.perm_ext_iff_of_nodup hnd hinv.2.2.1).2 hinv.2.1
  rw [hperm.length_eq]
  simp [mapKeys]

/-- C17 (counterexample): with two replicas whose virtual keys hash to the same point, one
`Add` leaves the point 2 twice in the slice while the mapping has a single entry. -/
theorem points_repeated_after_Add :
    (run (New (fun s => s.length) 2 []) [Op.add ["a"]]).points = [2, 2] ∧
      (run (New (fun s => s.length) 2 []) [Op.add ["a"]]).point2node = [(2, "a")] ∧
      ¬ (run (New (fun s => s.length) 2 []) [Op.add ["a"]]).points.Nodup ∧
      (run (New (fun s => s.length) 2 []) [Op.add ["a"]]).points.length ≠
        (run (New (fun s => s.length) 2 []) [Op.add ["a"]]).point2node.length := by
  decide

/-- C17 (amended): after every `Del` on a ring reached from `New` by `Add`/`Del` calls the
point slice lists each point of the mapping exactly once: no duplicates, and as many
elements as the mapping has entries.  After an `Add` the same holds when the slice had no
duplicates before the call and the points computed by the call are pairwise distinct and
not yet on the ring. -/
theorem points_listed_once (crc32 : HashFunc) (dups : Int) (modOptions : List ModOption)
    (ops : List Op) (nodes : List String) :
    ((Del (run (New crc32 dups modOptions) ops) nodes).points.Nodup ∧
        (Del (run (New crc32 dups modOptions) ops) nodes).points.length =
          (Del (run (New crc32 dups modOptions) ops) nodes).point2node.length) ∧
      ((run (New crc32 dups modOptions) ops).points.Nodup →
        (nodes.flatMap (virtualPoints (run (New crc32 dups modOptions) ops))).Nodup →
        (∀ p ∈ nodes.flatMap (virtualPoints (run (New crc32 dups modOptions) ops)),
          p ∉ (run (New crc32 dups modOptions) ops).points) →
        (Add (run (New crc32 dups modOptions) ops) nodes).points.Nodup ∧
          (Add (run (New crc32 dups modOptions) ops) nodes).points.length =
            (Add (run (New crc32 dups modOptions) ops) nodes).point2node.length) := by
  have hinv := Inv_run crc32 dups modOptions ops
  have hdel := Inv_Del _ nodes hinv
  have hadd := Inv_Add _ nodes hinv
  have hnd : (Del (run (New crc32 dups modOptions) ops) nodes).points.Nodup := by
    rw [Del_points]
    exact (List.perm_insertionSort _ _).nodup_iff.2 hdel.2.2.1
  refine ⟨⟨hnd, length_eq_of_nodup_keys _ hdel hnd⟩, ?_⟩
  intro h1 h2 h3
  have hnd' : (Add (run (New crc32 dups modOptions) ops) nodes).points.Nodup := by
    rw [Add_points, foldl_addNode_points]
    apply (List.perm_insertionSort _ _).nodup_iff.2
    rw [List.nodup_append]
    refine ⟨h1, h2, ?_⟩
    intro a ha hb
    exact h3 a hb ha
  exact ⟨hnd', length_eq_of_nodup_keys _ hadd hnd'⟩

/-- Witness for C17 (amended): a second node with fresh points joins a ring of one node. -/
theorem points_listed_once_witness :
    (Add (run (New (fun s => s.length) 1 []) [Op.add ["a"]]) ["bb", "ccc"]).points.Nodup ∧
      (Add (run (New (fun s => s.length) 1 []) [Op.add ["a"]]) ["bb", "ccc"]).points.length =
        (Add (run (New (fun s => s.length) 1 []) [Op.add ["a"]])
          ["bb", "ccc"]).point2node.length :=
  (points_listed_once (fun s => s.length) 1 [] [Op.add ["a"]] ["bb", "ccc"]).2
    (by decide) (by decide) (by decide)

/-! ## Removing a node: the other keys stay -/

/-- C18: on a ring reached from `New` by `Add`/`Del` calls, for a node `X` each of whose
virtual points is absent from the mapping or mapped to `X`, every key for which `Get` did
not return `X` before `Del X` gets the same result from `Get` after `Del X`. -/
theorem Get_after_Del (crc32 : HashFunc) (dups : Int) (modOptions : List ModOption)
    (ops : List Op) (X key : String)
    (hown : ∀ i < dups.toNat,
      mapLookup (run (New crc32 dups modOptions) ops).point2node
          (hash2point (run (New crc32 dups modOptions) ops) (virtualKey X i)) = none ∨
        mapLookup (run (New crc32 dups modOptions) ops).point2node
          (hash2point (run (New crc32 dups modOptions) ops) (virtualKey X i)) = some X)
    (hget : (Get (run (New crc32 dups modOptions) ops) key).1 ≠ X) :
    Get (Del (run (New crc32 dups modOptions) ops) [X]) key =
      Get (run (New crc32 dups modOptions) ops) key := by
  have hinv := Inv_run crc32 dups modOptions ops
  have hinv' := Inv_Del _ [X] hinv
  have hd : (run (New crc32 dups modOptions) ops).dups = dups := run_dups ops _
  have hsubset : ∀ q ∈ (Del (run (New crc32 dups modOptions) ops) [X]).points,
      q ∈ (run (New crc32 dups modOptions) ops).points := by
    intro q hq
    obtain ⟨v, hv⟩ := (mem_mapKeys_iff _ _).1 ((hinv'.2.1 q).1 hq)
    rw [mapLookup_Del_single] at hv
    by_cases hqx : q ∈ virtualPoints (run (New crc32 dups modOptions) ops) X
    · rw [if_pos hqx] at hv
      cases hv
    · rw [if_neg hqx] at hv
      exact (hinv.2.1 q).2 ((mem_mapKeys_iff _ _).2 ⟨v, hv⟩)
  by_cases hnil : (run (New crc32 dups modOptions) ops).points = []
  · have hnil' : (Del (run (New crc32 dups modOptions) ops) [X]).points = [] := by
      apply List.eq_nil_iff_forall_not_mem.2
      intro q hq
      have := hsubset q hq
      rw [hnil] at this
      simp at this
    rw [Get_eq_of_nil _ _ hnil, Get_eq_of_nil _ _ hnil']
  · obtain ⟨_, hsucc⟩ := getIndex_spec _
      (hash2point (run (New crc32 dups modOptions) ops) key) hinv.1 hnil
    obtain ⟨v, hv⟩ := (mem_mapKeys_iff _ _).1 ((hinv.2.1 _).1 hsucc.1)
    have hgv : Get (run (New crc32 dups modOptions) ops) key = (v, none) := by
      rw [Get_eq_of_ne _ _ hnil]
      unfold mapGet
      rw [hv]
      rfl
    have hvX : v ≠ X := by
      intro e
      rw [hgv] at hget
      exact hget e
    have hnotin : (run (New crc32 dups modOptions) ops).points.getD
        (getIndex (run (New crc32 dups modOptions) ops).points
          (hash2point (run (New crc32 dups modOptions) ops) key)) 0 ∉
        virtualPoints (run (New crc32 dups modOptions) ops) X := by
      intro hin
      obtain ⟨i, hi, hip⟩ := (mem_virtualPoints _ _ _).1 hin
      rw [hd] at hi
      rcases hown i hi with h | h
      · rw [hip, hv] at h
        cases h
      · rw [hip, hv] at h
        exact hvX (Option.some.inj h)
    have hv' : mapLookup (Del (run (New crc32 dups modOptions) ops) [X]).point2node
        ((run (New crc32 dups modOptions) ops).points.getD
          (getIndex (run (New crc32 dups modOptions) ops).points
            (hash2point (run (New crc32 dups modOptions) ops) key)) 0) = some v := by
      rw [mapLookup_Del_single, if_neg hnotin]
      exact hv
    have hmem' := (hinv'.2.1 _).2 ((mem_mapKeys_iff _ _).2 ⟨v, hv'⟩)
    have hnil' : (Del (run (New crc32 dups modOptions) ops) [X]).points ≠ [] := by
      intro e
      rw [e] at hmem'
      simp at hmem'
    obtain ⟨_, hsucc'⟩ := getIndex_spec _
      (hash2point (run (New crc32 dups modOptions) ops) key) hinv'.1 hnil'
    have hsub := IsSucc_subset _ _ _ _ hsucc hsubset hmem'
    have hh : hash2point (Del (run (New crc32 dups modOptions) ops) [X]) key =
        hash2point (run (New crc32 dups modOptions) ops) key :=
      hash2point_congr _ _ (Del_option _ _) key
    rw [hgv, Get_eq_of_ne _ _ hnil', hh, IsSucc_unique _ _ _ _ hsucc' hsub]
    unfold mapGet
    rw [hv']
    rfl

/-- Witness for C18: "bb" leaves a ring of three nodes; the key is served by "a". -/
theorem Get_after_Del_witness :
    Get (Del (run (New (fun s => s.length) 2 []) [Op.add ["a", "bb", "ccc"]]) ["bb"]) "k" =
      Get (run (New (fun s => s.length) 2 []) [Op.add ["a", "bb", "ccc"]]) "k" :=
  Get_after_Del (fun s => s.length) 2 [] [Op.add ["a", "bb", "ccc"]] "bb" "k"
    (by decide) (by decide)

/-! ## The width reported for one node -/

theorem mapGet_mapSet (m : List (String × Nat)) (k n : String) (v : Nat) :
    mapGet (mapSet m k v) n 0 = if k = n then v else mapGet m n 0 := by
  unfold mapGet
  rw [mapLookup_mapSet]
  by_cases h : k = n <;> simp [h]

theorem mapGet_nodesStep (m : List (Nat × String)) (st : List (String × Nat) × Nat)
    (p : Nat) (n : String) (hsum : valuesSum st.1 = st.2) (hle : st.2 ≤ p) (hp : p < two32) :
    mapGet (nodesStep m st p).1 n 0 =
      mapGet st.1 n 0 + (if mapGet m p "" = n then p - st.2 else 0) := by
  unfold nodesStep
  simp only
  rw [mapGet_mapSet]
  have h2 := mapGet_le_valuesSum st.1 (mapGet m p "")
  have h3 : sub64 (add64 (mapGet st.1 (mapGet m p "") 0) p) st.2 =
      mapGet st.1 (mapGet m p "") 0 + p - st.2 := by
    unfold sub64 add64 two64
    unfold two32 at hp
    omega
  by_cases h : mapGet m p "" = n
  · rw [if_pos h, if_pos h, h3, h]
    omega
  · rw [if_neg h, if_neg h]
    rfl

theorem mapGet_foldl_nodesStep (m : List (Nat × String)) (n : String) (l : List Nat) :
    ∀ st : List (String × Nat) × Nat, l.Sorted (fun x y => x ≤ y) →
      (∀ q ∈ l, st.2 ≤ q ∧ q < two32) → valuesSum st.1 = st.2 →
      mapGet (l.foldl (nodesStep m) st).1 n 0 = mapGet st.1 n 0 + gapSum m n st.2 l := by
  induction l with
  | nil => intro st _ _ _; simp [gapSum]
  | cons a t ih =>
    intro st hs hb hsum
    obtain ⟨hle, hlt⟩ := hb a (List.mem_cons_self _ _)
    obtain ⟨e1, e2⟩ := valuesSum_nodesStep m st a hsum hle hlt
    rw [List.foldl_cons, ih (nodesStep m st a) (List.Sorted.of_cons hs) ?_ (by rw [e1, e2]),
      mapGet_nodesStep m st a n hsum hle hlt, e2]
    · simp only [gapSum]
      omega
    · intro q hq
      rw [e2]
      exact ⟨List.rel_of_sorted_cons hs q hq, (hb q (List.mem_cons_of_mem _ hq)).2⟩

/-- C19: on a ring reached from `New` by `Add`/`Del` calls, the width that `Nodes` reports
for a node `n` that does not own the largest point is the sum of the gaps between
consecutive points of the sorted slice (the point before the first one taken as 0) over
the positions whose point is mapped to `n`; a repeated point contributes the gap 0. -/
theorem Nodes_entry_eq_gapSum (crc32 : HashFunc) (dups : Int) (modOptions : List ModOption)
    (ops : List Op) (n : String)
    (hn : mapGet (run (New crc32 dups modOptions) ops).point2node
      ((run (New crc32 dups modOptions) ops).points.getD
        ((run (New crc32 dups modOptions) ops).points.length - 1) 0) "" ≠ n) :
    mapGet (Nodes (run (New crc32 dups modOptions) ops)) n 0 =
      gapSum (run (New crc32 dups modOptions) ops).point2node n 0
        (run (New crc32 dups modOptions) ops).points := by
  have hinv := Inv_run crc32 dups modOptions ops
  have hlt : ∀ q ∈ (run (New crc32 dups modOptions) ops).points, q < two32 := by
    intro q hq
    obtain ⟨v, hv⟩ := (mem_mapKeys_iff _ _).1 ((hinv.2.1 q).1 hq)
    exact virtualPoints_lt _ v q (hinv.2.2.2 q v hv)
  have hloop := mapGet_foldl_nodesStep (run (New crc32 dups modOptions) ops).point2node n
    (run (New crc32 dups modOptions) ops).points ([], 0) hinv.1
    (fun q hq => ⟨Nat.zero_le _, hlt q hq⟩) rfl
  unfold Nodes
  by_cases hl : (run (New crc32 dups modOptions) ops).points.length = 0
  · rw [if_pos hl, List.length_eq_zero.1 hl]
    simp [gapSum, mapGet, mapLookup]
  · rw [if_neg hl]
    simp only
    rw [mapGet_mapSet, if_neg hn, hloop]
    simp [mapGet, mapLookup]

/-- Witness for C19: node "a" on the ring with the points 2, 2 ("a") and 3, 3 ("bb"). -/
theorem Nodes_entry_eq_gapSum_witness :
    mapGet (Nodes (run (New (fun s => s.length) 2 []) [Op.add ["a", "bb"]])) "a" 0 =
      gapSum (run (New (fun s => s.length) 2 []) [Op.add ["a", "bb"]]).point2node "a" 0
        (run (New (fun s => s.length) 2 []) [Op.add ["a", "bb"]]).points :=
  Nodes_entry_eq_gapSum (fun s => s.length) 2 [] [Op.add ["a", "bb"]] "a" (by decide)

/-! ## Virtual keys of different nodes -/

/-- C21: `virtualKey` is not injective across nodes: the distinct nodes "a1" and "a" have
the virtual key "a10" in common (replica 0 of "a1", replica 10 of "a").  With the
replication factor 11 the two nodes are therefore given the same ring point under every
hash function, and `Add` of one overwrites the mapping entry of the other: after `Add a`
the point is mapped to "a", after `Add a1` on top of it the point is mapped to "a1". -/
theorem virtualKey_not_injective (crc32 : HashFunc) (modOptions : List ModOption) :
    "a1" ≠ "a" ∧ virtualKey "a1" 0 = virtualKey "a" 10 ∧
      hash2point (New crc32 11 modOptions) (virtualKey "a1" 0) =
        hash2point (New crc32 11 modOptions) (virtualKey "a" 10) ∧
      hash2point (New crc32 11 modOptions) (virtualKey "a" 10) ∈
        virtualPoints (New crc32 11 modOptions) "a1" ∧
      hash2point (New crc32 11 modOptions) (virtualKey "a" 10) ∈
        virtualPoints (New crc32 11 modOptions) "a" ∧
      mapLookup (Add (New crc32 11 modOptions) ["a"]).point2node
        (hash2point (New crc32 11 modOptions) (virtualKey "a" 10)) = some "a" ∧
      mapLookup (Add (Add (New crc32 11 modOptions) ["a"]) ["a1"]).point2node
        (hash2point (New crc32 11 modOptions) (virtualKey "a" 10)) = some "a1" ∧
      mapLookup (Add (Add (New crc32 11 modOptions) ["a1"]) ["a"]).point2node
        (hash2point (New crc32 11 modOptions) (virtualKey "a" 10)) = some "a" := by
  have hkey : virtualKey "a1" 0 = virtualKey "a" 10 := by decide
  have hd : (New crc32 11 modOptions).dups.toNat = 11 := rfl
  have h1 : hash2point (New crc32 11 modOptions) (virtualKey "a" 10) ∈
      virtualPoints (New crc32 11 modOptions) "a1" :=
    (mem_virtualPoints _ _ _).2 ⟨0, by rw [hd]; decide, by rw [hkey]⟩
  have h2 : hash2point (New crc32 11 modOptions) (virtualKey "a" 10) ∈
      virtualPoints (New crc32 11 modOptions) "a" :=
    (mem_virtualPoints _ _ _).2 ⟨10, by rw [hd]; decide, rfl⟩
  refine ⟨by decide, hkey, by rw [hkey], h1, h2, ?_, ?_, ?_⟩
  · rw [mapLookup_Add_single, if_pos h2]
  · rw [mapLookup_Add_single, virtualPoints_Add, if_pos h1]
  · rw [mapLookup_Add_single, virtualPoints_Add, if_pos h2]

end ConsistentHash

/-! # Properties of the LRU container -/

namespace Lru

open ConsistentHash

/-! ## Lists of elements -/

theorem mem_dropKey {K V : Type} [DecidableEq K] (k : K) (l : List (Element K V))
    (e : Element K V) : e ∈ dropKey k l ↔ e ∈ l ∧ keyOf e ≠ k := by
  induction l with
  | nil => simp [dropKey]
  | cons x xs ih =>
    by_cases hx : keyOf x = k
    · simp only [dropKey, hx, if_true, ih, List.mem_cons]
      constructor
      · rintro ⟨h1, h2⟩
        exact ⟨Or.inr h1, h2⟩
      · rintro ⟨h1 | h1, h2⟩
        · rw [h1] at h2
          exact absurd hx h2
        · exact ⟨h1, h2⟩
    · simp only [dropKey, hx, if_false, List.mem_cons, ih]
      constructor
      · rintro (h | ⟨h1, h2⟩)
        · rw [h]
          exact ⟨Or.inl rfl, hx⟩
        · exact ⟨Or.inr h1, h2⟩
      · rintro ⟨h1 | h1, h2⟩
        · exact Or.inl h1
        · exact Or.inr ⟨h1, h2⟩

theorem dropKey_sublist {K V : Type} [DecidableEq K] (k : K) (l : List (Element K V)) :
    List.Sublist (dropKey k l) l := by
  induction l with
  | nil => simp [dropKey]
  | cons x xs ih =>
    by_cases hx : keyOf x = k
    · simp only [dropKey, hx, if_true]
      exact List.Sublist.cons _ ih
    · simp only [dropKey, hx, if_false]
      exact List.Sublist.cons₂ _ ih

theorem dropKey_eq_self {K V : Type} [DecidableEq K] (k : K) (l : List (Element K V))
    (h : ∀ x ∈ l, keyOf x ≠ k) : dropKey k l = l := by
  induction l with
  | nil => rfl
  | cons x xs ih =>
    have hx : keyOf x ≠ k := h x (List.mem_cons_self _ _)
    simp only [dropKey, hx, if_false]
    rw [ih (fun y hy => h y (List.mem_cons_of_mem _ hy))]

theorem Uniq_id {K V : Type} (l : List (Element K V)) (h : Uniq l) (x y : Element K V)
    (hx : x ∈ l) (hy : y ∈ l) (hid : x.id = y.id) : x = y := by
  by_contra hne
  have hsym : Symmetric (fun a b : Element K V => a.id ≠ b.id ∧ keyOf a ≠ keyOf b) := by
    intro a b hab
    exact ⟨fun e => hab.1 e.symm, fun e => hab.2 e.symm⟩
  exact (List.Pairwise.forall hsym h hx hy hne).1 hid

theorem Uniq_key {K V : Type} (l : List (Element K V)) (h : Uniq l) (x y : Element K V)
    (hx : x ∈ l) (hy : y ∈ l) (hk : keyOf x = keyOf y) : x = y := by
  by_contra hne
  have hsym : Symmetric (fun a b : Element K V => a.id ≠ b.id ∧ keyOf a ≠ keyOf b) := by
    intro a b hab
    exact ⟨fun e => hab.1 e.symm, fun e => hab.2 e.symm⟩
  exact (List.Pairwise.forall hsym h hx hy hne).2 hk

theorem listRemove_eq_dropKey {K V : Type} [DecidableEq K] (l : List (Element K V))
    (e : Element K V) (h : Uniq l) (he : e ∈ l) : listRemove l e = dropKey (keyOf e) l := by
  induction l with
  | nil => simp at he
  | cons x xs ih =>
    have hxs : Uniq xs := (List.pairwise_cons.1 h).2
    have hrel := (List.pairwise_cons.1 h).1
    by_cases hid : x.id = e.id
    · have hxe : x = e := Uniq_id _ h x e (List.mem_cons_self _ _) he hid
      subst hxe
      simp only [listRemove, dropKey, if_true]
      rw [dropKey_eq_self]
      intro y hy e1
      exact (hrel y hy).2 e1.symm
    · have hmem : e ∈ xs := by
        rcases List.mem_cons.1 he with h1 | h1
        · rw [h1] at hid
          exact absurd rfl hid
        · exact h1
      have hk : keyOf x ≠ keyOf e := (hrel e hmem).2
      simp only [listRemove, dropKey, hid, hk, if_false]
      rw [ih hxs hmem]

theorem find_id {K V : Type} (l : List (Element K V)) (e : Element K V) (h : Uniq l)
    (he : e ∈ l) : l.find? (fun x => decide (x.id = e.id)) = some e := by
  induction l with
  | nil => simp at he
  | cons x xs ih =>
    have hxs : Uniq xs := (List.pairwise_cons.1 h).2
    by_cases hid : x.id = e.id
    · have hxe : x = e := Uniq_id _ h x e (List.mem_cons_self _ _) he hid
      subst hxe
      simp [List.find?]
    · have hmem : e ∈ xs := by
        rcases List.mem_cons.1 he with h1 | h1
        · rw [h1] at hid
          exact absurd rfl hid
        · exact h1
      simp only [List.find?, hid, decide_False]
      exact ih hxs hmem

theorem listRemove_last {K V : Type} [DecidableEq K] (l : List (Element K V))
    (b : Element K V) (h : Uniq l) (hb : l.getLast? = some b) :
    listRemove l b = l.dropLast := by
  have hl : l = l.dropLast ++ [b] := by
    have hne : l ≠ [] := by
      intro e
      rw [e] at hb
      simp at hb
    rw [List.getLast?_eq_getLast _ hne] at hb
    have := List.dropLast_append_getLast hne
    rw [Option.some.inj hb] at this
    exact this.symm
  have hmem : b ∈ l := by
    rw [hl]
    simp
  rw [listRemove_eq_dropKey l b h hmem]
  have hU : Uniq (l.dropLast ++ [b]) := by
    rw [← hl]
    exact h
  have hrel : ∀ x ∈ l.dropLast, keyOf x ≠ keyOf b := by
    intro x hx
    have := (List.pairwise_append.1 hU).2.2 x hx b (by simp)
    exact this.2
  have hgen : ∀ (xs : List (Element K V)), (∀ x ∈ xs, keyOf x ≠ keyOf b) →
      dropKey (keyOf b) (xs ++ [b]) = xs := by
    intro xs
    induction xs with
    | nil => intro _; simp [dropKey]
    | cons y ys ihy =>
      intro hys
      have hy : keyOf y ≠ keyOf b := hys y (List.mem_cons_self _ _)
      have ih2 := ihy (fun z hz => hys z (List.mem_cons_of_mem _ hz))
      rw [List.cons_append]
      unfold dropKey
      rw [if_neg hy, ih2]
  calc dropKey (keyOf b) l = dropKey (keyOf b) (l.dropLast ++ [b]) := by rw [← hl]
    _ = l.dropLast := hgen _ hrel

/-! ## The two halves of `putCmp` -/

theorem Core_absent {K V : Type} [DecidableEq K] (s : LRU K V) (k : K) (h : Core s)
    (hk : mapLookup s.m k = none) : ∀ x ∈ s.l, keyOf x ≠ k := by
  intro x hx e
  have := (h.2.2 k x).2 ⟨hx, e⟩
  rw [hk] at this
  cases this

theorem Uniq_putFront {K V : Type} [DecidableEq K] (s : LRU K V) (k : K) (v : V)
    (h : Core s) : Uniq (putFront s k v).l := by
  unfold putFront Uniq
  simp only
  rw [List.pairwise_cons]
  constructor
  · intro y hy
    obtain ⟨hy1, hy2⟩ := (mem_dropKey k s.l y).1 hy
    have hlt := h.2.1 y hy1
    constructor
    · show s.alloc ≠ y.id
      omega
    · intro e
      exact hy2 e.symm
  · exact List.Pairwise.sublist (dropKey_sublist k s.l) h.1

theorem Core_putFront {K V : Type} [DecidableEq K] (s : LRU K V) (k : K) (v : V)
    (h : Core s) : Core (putFront s k v) := by
  refine ⟨Uniq_putFront s k v h, ?_, ?_⟩
  · intro e he
    unfold putFront at he ⊢
    simp only [List.mem_cons] at he ⊢
    rcases he with rfl | he
    · show s.alloc < s.alloc + 1
      omega
    · have := h.2.1 e ((mem_dropKey k s.l e).1 he).1
      omega
  · intro k' e
    unfold putFront
    simp only [List.mem_cons]
    rw [mapLookup_mapSet, mapLookup_mapDelete, mem_dropKey]
    by_cases hk : k = k'
    · subst hk
      simp only [if_true, Option.some.injEq]
      constructor
      · intro he
        subst he
        exact ⟨Or.inl rfl, rfl⟩
      · rintro ⟨he | ⟨_, he⟩, hke⟩
        · exact he.symm
        · exact absurd hke he
    · simp only [hk, if_false]
      rw [h.2.2 k' e]
      constructor
      · rintro ⟨h1, h2⟩
        refine ⟨Or.inr ⟨h1, ?_⟩, h2⟩
        rw [h2]
        exact fun e1 => hk e1.symm
      · rintro ⟨he | ⟨h1, _⟩, h2⟩
        · subst he
          exact absurd h2 hk
        · exact ⟨h1, h2⟩

theorem evict_eq {K V : Type} [DecidableEq K] (s : LRU K V) (h : Uniq s.l) :
    (if (listLen s.l : Int) > s.c then
      match listBack s.l with
      | some b => { s with l := listRemove s.l b, m := mapDelete s.m b.Value.k }
      | none => s
    else s) = evict s := by
  unfold evict listLen listBack
  by_cases hc : (s.l.length : Int) > s.c
  · rw [if_pos hc, if_pos hc]
    cases hb : s.l.getLast? with
    | none => rfl
    | some b =>
      simp only
      rw [listRemove_last s.l b h hb]
      rfl
  · rw [if_neg hc, if_neg hc]

theorem Put_snd {K V : Type} [DecidableEq K] (s : LRU K V) (k : K) (v : V) (h : Core s) :
    (putCmp s k v).2 = evict (putFront s k v) := by
  rw [← evict_eq _ (Uniq_putFront s k v h)]
  unfold putCmp
  cases hf : mapLookup s.m k with
  | none =>
    have h1 : dropKey k s.l = s.l := dropKey_eq_self k s.l (Core_absent s k h hf)
    have h2 : mapDelete s.m k = s.m := mapDelete_eq_self s.m k hf
    simp only [putFront, listPushFront, h1, h2]
  | some e =>
    obtain ⟨he1, he2⟩ := (h.2.2 k e).1 hf
    have h1 : listRemove s.l e = dropKey k s.l := by
      rw [listRemove_eq_dropKey s.l e h.1 he1, he2]
    simp only [putFront, listPushFront, h1]

theorem Put_fst {K V : Type} [DecidableEq K] (s : LRU K V) (k : K) (v : V) :
    (putCmp s k v).1 = !(mapLookup s.m k).isSome := rfl

theorem Core_evict {K V : Type} [DecidableEq K] (s : LRU K V) (h : Core s) :
    Core (evict s) := by
  unfold evict
  by_cases hc : (s.l.length : Int) > s.c
  · rw [if_pos hc]
    cases hb : s.l.getLast? with
    | none => exact h
    | some b =>
      simp only
      have hne : s.l ≠ [] := by
        intro e
        rw [e] at hb
        simp at hb
      have hl : s.l = s.l.dropLast ++ [b] := by
        rw [List.getLast?_eq_getLast _ hne] at hb
        have := List.dropLast_append_getLast hne
        rw [Option.some.inj hb] at this
        exact this.symm
      have hU : Uniq (s.l.dropLast ++ [b]) := by
        rw [← hl]
        exact h.1
      have hsub : List.Sublist s.l.dropLast s.l := List.dropLast_sublist _
      have hbmem : b ∈ s.l := by
        rw [hl]
        simp
      have hnotb : ∀ x ∈ s.l.dropLast, keyOf x ≠ keyOf b := by
        intro x hx
        exact ((List.pairwise_append.1 hU).2.2 x hx b (by simp)).2
      refine ⟨List.Pairwise.sublist hsub h.1, ?_, ?_⟩
      · intro e he
        exact h.2.1 e (hsub.subset he)
      · intro k' e
        simp only
        rw [mapLookup_mapDelete]
        by_cases hk : keyOf b = k'
        · rw [if_pos hk]
          constructor
          · intro e1
            cases e1
          · rintro ⟨h1, h2⟩
            exact absurd (h2.trans hk.symm) (hnotb e h1)
        · rw [if_neg hk, h.2.2 k' e]
          constructor
          · rintro ⟨h1, h2⟩
            refine ⟨?_, h2⟩
            rw [hl] at h1
            rcases List.mem_append.1 h1 with h3 | h3
            · exact h3
            · rw [List.mem_singleton.1 h3] at h2
              exact absurd h2 hk
          · rintro ⟨h1, h2⟩
            exact ⟨hsub.subset h1, h2⟩
  · rw [if_neg hc]
    exact h

/-! ## Invariant of the container -/

theorem length_dropKey_le {K V : Type} [DecidableEq K] (k : K) (l : List (Element K V)) :
    (dropKey k l).length ≤ l.length :=
  (dropKey_sublist k l).length_le

theorem length_dropKey_of_mem {K V : Type} [DecidableEq K] (l : List (Element K V))
    (e : Element K V) (h : Uniq l) (he : e ∈ l) :
    (dropKey (keyOf e) l).length + 1 = l.length := by
  induction l with
  | nil => simp at he
  | cons x xs ih =>
    have hxs : Uniq xs := (List.pairwise_cons.1 h).2
    have hrel := (List.pairwise_cons.1 h).1
    by_cases hk : keyOf x = keyOf e
    · have hxe : x = e := Uniq_key _ h x e (List.mem_cons_self _ _) he hk
      subst hxe
      simp only [dropKey, if_true, List.length_cons]
      rw [dropKey_eq_self]
      intro y hy e1
      exact (hrel y hy).2 e1.symm
    · have hmem : e ∈ xs := by
        rcases List.mem_cons.1 he with h1 | h1
        · rw [h1] at hk
          exact absurd rfl hk
        · exact h1
      simp only [dropKey, hk, if_false, List.length_cons]
      rw [ih hxs hmem]

theorem evict_c {K V : Type} [DecidableEq K] (s : LRU K V) : (evict s).c = s.c := by
  unfold evict
  by_cases hc : (s.l.length : Int) > s.c
  · rw [if_pos hc]
    cases s.l.getLast? <;> rfl
  · rw [if_neg hc]

theorem evict_l {K V : Type} [DecidableEq K] (s : LRU K V) (hne : s.l ≠ []) :
    (evict s).l = if (s.l.length : Int) > s.c then s.l.dropLast else s.l := by
  unfold evict
  by_cases hc : (s.l.length : Int) > s.c
  · rw [if_pos hc, if_pos hc]
    cases hb : s.l.getLast? with
    | none =>
      rw [List.getLast?_eq_none_iff] at hb
      exact absurd hb hne
    | some b => rfl
  · rw [if_neg hc, if_neg hc]

theorem Put_l {K V : Type} [DecidableEq K] (s : LRU K V) (k : K) (v : V) (h : Core s) :
    (putCmp s k v).2.l =
      if ((dropKey k s.l).length + 1 : Int) > s.c then
        ({ id := s.alloc, Value := { k := k, v := v } } :: dropKey k s.l).dropLast
      else { id := s.alloc, Value := { k := k, v := v } } :: dropKey k s.l := by
  rw [Put_snd s k v h, evict_l _ (by simp [putFront])]
  simp [putFront]

theorem Put_c {K V : Type} [DecidableEq K] (s : LRU K V) (k : K) (v : V) (h : Core s) :
    (putCmp s k v).2.c = s.c := by
  rw [Put_snd s k v h, evict_c]
  rfl

theorem WF_Put {K V : Type} [DecidableEq K] (s : LRU K V) (k : K) (v : V) (h : WF s) :
    WF (putCmp s k v).2 := by
  refine ⟨?_, ?_⟩
  · rw [Put_snd s k v h.1]
    exact Core_evict _ (Core_putFront s k v h.1)
  · rw [Put_c s k v h.1, Put_l s k v h.1]
    intro hc
    have hb := h.2 hc
    have hle := length_dropKey_le k s.l
    by_cases hgt : ((dropKey k s.l).length + 1 : Int) > s.c
    · rw [if_pos hgt]
      simp only [List.length_dropLast, List.length_cons, Nat.add_sub_cancel]
      omega
    · rw [if_neg hgt]
      simp only [List.length_cons]
      push_cast
      omega

theorem Get_of_none {K V : Type} [DecidableEq K] (s : LRU K V) (k : K)
    (hk : mapLookup s.m k = none) : getCmp s k = ((none, false), s) := by
  unfold getCmp
  rw [hk]

theorem Get_of_some {K V : Type} [DecidableEq K] (s : LRU K V) (k : K) (e : Element K V)
    (h : Core s) (hk : mapLookup s.m k = some e) :
    getCmp s k = ((some e.Value.v, true), { s with l := e :: dropKey k s.l }) := by
  obtain ⟨he1, he2⟩ := (h.2.2 k e).1 hk
  unfold getCmp
  rw [hk]
  simp only
  unfold listMoveToFront
  rw [find_id s.l e h.1 he1]
  simp only
  rw [listRemove_eq_dropKey s.l e h.1 he1, he2]

theorem WF_Get {K V : Type} [DecidableEq K] (s : LRU K V) (k : K) (h : WF s) :
    WF (getCmp s k).2 := by
  cases hk : mapLookup s.m k with
  | none =>
    rw [Get_of_none s k hk]
    exact h
  | some e =>
    rw [Get_of_some s k e h.1 hk]
    obtain ⟨he1, he2⟩ := (h.1.2.2 k e).1 hk
    refine ⟨⟨?_, ?_, ?_⟩, ?_⟩
    · show Uniq (e :: dropKey k s.l)
      unfold Uniq
      rw [List.pairwise_cons]
      constructor
      · intro y hy
        obtain ⟨hy1, hy2⟩ := (mem_dropKey k s.l y).1 hy
        have hne : keyOf e ≠ keyOf y := by
          rw [he2]
          exact fun e1 => hy2 e1.symm
        constructor
        · intro hid
          exact hne (congrArg keyOf (Uniq_id _ h.1.1 e y he1 hy1 hid))
        · exact hne
      · exact List.Pairwise.sublist (dropKey_sublist k s.l) h.1.1
    · intro x hx
      show x.id < s.alloc
      rcases List.mem_cons.1 hx with h1 | h1
      · rw [h1]
        exact h.1.2.1 e he1
      · exact h.1.2.1 x ((mem_dropKey k s.l x).1 h1).1
    · intro k' x
      show mapLookup s.m k' = some x ↔ (x ∈ e :: dropKey k s.l ∧ keyOf x = k')
      rw [h.1.2.2 k' x, List.mem_cons, mem_dropKey]
      constructor
      · rintro ⟨h1, h2⟩
        refine ⟨?_, h2⟩
        by_cases hkk : keyOf x = k
        · left
          exact Uniq_key _ h.1.1 x e h1 he1 (hkk.trans he2.symm)
        · right
          exact ⟨h1, hkk⟩
      · rintro ⟨h1 | ⟨h1, _⟩, h2⟩
        · rw [h1]
          rw [h1] at h2
          exact ⟨he1, h2⟩
        · exact ⟨h1, h2⟩
    · intro hc
      show ((e :: dropKey k s.l).length : Int) ≤ s.c
      have hb := h.2 hc
      have hlen := length_dropKey_of_mem s.l e h.1.1 he1
      rw [he2] at hlen
      simp only [List.length_cons]
      omega

theorem WF_New {K V : Type} [DecidableEq K] (capacity : Int) : WF (New capacity : LRU K V) := by
  refine ⟨⟨?_, ?_, ?_⟩, ?_⟩
  · simp [New, Uniq]
  · intro e he
    simp [New] at he
  · intro k e
    simp [New, mapLookup]
  · intro hc
    simpa [New] using hc

theorem WF_step {K V : Type} [DecidableEq K] (s : LRU K V) (call : Call K V) (h : WF s) :
    WF (stepCmp s call) := by
  cases call with
  | put k v => exact WF_Put s k v h
  | get k => exact WF_Get s k h

theorem WF_run_of {K V : Type} [DecidableEq K] (calls : List (Call K V)) :
    ∀ s : LRU K V, WF s → WF (runCmp s calls) := by
  induction calls with
  | nil => intro s h; exact h
  | cons call calls ih =>
    intro s h
    unfold runCmp
    rw [List.foldl_cons]
    exact ih _ (WF_step s call h)

theorem WF_run {K V : Type} [DecidableEq K] (capacity : Int) (calls : List (Call K V)) :
    WF (runCmp (New capacity : LRU K V) calls) :=
  WF_run_of calls _ (WF_New capacity)

theorem Get_c {K V : Type} [DecidableEq K] (s : LRU K V) (k : K) : (getCmp s k).2.c = s.c := by
  unfold getCmp
  cases mapLookup s.m k <;> rfl

theorem run_c {K V : Type} [DecidableEq K] (calls : List (Call K V)) :
    ∀ s : LRU K V, WF s → (runCmp s calls).c = s.c := by
  induction calls with
  | nil => intro s _; rfl
  | cons call calls ih =>
    intro s h
    unfold runCmp at ih ⊢
    rw [List.foldl_cons, ih _ (WF_step s call h)]
    cases call with
    | put k v => exact Put_c s k v h.1
    | get k => exact Get_c s k

/-! ## What `getCmp` finds -/

theorem Get_fst_of_mem {K V : Type} [DecidableEq K] (s : LRU K V) (e : Element K V)
    (h : Core s) (he : e ∈ s.l) : (getCmp s (keyOf e)).1 = (some e.Value.v, true) := by
  have hk := (h.2.2 (keyOf e) e).2 ⟨he, rfl⟩
  rw [Get_of_some s (keyOf e) e h hk]

theorem Get_fst_of_not_mem {K V : Type} [DecidableEq K] (s : LRU K V) (k : K) (h : Core s)
    (hk : ∀ x ∈ s.l, keyOf x ≠ k) : (getCmp s k).1 = (none, false) := by
  cases hl : mapLookup s.m k with
  | none => rw [Get_of_none s k hl]
  | some e =>
    obtain ⟨he1, he2⟩ := (h.2.2 k e).1 hl
    exact absurd he2 (hk e he1)

theorem Get_exist_iff {K V : Type} [DecidableEq K] (s : LRU K V) (k : K) (h : Core s) :
    (getCmp s k).1.2 = true ↔ k ∈ s.l.map keyOf := by
  constructor
  · intro hg
    by_contra hnot
    have : ∀ x ∈ s.l, keyOf x ≠ k := by
      intro x hx e
      exact hnot (List.mem_map.2 ⟨x, hx, e⟩)
    rw [Get_fst_of_not_mem s k h this] at hg
    cases hg
  · intro hk
    obtain ⟨e, he, rfl⟩ := List.mem_map.1 hk
    rw [Get_fst_of_mem s e h he]

theorem Get_exist_iff_lookup {K V : Type} [DecidableEq K] (s : LRU K V) (k : K) :
    (getCmp s k).1.2 = true ↔ (mapLookup s.m k).isSome = true := by
  unfold getCmp
  cases mapLookup s.m k <;> simp

theorem New_c {K V : Type} (capacity : Int) : (New capacity : LRU K V).c = capacity := rfl

theorem run_New_c {K V : Type} [DecidableEq K] (capacity : Int) (calls : List (Call K V)) :
    (runCmp (New capacity : LRU K V) calls).c = capacity :=
  run_c calls _ (WF_New capacity)

theorem nodup_keys {K V : Type} (l : List (Element K V)) (h : Uniq l) :
    (l.map keyOf).Nodup := by
  unfold List.Nodup
  rw [List.pairwise_map]
  exact List.Pairwise.imp (fun hab => hab.2) h

/-! ## The container on comparable keys: presence, size, eviction -/

/-- With a capacity of at least 1, `getCmp k` after `putCmp k v` returns `(v, true)`. -/
theorem putCmp_then_getCmp {K V : Type} [DecidableEq K] (capacity : Int) (hcap : 1 ≤ capacity)
    (calls : List (Call K V)) (k : K) (v : V) :
    (getCmp (putCmp (runCmp (New capacity) calls) k v).2 k).1 = (some v, true) := by
  have hwf := WF_run capacity calls
  have hwf' := WF_Put _ k v hwf
  have hc := run_New_c capacity calls
  have hmem : ({ id := (runCmp (New capacity) calls).alloc, Value := { k := k, v := v } } :
      Element K V) ∈ (putCmp (runCmp (New capacity) calls) k v).2.l := by
    rw [Put_l _ k v hwf.1]
    by_cases hgt : ((dropKey k (runCmp (New capacity) calls).l).length + 1 : Int) >
        (runCmp (New capacity) calls).c
    · rw [if_pos hgt]
      have hne : dropKey k (runCmp (New capacity) calls).l ≠ [] := by
        intro e
        rw [e, hc] at hgt
        simp at hgt
        omega
      rw [List.dropLast_cons_of_ne_nil hne]
      exact List.mem_cons_self _ _
    · rw [if_neg hgt]
      exact List.mem_cons_self _ _
  exact Get_fst_of_mem _ _ hwf'.1 hmem

/-- The flag of `putCmp k v` is `false` exactly when `getCmp k` succeeds, that is, when the
map has an entry for `k`. -/
theorem putCmp_returns_new {K V : Type} [DecidableEq K] (s : LRU K V) (k : K) (v : V) :
    ((putCmp s k v).1 = false ↔ (getCmp s k).1.2 = true) ∧
      ((putCmp s k v).1 = true ↔ (getCmp s k).1.2 = false) ∧
      ((putCmp s k v).1 = false ↔ k ∈ mapKeys s.m) := by
  have h1 : (getCmp s k).1.2 = (mapLookup s.m k).isSome := by
    unfold getCmp
    cases mapLookup s.m k <;> rfl
  rw [Put_fst, h1, mem_mapKeys_iff]
  cases mapLookup s.m k <;> simp

theorem Size_Get {K V : Type} [DecidableEq K] (s : LRU K V) (k : K) (h : Core s) :
    Size (getCmp s k).2 = Size s := by
  cases hk : mapLookup s.m k with
  | none => rw [Get_of_none s k hk]
  | some e =>
    obtain ⟨he1, he2⟩ := (h.2.2 k e).1 hk
    rw [Get_of_some s k e h hk]
    have hlen := length_dropKey_of_mem s.l e h.1 he1
    rw [he2] at hlen
    show (e :: dropKey k s.l).length = s.l.length
    rw [List.length_cons, hlen]

theorem Size_Put {K V : Type} [DecidableEq K] (s : LRU K V) (k : K) (v : V) (h : WF s)
    (hc : 0 ≤ s.c) : Size (putCmp s k v).2 = Size s ∨ Size (putCmp s k v).2 = Size s + 1 := by
  have hb := h.2 hc
  show (putCmp s k v).2.l.length = s.l.length ∨ (putCmp s k v).2.l.length = s.l.length + 1
  rw [Put_l s k v h.1]
  cases hk : mapLookup s.m k with
  | none =>
    rw [dropKey_eq_self k s.l (Core_absent s k h.1 hk)]
    by_cases hgt : ((s.l.length : Int) + 1) > s.c
    · rw [if_pos hgt]
      left
      simp
    · rw [if_neg hgt]
      right
      simp
  | some e =>
    obtain ⟨he1, he2⟩ := (h.1.2.2 k e).1 hk
    have hlen := length_dropKey_of_mem s.l e h.1.1 he1
    rw [he2] at hlen
    have hgt : ¬ ((dropKey k s.l).length + 1 : Int) > s.c := by
      omega
    rw [if_neg hgt]
    left
    simp only [List.length_cons]
    exact hlen

/-- With a capacity of at least 0 and comparable keys: `Size` does not exceed the capacity,
it is the number of keys for which `getCmp` succeeds, `getCmp` keeps it and `putCmp` keeps
it or raises it by one. -/
theorem Size_invariant_cmp {K V : Type} [DecidableEq K] (capacity : Int) (hcap : 0 ≤ capacity)
    (calls : List (Call K V)) :
    (Size (runCmp (New capacity) calls) : Int) ≤ capacity ∧
      (∃ keys : List K, keys.Nodup ∧
        (∀ k, k ∈ keys ↔ (getCmp (runCmp (New capacity) calls) k).1.2 = true) ∧
        Size (runCmp (New capacity) calls) = keys.length) ∧
      (∀ k, Size (getCmp (runCmp (New capacity) calls) k).2 = Size (runCmp (New capacity) calls)) ∧
      (∀ k v, Size (putCmp (runCmp (New capacity) calls) k v).2 = Size (runCmp (New capacity) calls) ∨
        Size (putCmp (runCmp (New capacity) calls) k v).2 =
          Size (runCmp (New capacity) calls) + 1) := by
  have hwf := WF_run (V := V) capacity calls
  have hc := run_New_c (V := V) capacity calls
  refine ⟨?_, ?_, ?_, ?_⟩
  · have := hwf.2 (by rw [hc]; exact hcap)
    rw [hc] at this
    exact this
  · refine ⟨(runCmp (New capacity) calls).l.map keyOf, nodup_keys _ hwf.1.1, ?_, ?_⟩
    · intro k
      exact (Get_exist_iff _ k hwf.1).symm
    · simp [Size, listLen]
  · intro k
    exact Size_Get _ k hwf.1
  · intro k v
    exact Size_Put _ k v hwf (by rw [hc]; exact hcap)

/-! ## Recency order -/

theorem TInv_front {K V : Type} [DecidableEq K] (l : List (Element K V)) (e : Element K V)
    (k : K) (used : K → Nat) (clock : Nat) (hk : keyOf e = k)
    (h1 : ∀ x ∈ l, used (keyOf x) ≤ clock)
    (h2 : l.Pairwise (fun a b => used (keyOf b) < used (keyOf a))) :
    (∀ x ∈ e :: dropKey k l,
        (fun y => if y = k then clock + 1 else used y) (keyOf x) ≤ clock + 1) ∧
      (e :: dropKey k l).Pairwise (fun a b =>
        (fun y => if y = k then clock + 1 else used y) (keyOf b) <
          (fun y => if y = k then clock + 1 else used y) (keyOf a)) := by
  have hd : ∀ x ∈ dropKey k l,
      (fun y => if y = k then clock + 1 else used y) (keyOf x) = used (keyOf x) := by
    intro x hx
    have := ((mem_dropKey k l x).1 hx).2
    simp only [this, if_false]
  constructor
  · intro x hx
    rcases List.mem_cons.1 hx with h | h
    · rw [h]
      simp only [hk, if_true]
      omega
    · rw [hd x h]
      have := h1 x ((mem_dropKey k l x).1 h).1
      omega
  · rw [List.pairwise_cons]
    constructor
    · intro y hy
      rw [hd y hy]
      simp only [hk, if_true]
      have := h1 y ((mem_dropKey k l y).1 hy).1
      omega
    · refine List.Pairwise.imp_of_mem ?_ (List.Pairwise.sublist (dropKey_sublist k l) h2)
      intro a b ha hb hab
      rw [hd a ha, hd b hb]
      exact hab

theorem TInv_step {K V : Type} [DecidableEq K] (x : Timed K V) (call : Call K V)
    (h : TInv x) : TInv (stepTCmp x call) := by
  obtain ⟨hwf, h1, h2⟩ := h
  cases call with
  | put k v =>
    refine ⟨WF_Put x.st k v hwf, ?_, ?_⟩
    · obtain ⟨f1, _⟩ := TInv_front x.st.l
        ({ id := x.st.alloc, Value := { k := k, v := v } } : Element K V) k x.used x.clock
        rfl h1 h2
      intro e he
      apply f1 e
      have he' : e ∈ (putCmp x.st k v).2.l := he
      rw [Put_l x.st k v hwf.1] at he'
      by_cases hgt : ((dropKey k x.st.l).length + 1 : Int) > x.st.c
      · rw [if_pos hgt] at he'
        exact (List.dropLast_sublist _).subset he'
      · rw [if_neg hgt] at he'
        exact he'
    · obtain ⟨_, f2⟩ := TInv_front x.st.l
        ({ id := x.st.alloc, Value := { k := k, v := v } } : Element K V) k x.used x.clock
        rfl h1 h2
      show (putCmp x.st k v).2.l.Pairwise _
      rw [Put_l x.st k v hwf.1]
      by_cases hgt : ((dropKey k x.st.l).length + 1 : Int) > x.st.c
      · rw [if_pos hgt]
        exact List.Pairwise.sublist (List.dropLast_sublist _) f2
      · rw [if_neg hgt]
        exact f2
  | get k =>
    cases hk : mapLookup x.st.m k with
    | none =>
      have hg : getCmp x.st k = ((none, false), x.st) := Get_of_none x.st k hk
      refine ⟨WF_Get x.st k hwf, ?_, ?_⟩
      · intro e he
        have he' : e ∈ (getCmp x.st k).2.l := he
        rw [hg] at he'
        show (if (getCmp x.st k).1.2 = true ∧ keyOf e = k then x.clock + 1
          else x.used (keyOf e)) ≤ x.clock + 1
        rw [hg]
        simp only [Bool.false_eq_true, false_and, if_false]
        have := h1 e he'
        omega
      · show (getCmp x.st k).2.l.Pairwise (fun a b =>
          (if (getCmp x.st k).1.2 = true ∧ keyOf b = k then x.clock + 1 else x.used (keyOf b)) <
            (if (getCmp x.st k).1.2 = true ∧ keyOf a = k then x.clock + 1
              else x.used (keyOf a)))
        rw [hg]
        simp only [Bool.false_eq_true, false_and, if_false]
        exact h2
    | some e =>
      have hg := Get_of_some x.st k e hwf.1 hk
      obtain ⟨he1, he2⟩ := (hwf.1.2.2 k e).1 hk
      obtain ⟨f1, f2⟩ := TInv_front x.st.l e k x.used x.clock he2 h1 h2
      refine ⟨WF_Get x.st k hwf, ?_, ?_⟩
      · intro y hy
        have hy' : y ∈ (getCmp x.st k).2.l := hy
        rw [hg] at hy'
        show (if (getCmp x.st k).1.2 = true ∧ keyOf y = k then x.clock + 1
          else x.used (keyOf y)) ≤ x.clock + 1
        rw [hg]
        simp only [true_and]
        exact f1 y hy'
      · show (getCmp x.st k).2.l.Pairwise (fun a b =>
          (if (getCmp x.st k).1.2 = true ∧ keyOf b = k then x.clock + 1 else x.used (keyOf b)) <
            (if (getCmp x.st k).1.2 = true ∧ keyOf a = k then x.clock + 1
              else x.used (keyOf a)))
        rw [hg]
        simp only [true_and]
        exact f2

theorem foldl_stepT_st {K V : Type} [DecidableEq K] (calls : List (Call K V)) :
    ∀ x : Timed K V, (calls.foldl stepTCmp x).st = runCmp x.st calls := by
  induction calls with
  | nil => intro x; rfl
  | cons call calls ih =>
    intro x
    unfold runCmp
    rw [List.foldl_cons, List.foldl_cons, ih]
    cases call <;> rfl

theorem runT_st {K V : Type} [DecidableEq K] (capacity : Int) (calls : List (Call K V)) :
    (runTCmp capacity calls).st = runCmp (New capacity) calls :=
  foldl_stepT_st calls _

theorem TInv_foldl {K V : Type} [DecidableEq K] (calls : List (Call K V)) :
    ∀ x : Timed K V, TInv x → TInv (calls.foldl stepTCmp x) := by
  induction calls with
  | nil => intro x h; exact h
  | cons call calls ih =>
    intro x h
    rw [List.foldl_cons]
    exact ih _ (TInv_step x call h)

theorem TInv_runT {K V : Type} [DecidableEq K] (capacity : Int) (calls : List (Call K V)) :
    TInv (runTCmp capacity calls) := by
  apply TInv_foldl
  refine ⟨WF_New capacity, ?_, ?_⟩
  · intro e he
    simp [New] at he
  · simp [New]

/-- With a capacity of at least 1 and comparable keys, `putCmp` of an absent key into a full
container evicts the key whose latest use is oldest and no other key. -/
theorem putCmp_evicts_least_recent {K V : Type} [DecidableEq K] (capacity : Int)
    (hcap : 1 ≤ capacity) (calls : List (Call K V)) (k : K) (v : V)
    (habs : (getCmp (runCmp (New capacity) calls) k).1.2 = false)
    (hfull : (Size (runCmp (New capacity) calls) : Int) = capacity) :
    ∃ victim : K,
      (getCmp (runCmp (New capacity) calls) victim).1.2 = true ∧
      (∀ k', (getCmp (runCmp (New capacity) calls) k').1.2 = true → k' ≠ victim →
        lastUseCmp capacity calls victim < lastUseCmp capacity calls k') ∧
      (getCmp (putCmp (runCmp (New capacity) calls) k v).2 victim).1 = (none, false) ∧
      (∀ k', k' ≠ victim → k' ≠ k →
        (getCmp (putCmp (runCmp (New capacity) calls) k v).2 k').1 =
          (getCmp (runCmp (New capacity) calls) k').1) ∧
      (getCmp (putCmp (runCmp (New capacity) calls) k v).2 k).1 = (some v, true) := by
  have hwf := WF_run (V := V) capacity calls
  have hwf' := WF_Put _ k v hwf
  have hc := run_New_c (V := V) capacity calls
  have htinv := TInv_runT (V := V) capacity calls
  rw [TInv, runT_st] at htinv
  obtain ⟨_, _, hpw⟩ := htinv
  have hlen : ((runCmp (New capacity) calls).l.length : Int) = capacity := hfull
  have hne : (runCmp (New capacity) calls).l ≠ [] := by
    intro e
    rw [e] at hlen
    simp at hlen
    omega
  have hkabs : ∀ x ∈ (runCmp (New capacity) calls).l, keyOf x ≠ k := by
    intro x hx e
    have := (Get_exist_iff _ k hwf.1).2 (List.mem_map.2 ⟨x, hx, e⟩)
    rw [habs] at this
    cases this
  have hl : (runCmp (New capacity) calls).l =
      (runCmp (New capacity) calls).l.dropLast ++ [(runCmp (New capacity) calls).l.getLast hne] :=
    (List.dropLast_append_getLast hne).symm
  have hbmem : (runCmp (New capacity) calls).l.getLast hne ∈ (runCmp (New capacity) calls).l :=
    List.getLast_mem hne
  have hU : Uniq ((runCmp (New capacity) calls).l.dropLast ++
      [(runCmp (New capacity) calls).l.getLast hne]) := by
    rw [← hl]
    exact hwf.1.1
  have hpw' : ((runCmp (New capacity) calls).l.dropLast ++
      [(runCmp (New capacity) calls).l.getLast hne]).Pairwise
      (fun a b => (runTCmp capacity calls).used (keyOf b) <
        (runTCmp capacity calls).used (keyOf a)) := by
    rw [← hl]
    exact hpw
  have hsub : List.Sublist (runCmp (New capacity) calls).l.dropLast (runCmp (New capacity) calls).l :=
    List.dropLast_sublist _
  have hl' : (putCmp (runCmp (New capacity) calls) k v).2.l =
      { id := (runCmp (New capacity) calls).alloc, Value := { k := k, v := v } } ::
        (runCmp (New capacity) calls).l.dropLast := by
    rw [Put_l _ k v hwf.1, dropKey_eq_self k _ hkabs]
    have hgt : (((runCmp (New capacity) calls).l.length : Int) + 1) >
        (runCmp (New capacity) calls).c := by
      rw [hc]
      omega
    rw [if_pos hgt, List.dropLast_cons_of_ne_nil hne]
  have hold : ∀ x ∈ (runCmp (New capacity) calls).l,
      keyOf x ≠ keyOf ((runCmp (New capacity) calls).l.getLast hne) →
      x ∈ (runCmp (New capacity) calls).l.dropLast := by
    intro x hx hk
    rw [hl] at hx
    rcases List.mem_append.1 hx with h | h
    · exact h
    · rw [List.mem_singleton.1 h] at hk
      exact absurd rfl hk
  refine ⟨keyOf ((runCmp (New capacity) calls).l.getLast hne), ?_, ?_, ?_, ?_, ?_⟩
  · rw [Get_fst_of_mem _ _ hwf.1 hbmem]
  · intro k' hk' hne'
    obtain ⟨e, he, rfl⟩ := List.mem_map.1 ((Get_exist_iff _ k' hwf.1).1 hk')
    exact (List.pairwise_append.1 hpw').2.2 e (hold e he hne') _ (List.mem_singleton.2 rfl)
  · apply Get_fst_of_not_mem _ _ hwf'.1
    intro x hx
    rw [hl'] at hx
    rcases List.mem_cons.1 hx with h | h
    · rw [h]
      exact fun e => hkabs _ hbmem e.symm
    · exact ((List.pairwise_append.1 hU).2.2 x h _ (List.mem_singleton.2 rfl)).2
  · intro k' hv hk
    by_cases hp : k' ∈ (runCmp (New capacity) calls).l.map keyOf
    · obtain ⟨e, he, rfl⟩ := List.mem_map.1 hp
      have he' : e ∈ (putCmp (runCmp (New capacity) calls) k v).2.l := by
        rw [hl']
        exact List.mem_cons_of_mem _ (hold e he hv)
      rw [Get_fst_of_mem _ e hwf'.1 he', Get_fst_of_mem _ e hwf.1 he]
    · have h1 : ∀ x ∈ (runCmp (New capacity) calls).l, keyOf x ≠ k' := by
        intro x hx e
        exact hp (List.mem_map.2 ⟨x, hx, e⟩)
      have h2 : ∀ x ∈ (putCmp (runCmp (New capacity) calls) k v).2.l, keyOf x ≠ k' := by
        intro x hx
        rw [hl'] at hx
        rcases List.mem_cons.1 hx with h | h
        · rw [h]
          exact fun e => hk e.symm
        · exact h1 x (hsub.subset h)
      rw [Get_fst_of_not_mem _ k' hwf'.1 h2, Get_fst_of_not_mem _ k' hwf.1 h1]
  · have hmem : ({ id := (runCmp (New capacity) calls).alloc, Value := { k := k, v := v } } :
        Element K V) ∈ (putCmp (runCmp (New capacity) calls) k v).2.l := by
      rw [hl']
      exact List.mem_cons_self _ _
    exact Get_fst_of_mem _ _ hwf'.1 hmem

/-! ## The methods on comparable keys -/

theorem goLookup_cmp {K E : Type} [DecidableEq K] (kind : K → KeyKind) (m : List (K × E))
    (k : K) (h : kind k = KeyKind.comparable) : goLookup kind m k = mapLookup m k := by
  unfold goLookup
  rw [if_pos h]

theorem goLookup_not_cmp {K E : Type} [DecidableEq K] (kind : K → KeyKind) (m : List (K × E))
    (k : K) (h : kind k ≠ KeyKind.comparable) : goLookup kind m k = none := by
  unfold goLookup
  rw [if_neg h]

theorem goSet_cmp {K E : Type} [DecidableEq K] (kind : K → KeyKind) (m : List (K × E))
    (k : K) (e : E) (h : kind k = KeyKind.comparable) : goSet kind m k e = mapSet m k e := by
  unfold goSet
  rw [if_pos h]

theorem goDelete_cmp {K E : Type} [DecidableEq K] (kind : K → KeyKind) (m : List (K × E))
    (k : K) (h : kind k = KeyKind.comparable) : goDelete kind m k = mapDelete m k := by
  unfold goDelete
  rw [if_pos h]

theorem mem_listRemove {K V : Type} (l : List (Element K V)) (e x : Element K V)
    (h : x ∈ listRemove l e) : x ∈ l := by
  induction l with
  | nil => simp [listRemove] at h
  | cons y ys ih =>
    unfold listRemove at h
    by_cases hid : y.id = e.id
    · rw [if_pos hid] at h
      exact List.mem_cons_of_mem _ h
    · rw [if_neg hid] at h
      rcases List.mem_cons.1 h with h1 | h1
      · rw [h1]
        exact List.mem_cons_self _ _
      · exact List.mem_cons_of_mem _ (ih h1)

theorem mem_getLast? {K V : Type} (l : List (Element K V)) (b : Element K V)
    (h : l.getLast? = some b) : b ∈ l := by
  have hne : l ≠ [] := by
    intro e
    rw [e] at h
    simp at h
  rw [List.getLast?_eq_getLast _ hne] at h
  rw [← Option.some.inj h]
  exact List.getLast_mem hne

theorem evict_go {K V : Type} [DecidableEq K] (kind : K → KeyKind) (s : LRU K V)
    (h : AllCmp kind s) :
    (if (listLen s.l : Int) > s.c then
      match listBack s.l with
      | some b => { s with l := listRemove s.l b, m := goDelete kind s.m b.Value.k }
      | none => s
    else s) =
    (if (listLen s.l : Int) > s.c then
      match listBack s.l with
      | some b => { s with l := listRemove s.l b, m := mapDelete s.m b.Value.k }
      | none => s
    else s) := by
  by_cases hc : (listLen s.l : Int) > s.c
  · rw [if_pos hc, if_pos hc]
    cases hb : listBack s.l with
    | none => rfl
    | some b =>
      simp only
      rw [goDelete_cmp kind s.m b.Value.k (h b (mem_getLast? s.l b hb))]
  · rw [if_neg hc, if_neg hc]

theorem Put_comparable {K V : Type} [DecidableEq K] (kind : K → KeyKind) (s : LRU K V)
    (k : K) (v : V) (hk : kind k = KeyKind.comparable) (hs : AllCmp kind s) :
    Put kind s k v = some (putCmp s k v) := by
  have hnu : ¬ kind k = KeyKind.unhashable := by
    rw [hk]
    decide
  unfold Put putCmp
  rw [if_neg hnu, goLookup_cmp kind s.m k hk]
  cases hf : mapLookup s.m k with
  | none =>
    simp only
    rw [goSet_cmp kind _ k _ hk]
    have hall : AllCmp kind
        ({ c := s.c, m := mapSet s.m k { id := s.alloc, Value := { k := k, v := v } }
           l := listPushFront s.l { id := s.alloc, Value := { k := k, v := v } }
           alloc := s.alloc + 1 } : LRU K V) := by
      intro x hx
      rcases List.mem_cons.1 hx with h1 | h1
      · rw [h1]
        exact hk
      · exact hs x h1
    exact congrArg (fun t => some (!(none : Option (Element K V)).isSome, t))
      (evict_go kind _ hall)
  | some e =>
    simp only
    rw [goDelete_cmp kind _ k hk, goSet_cmp kind _ k _ hk]
    have hall : AllCmp kind
        ({ c := s.c
           m := mapSet (mapDelete s.m k) k { id := s.alloc, Value := { k := k, v := v } }
           l := listPushFront (listRemove s.l e) { id := s.alloc, Value := { k := k, v := v } }
           alloc := s.alloc + 1 } : LRU K V) := by
      intro x hx
      rcases List.mem_cons.1 hx with h1 | h1
      · rw [h1]
        exact hk
      · exact hs x (mem_listRemove s.l e x h1)
    exact congrArg (fun t => some (!(some e).isSome, t)) (evict_go kind _ hall)

theorem Get_comparable {K V : Type} [DecidableEq K] (kind : K → KeyKind) (s : LRU K V)
    (k : K) (hk : kind k = KeyKind.comparable) : Get kind s k = some (getCmp s k) := by
  have hnu : ¬ kind k = KeyKind.unhashable := by
    rw [hk]
    decide
  unfold Get getCmp
  rw [if_neg hnu, goLookup_cmp kind s.m k hk]
  cases mapLookup s.m k <;> rfl

theorem Get_irreflexive {K V : Type} [DecidableEq K] (kind : K → KeyKind) (s : LRU K V)
    (k : K) (hk : kind k = KeyKind.irreflexive) : Get kind s k = some ((none, false), s) := by
  have hnu : ¬ kind k = KeyKind.unhashable := by
    rw [hk]
    decide
  have hnc : kind k ≠ KeyKind.comparable := by
    rw [hk]
    decide
  unfold Get
  rw [if_neg hnu, goLookup_not_cmp kind s.m k hnc]

theorem Get_unhashable {K V : Type} [DecidableEq K] (kind : K → KeyKind) (s : LRU K V)
    (k : K) (hk : kind k = KeyKind.unhashable) : Get kind s k = none := by
  unfold Get
  rw [if_pos hk]

theorem mem_putCmp_l {K V : Type} [DecidableEq K] (s : LRU K V) (k : K) (v : V)
    (x : Element K V) (hx : x ∈ (putCmp s k v).2.l) : x ∈ s.l ∨ x.Value.k = k := by
  have hev : ∀ (s2 : LRU K V), x ∈ (if (listLen s2.l : Int) > s2.c then
      match listBack s2.l with
      | some b => { s2 with l := listRemove s2.l b, m := mapDelete s2.m b.Value.k }
      | none => s2
    else s2).l → x ∈ s2.l := by
    intro s2 h
    by_cases hc : (listLen s2.l : Int) > s2.c
    · rw [if_pos hc] at h
      cases hb : listBack s2.l with
      | none =>
        rw [hb] at h
        exact h
      | some b =>
        rw [hb] at h
        exact mem_listRemove s2.l b x h
    · rw [if_neg hc] at h
      exact h
  unfold putCmp at hx
  cases hf : mapLookup s.m k with
  | none =>
    rw [hf] at hx
    have := hev _ hx
    rcases List.mem_cons.1 this with h1 | h1
    · right
      rw [h1]
    · left
      exact h1
  | some e =>
    rw [hf] at hx
    have := hev _ hx
    rcases List.mem_cons.1 this with h1 | h1
    · right
      rw [h1]
    · left
      exact mem_listRemove s.l e x h1

theorem mem_getCmp_l {K V : Type} [DecidableEq K] (s : LRU K V) (k : K)
    (x : Element K V) (hx : x ∈ (getCmp s k).2.l) : x ∈ s.l := by
  unfold getCmp at hx
  cases hf : mapLookup s.m k with
  | none =>
    rw [hf] at hx
    exact hx
  | some e =>
    rw [hf] at hx
    simp only [listMoveToFront] at hx
    cases hfind : s.l.find? (fun y => decide (y.id = e.id)) with
    | none =>
      rw [hfind] at hx
      exact hx
    | some y =>
      rw [hfind] at hx
      rcases List.mem_cons.1 hx with h1 | h1
      · rw [h1]
        exact List.mem_of_find?_eq_some hfind
      · exact mem_listRemove s.l e x h1

theorem AllCmp_stepCmp {K V : Type} [DecidableEq K] (kind : K → KeyKind) (s : LRU K V)
    (call : Call K V) (hk : kind (callKey call) = KeyKind.comparable) (hs : AllCmp kind s) :
    AllCmp kind (stepCmp s call) := by
  intro x hx
  cases call with
  | put k v =>
    rcases mem_putCmp_l s k v x hx with h1 | h1
    · exact hs x h1
    · rw [h1]
      exact hk
  | get k => exact hs x (mem_getCmp_l s k x hx)

theorem step_comparable {K V : Type} [DecidableEq K] (kind : K → KeyKind) (s : LRU K V)
    (call : Call K V) (hk : kind (callKey call) = KeyKind.comparable) (hs : AllCmp kind s) :
    step kind s call = some (stepCmp s call) := by
  cases call with
  | put k v =>
    simp only [step, stepCmp]
    rw [Put_comparable kind s k v hk hs]
    rfl
  | get k =>
    simp only [step, stepCmp]
    rw [Get_comparable kind s k hk]
    rfl

theorem run_comparable_of {K V : Type} [DecidableEq K] (kind : K → KeyKind)
    (calls : List (Call K V)) :
    ∀ s : LRU K V, (∀ call ∈ calls, kind (callKey call) = KeyKind.comparable) →
      AllCmp kind s → run kind s calls = some (runCmp s calls) ∧ AllCmp kind (runCmp s calls) := by
  induction calls with
  | nil =>
    intro s _ hs
    exact ⟨rfl, hs⟩
  | cons call calls ih =>
    intro s hk hs
    have h1 := hk call (List.mem_cons_self _ _)
    have h2 := ih (stepCmp s call) (fun c hc => hk c (List.mem_cons_of_mem _ hc))
      (AllCmp_stepCmp kind s call h1 hs)
    unfold run runCmp
    rw [step_comparable kind s call h1 hs, List.foldl_cons]
    exact h2

theorem AllCmp_New {K V : Type} (kind : K → KeyKind) (capacity : Int) :
    AllCmp kind (New capacity : LRU K V) := by
  intro e he
  simp [New] at he

/-- On comparable keys no call panics, and the calls compute what they compute on a map
with lawful key equality. -/
theorem run_comparable {K V : Type} [DecidableEq K] (kind : K → KeyKind) (capacity : Int)
    (calls : List (Call K V))
    (hk : ∀ call ∈ calls, kind (callKey call) = KeyKind.comparable) :
    run kind (New capacity) calls = some (runCmp (New capacity) calls) ∧
      AllCmp kind (runCmp (New capacity : LRU K V) calls) :=
  run_comparable_of kind calls _ hk (AllCmp_New kind capacity)

theorem stepTCmp_st {K V : Type} [DecidableEq K] (x : Timed K V) (call : Call K V) :
    (stepTCmp x call).st = stepCmp x.st call := by
  cases call <;> rfl

theorem stepT_comparable {K V : Type} [DecidableEq K] (kind : K → KeyKind) (x : Timed K V)
    (call : Call K V) (hk : kind (callKey call) = KeyKind.comparable)
    (hs : AllCmp kind x.st) : stepT kind x call = some (stepTCmp x call) := by
  cases call with
  | put k v =>
    simp only [stepT, stepTCmp]
    rw [Put_comparable kind x.st k v hk hs]
    rfl
  | get k =>
    simp only [stepT, stepTCmp]
    rw [Get_comparable kind x.st k hk]
    rfl

theorem runTFrom_comparable {K V : Type} [DecidableEq K] (kind : K → KeyKind)
    (calls : List (Call K V)) :
    ∀ x : Timed K V, (∀ call ∈ calls, kind (callKey call) = KeyKind.comparable) →
      AllCmp kind x.st → runTFrom kind x calls = some (calls.foldl stepTCmp x) := by
  induction calls with
  | nil =>
    intro x _ _
    rfl
  | cons call calls ih =>
    intro x hk hs
    have h1 := hk call (List.mem_cons_self _ _)
    unfold runTFrom
    rw [stepT_comparable kind x call h1 hs, List.foldl_cons]
    apply ih _ (fun c hc => hk c (List.mem_cons_of_mem _ hc))
    rw [stepTCmp_st]
    exact AllCmp_stepCmp kind x.st call h1 hs

theorem lastUse_comparable {K V : Type} [DecidableEq K] (kind : K → KeyKind) (capacity : Int)
    (calls : List (Call K V))
    (hk : ∀ call ∈ calls, kind (callKey call) = KeyKind.comparable) (k : K) :
    lastUse kind capacity calls k = lastUseCmp capacity calls k := by
  unfold lastUse runT lastUseCmp runTCmp
  rw [runTFrom_comparable kind calls _ hk (AllCmp_New kind capacity)]

/-! ## Size of the container, for every kind of key -/

theorem length_listRemove_le {K V : Type} (l : List (Element K V)) (e : Element K V) :
    (listRemove l e).length ≤ l.length ∧ l.length ≤ (listRemove l e).length + 1 := by
  induction l with
  | nil => simp [listRemove]
  | cons y ys ih =>
    unfold listRemove
    by_cases hid : y.id = e.id
    · rw [if_pos hid]
      simp
    · rw [if_neg hid]
      simp only [List.length_cons]
      omega

theorem length_listRemove_of_mem {K V : Type} (l : List (Element K V)) (e : Element K V)
    (h : ∃ x ∈ l, x.id = e.id) : (listRemove l e).length + 1 = l.length := by
  induction l with
  | nil =>
    obtain ⟨x, hx, _⟩ := h
    simp at hx
  | cons y ys ih =>
    unfold listRemove
    by_cases hid : y.id = e.id
    · rw [if_pos hid]
      simp
    · rw [if_neg hid]
      obtain ⟨x, hx, hxe⟩ := h
      have hx' : x ∈ ys := by
        rcases List.mem_cons.1 hx with h1 | h1
        · rw [h1] at hxe
          exact absurd hxe hid
        · exact h1
      simp only [List.length_cons]
      rw [ih ⟨x, hx', hxe⟩]

theorem length_listMoveToFront {K V : Type} (l : List (Element K V)) (e : Element K V) :
    (listMoveToFront l e).length = l.length := by
  unfold listMoveToFront
  cases hf : l.find? (fun x => decide (x.id = e.id)) with
  | none => rfl
  | some x =>
    simp only [List.length_cons]
    apply length_listRemove_of_mem
    refine ⟨x, List.mem_of_find?_eq_some hf, ?_⟩
    have := List.find?_some hf
    simpa using this

theorem evictGo_size {K V : Type} [DecidableEq K] (kind : K → KeyKind) (s : LRU K V)
    (hne : s.l ≠ []) :
    (if (listLen s.l : Int) > s.c then
        match listBack s.l with
        | some b => { s with l := listRemove s.l b, m := goDelete kind s.m b.Value.k }
        | none => s
      else s).c = s.c ∧
    (if (listLen s.l : Int) > s.c then
        match listBack s.l with
        | some b => { s with l := listRemove s.l b, m := goDelete kind s.m b.Value.k }
        | none => s
      else s).l.length ≤ s.l.length ∧
    s.l.length ≤ (if (listLen s.l : Int) > s.c then
        match listBack s.l with
        | some b => { s with l := listRemove s.l b, m := goDelete kind s.m b.Value.k }
        | none => s
      else s).l.length + 1 ∧
    ((s.l.length : Int) ≤ s.c + 1 →
      ((if (listLen s.l : Int) > s.c then
        match listBack s.l with
        | some b => { s with l := listRemove s.l b, m := goDelete kind s.m b.Value.k }
        | none => s
      else s).l.length : Int) ≤ s.c) := by
  by_cases hc : (listLen s.l : Int) > s.c
  · rw [if_pos hc]
    cases hb : listBack s.l with
    | none =>
      unfold listBack at hb
      rw [List.getLast?_eq_none_iff] at hb
      exact absurd hb hne
    | some b =>
      simp only
      have hlen := length_listRemove_of_mem s.l b ⟨b, mem_getLast? s.l b hb, rfl⟩
      refine ⟨trivial, by omega, by omega, ?_⟩
      intro h
      omega
  · rw [if_neg hc]
    unfold listLen at hc
    refine ⟨rfl, Nat.le_refl _, by omega, ?_⟩
    intro _
    omega

theorem Put_total {K V : Type} [DecidableEq K] (kind : K → KeyKind) (s : LRU K V) (k : K)
    (v : V) (hk : kind k ≠ KeyKind.unhashable) : ∃ r, Put kind s k v = some r := by
  unfold Put
  rw [if_neg hk]
  exact ⟨_, rfl⟩

theorem Get_total {K V : Type} [DecidableEq K] (kind : K → KeyKind) (s : LRU K V) (k : K)
    (hk : kind k ≠ KeyKind.unhashable) : ∃ r, Get kind s k = some r := by
  unfold Get
  rw [if_neg hk]
  cases goLookup kind s.m k with
  | none => exact ⟨_, rfl⟩
  | some e => exact ⟨_, rfl⟩

theorem Put_size {K V : Type} [DecidableEq K] (kind : K → KeyKind) (s : LRU K V) (k : K)
    (v : V) (r : Bool × LRU K V) (h : Put kind s k v = some r) :
    r.2.c = s.c ∧ Size r.2 ≤ Size s + 1 ∧ Size s ≤ Size r.2 + 1 ∧
      ((Size s : Int) ≤ s.c → (Size r.2 : Int) ≤ s.c) := by
  unfold Put at h
  by_cases hk : kind k = KeyKind.unhashable
  · rw [if_pos hk] at h
    cases h
  · rw [if_neg hk] at h
    have h' := Option.some.inj h
    rw [← h']
    unfold Size listLen
    cases hf : goLookup kind s.m k with
    | none =>
      simp only
      obtain ⟨e1, e2, e3, e4⟩ := evictGo_size kind
        ({ c := s.c, m := goSet kind s.m k { id := s.alloc, Value := { k := k, v := v } }
           l := listPushFront s.l { id := s.alloc, Value := { k := k, v := v } }
           alloc := s.alloc + 1 } : LRU K V) (by simp [listPushFront])
      refine ⟨e1, Nat.le_trans e2 ?_, Nat.le_trans ?_ e3, fun hb => e4 ?_⟩
      · show (listPushFront s.l _).length ≤ s.l.length + 1
        simp [listPushFront]
      · show s.l.length ≤ (listPushFront s.l _).length
        simp [listPushFront]
      · show ((listPushFront s.l _).length : Int) ≤ s.c + 1
        simp only [listPushFront, List.length_cons]
        push_cast
        omega
    | some e =>
      simp only
      have hrm := length_listRemove_le s.l e
      obtain ⟨e1, e2, e3, e4⟩ := evictGo_size kind
        ({ c := s.c
           m := goSet kind (goDelete kind s.m k) k
             { id := s.alloc, Value := { k := k, v := v } }
           l := listPushFront (listRemove s.l e) { id := s.alloc, Value := { k := k, v := v } }
           alloc := s.alloc + 1 } : LRU K V) (by simp [listPushFront])
      refine ⟨e1, Nat.le_trans e2 ?_, Nat.le_trans ?_ e3, fun hb => e4 ?_⟩
      · show (listPushFront (listRemove s.l e) _).length ≤ s.l.length + 1
        simp only [listPushFront, List.length_cons]
        omega
      · show s.l.length ≤ (listPushFront (listRemove s.l e) _).length
        simp only [listPushFront, List.length_cons]
        omega
      · show ((listPushFront (listRemove s.l e) _).length : Int) ≤ s.c + 1
        simp only [listPushFront, List.length_cons]
        push_cast
        omega

theorem Get_size {K V : Type} [DecidableEq K] (kind : K → KeyKind) (s : LRU K V) (k : K)
    (r : (Option V × Bool) × LRU K V) (h : Get kind s k = some r) :
    r.2.c = s.c ∧ Size r.2 = Size s := by
  unfold Get at h
  by_cases hk : kind k = KeyKind.unhashable
  · rw [if_pos hk] at h
    cases h
  · rw [if_neg hk] at h
    cases hf : goLookup kind s.m k with
    | none =>
      rw [hf] at h
      rw [← Option.some.inj h]
      exact ⟨rfl, rfl⟩
    | some e =>
      rw [hf] at h
      rw [← Option.some.inj h]
      exact ⟨rfl, length_listMoveToFront s.l e⟩

theorem step_size {K V : Type} [DecidableEq K] (kind : K → KeyKind) (s s1 : LRU K V)
    (call : Call K V) (h : step kind s call = some s1) :
    s1.c = s.c ∧ ((Size s : Int) ≤ s.c → (Size s1 : Int) ≤ s.c) := by
  cases call with
  | put k v =>
    simp only [step] at h
    cases hp : Put kind s k v with
    | none =>
      rw [hp] at h
      cases h
    | some r =>
      rw [hp] at h
      simp only [Option.map_some', Option.some.injEq] at h
      obtain ⟨e1, _, _, e4⟩ := Put_size kind s k v r hp
      rw [← h]
      exact ⟨e1, e4⟩
  | get k =>
    simp only [step] at h
    cases hp : Get kind s k with
    | none =>
      rw [hp] at h
      cases h
    | some r =>
      rw [hp] at h
      simp only [Option.map_some', Option.some.injEq] at h
      obtain ⟨e1, e2⟩ := Get_size kind s k r hp
      rw [← h]
      refine ⟨e1, ?_⟩
      intro hb
      rw [e2]
      exact hb

theorem run_size {K V : Type} [DecidableEq K] (kind : K → KeyKind) (calls : List (Call K V)) :
    ∀ s s1 : LRU K V, run kind s calls = some s1 →
      s1.c = s.c ∧ ((Size s : Int) ≤ s.c → (Size s1 : Int) ≤ s.c) := by
  induction calls with
  | nil =>
    intro s s1 h
    simp only [run, Option.some.injEq] at h
    rw [← h]
    exact ⟨rfl, fun hb => hb⟩
  | cons call calls ih =>
    intro s s1 h
    unfold run at h
    cases hs : step kind s call with
    | none =>
      rw [hs] at h
      cases h
    | some s2 =>
      rw [hs] at h
      obtain ⟨a1, a2⟩ := step_size kind s s2 call hs
      obtain ⟨b1, b2⟩ := ih s2 s1 h
      refine ⟨b1.trans a1, ?_⟩
      intro hb
      have := b2 (by rw [a1]; exact a2 hb)
      rw [a1] at this
      exact this

theorem run_total {K V : Type} [DecidableEq K] (kind : K → KeyKind) (calls : List (Call K V)) :
    ∀ s : LRU K V, (∀ call ∈ calls, kind (callKey call) ≠ KeyKind.unhashable) →
      ∃ s1, run kind s calls = some s1 := by
  induction calls with
  | nil =>
    intro s _
    exact ⟨s, rfl⟩
  | cons call calls ih =>
    intro s hk
    have h1 := hk call (List.mem_cons_self _ _)
    have hstep : ∃ s2, step kind s call = some s2 := by
      cases call with
      | put k v =>
        obtain ⟨r, hr⟩ := Put_total kind s k v h1
        exact ⟨r.2, by simp only [step]; rw [hr]; rfl⟩
      | get k =>
        obtain ⟨r, hr⟩ := Get_total kind s k h1
        exact ⟨r.2, by simp only [step]; rw [hr]; rfl⟩
    obtain ⟨s2, hs2⟩ := hstep
    obtain ⟨s1, hs1⟩ := ih s2 (fun c hc => hk c (List.mem_cons_of_mem _ hc))
    refine ⟨s1, ?_⟩
    unfold run
    rw [hs2]
    exact hs1

/-! ## Claims about `Put`, `Get` and `Size` -/

/-- C13 (failing input): in a container of capacity 0 the element that `Put` inserts is
evicted by the same call: after `New(0); Put("chef", 1)` the container is empty and
`Get("chef")` returns `(nil, false)`.  A NaN key is not found either, at any capacity: after
`New(2); Put(NaN, 1)`, `Get(NaN)` returns `(nil, false)`. -/
theorem Put_then_Get_capacity_zero :
    (Put sampleKind (New 0 : LRU SampleKey Nat) (SampleKey.str "chef") 1).map
        (fun r => (r.1, Size r.2)) = some (true, 0) ∧
      ((Put sampleKind (New 0 : LRU SampleKey Nat) (SampleKey.str "chef") 1).bind
        (fun r => Get sampleKind r.2 (SampleKey.str "chef"))).map Prod.fst =
          some (none, false) ∧
      ((Put sampleKind (New 2 : LRU SampleKey Nat) SampleKey.nan 1).bind
        (fun r => Get sampleKind r.2 SampleKey.nan)).map Prod.fst = some (none, false) := by
  decide

/-- Where C13 holds: with a capacity of at least 1 and comparable keys, no call panics and
`Get k` after `Put k v` returns `(v, true)`. -/
theorem Put_then_Get_comparable {K V : Type} [DecidableEq K] (kind : K → KeyKind)
    (capacity : Int) (hcap : 1 ≤ capacity) (calls : List (Call K V)) (k : K) (v : V)
    (hkeys : ∀ call ∈ calls, kind (callKey call) = KeyKind.comparable)
    (hk : kind k = KeyKind.comparable) :
    ∃ s r, run kind (New capacity) calls = some s ∧ Put kind s k v = some r ∧
      (Get kind r.2 k).map Prod.fst = some (some v, true) := by
  obtain ⟨hrun, hall⟩ := run_comparable kind capacity calls hkeys
  refine ⟨_, _, hrun, Put_comparable kind _ k v hk hall, ?_⟩
  rw [Get_comparable kind _ k hk, Option.map_some', putCmp_then_getCmp capacity hcap calls k v]

/-- C15 (failing input): after `New(2); Put(NaN, 1)` the container holds an element and a
map entry with the key NaN, yet `Put(NaN, 2)` returns `true`; afterwards the list and the
map hold two elements with that key. -/
theorem Put_returns_true_for_present_NaN :
    (Put sampleKind (New 2 : LRU SampleKey Nat) SampleKey.nan 1).map
        (fun r => (r.1, r.2.l.map keyOf, mapKeys r.2.m)) =
          some (true, [SampleKey.nan], [SampleKey.nan]) ∧
      ((Put sampleKind (New 2 : LRU SampleKey Nat) SampleKey.nan 1).bind
        (fun r => Put sampleKind r.2 SampleKey.nan 2)).map
        (fun r => (r.1, r.2.l.map keyOf, mapKeys r.2.m)) =
          some (true, [SampleKey.nan, SampleKey.nan], [SampleKey.nan, SampleKey.nan]) := by
  decide

/-- Where C15 holds: in every state and for every hashable key, `Put k v` returns `false`
exactly when `Get k` succeeds; for a comparable key that is exactly when the map has an
entry for `k`. -/
theorem Put_flag_iff_Get {K V : Type} [DecidableEq K] (kind : K → KeyKind) (s : LRU K V)
    (k : K) (v : V) (hk : kind k ≠ KeyKind.unhashable) :
    ∃ r g, Put kind s k v = some r ∧ Get kind s k = some g ∧
      (r.1 = false ↔ g.1.2 = true) ∧
      (kind k = KeyKind.comparable → (r.1 = false ↔ k ∈ mapKeys s.m)) := by
  unfold Put Get
  rw [if_neg hk, if_neg hk]
  cases hf : goLookup kind s.m k with
  | none =>
    refine ⟨_, _, rfl, rfl, by simp, ?_⟩
    intro hc
    rw [goLookup_cmp kind s.m k hc] at hf
    rw [mem_mapKeys_iff, hf]
    simp
  | some e =>
    refine ⟨_, _, rfl, rfl, by simp, ?_⟩
    intro hc
    rw [goLookup_cmp kind s.m k hc] at hf
    rw [mem_mapKeys_iff, hf]
    simp

theorem kind_of_getCmp {K V : Type} [DecidableEq K] (kind : K → KeyKind) (s : LRU K V)
    (k : K) (hcore : Core s) (hall : AllCmp kind s) (hg : (getCmp s k).1.2 = true) :
    kind k = KeyKind.comparable := by
  obtain ⟨e, he, hek⟩ := List.mem_map.1 ((Get_exist_iff s k hcore).1 hg)
  rw [← hek]
  exact hall e he

theorem Get_success_comparable {K V : Type} [DecidableEq K] (kind : K → KeyKind)
    (s : LRU K V) (k : K) (hg : (Get kind s k).map (fun g => g.1.2) = some true) :
    kind k = KeyKind.comparable := by
  cases hk : kind k with
  | comparable => rfl
  | irreflexive =>
    rw [Get_irreflexive kind s k hk] at hg
    simp at hg
  | unhashable =>
    rw [Get_unhashable kind s k hk] at hg
    simp at hg

/-- C14 (counterexample): in the full container reached by `New(2); Put("a", 1);
Put(NaN, 2)`, `Put("b", 3)` of the absent key "b" evicts "a" and leaves the element of the
key NaN with its value 2 in the list, yet `Get(NaN)` returns `(nil, false)`: that other key
is not retrievable. -/
theorem Put_evicts_counterexample :
    (run sampleKind (New 2 : LRU SampleKey Nat)
        [Call.put (SampleKey.str "a") 1, Call.put SampleKey.nan 2]).map Size = some 2 ∧
      ((run sampleKind (New 2 : LRU SampleKey Nat)
        [Call.put (SampleKey.str "a") 1, Call.put SampleKey.nan 2]).bind
        (fun s => Get sampleKind s (SampleKey.str "b"))).map Prod.fst = some (none, false) ∧
      ((run sampleKind (New 2 : LRU SampleKey Nat)
        [Call.put (SampleKey.str "a") 1, Call.put SampleKey.nan 2]).bind
        (fun s => Put sampleKind s (SampleKey.str "b") 3)).map
        (fun r => r.2.l.map (fun e => (e.Value.k, e.Value.v))) =
          some [(SampleKey.str "b", 3), (SampleKey.nan, 2)] ∧
      (((run sampleKind (New 2 : LRU SampleKey Nat)
        [Call.put (SampleKey.str "a") 1, Call.put SampleKey.nan 2]).bind
        (fun s => Put sampleKind s (SampleKey.str "b") 3)).bind
        (fun r => Get sampleKind r.2 SampleKey.nan)).map Prod.fst = some (none, false) := by
  decide

/-- C14 (amended): for a container built by `New capacity` with `capacity ≥ 1`, after every
sequence of `Put` and `Get` calls whose keys are comparable (hashable and equal to
themselves), no call panics, and a `Put` of a comparable absent key into the full container
evicts exactly one key `victim`: it was present, its latest use (`Put`, or successful
`Get`) is older than that of every other present key, and `Get victim` fails afterwards;
every other key gets from `Get` what it got before, and the new key gets its value. -/
theorem Put_evicts_least_recent {K V : Type} [DecidableEq K] (kind : K → KeyKind)
    (capacity : Int) (hcap : 1 ≤ capacity) (calls : List (Call K V)) (k : K) (v : V)
    (hkeys : ∀ call ∈ calls, kind (callKey call) = KeyKind.comparable)
    (hk : kind k = KeyKind.comparable) :
    ∃ s, run kind (New capacity) calls = some s ∧
      ((Get kind s k).map (fun g => g.1.2) = some false → (Size s : Int) = capacity →
        ∃ victim r, Put kind s k v = some r ∧
          (Get kind s victim).map (fun g => g.1.2) = some true ∧
          (∀ k', (Get kind s k').map (fun g => g.1.2) = some true → k' ≠ victim →
            lastUse kind capacity calls victim < lastUse kind capacity calls k') ∧
          (Get kind r.2 victim).map Prod.fst = some (none, false) ∧
          (∀ k', k' ≠ victim → k' ≠ k →
            (Get kind r.2 k').map Prod.fst = (Get kind s k').map Prod.fst) ∧
          (Get kind r.2 k).map Prod.fst = some (some v, true)) := by
  obtain ⟨hrun, hall⟩ := run_comparable kind capacity calls hkeys
  have hwf := WF_run (V := V) capacity calls
  refine ⟨_, hrun, ?_⟩
  intro habs hfull
  rw [Get_comparable kind _ k hk] at habs
  simp only [Option.map_some', Option.some.injEq] at habs
  obtain ⟨victim, h1, h2, h3, h4, h5⟩ :=
    putCmp_evicts_least_recent capacity hcap calls k v habs hfull
  have hvk : kind victim = KeyKind.comparable := kind_of_getCmp kind _ victim hwf.1 hall h1
  refine ⟨victim, putCmp (runCmp (New capacity) calls) k v,
    Put_comparable kind _ k v hk hall, ?_, ?_, ?_, ?_, ?_⟩
  · rw [Get_comparable kind _ victim hvk, Option.map_some', h1]
  · intro k' hk' hne
    have hkc := Get_success_comparable kind _ k' hk'
    rw [Get_comparable kind _ k' hkc] at hk'
    simp only [Option.map_some', Option.some.injEq] at hk'
    rw [lastUse_comparable kind capacity calls hkeys, lastUse_comparable kind capacity calls hkeys]
    exact h2 k' hk' hne
  · rw [Get_comparable kind _ victim hvk, Option.map_some', h3]
  · intro k' hv hkk
    cases hkc : kind k' with
    | comparable =>
      rw [Get_comparable kind _ k' hkc, Get_comparable kind _ k' hkc, Option.map_some',
        Option.map_some', h4 k' hv hkk]
    | irreflexive =>
      rw [Get_irreflexive kind _ k' hkc, Get_irreflexive kind _ k' hkc]
      rfl
    | unhashable =>
      rw [Get_unhashable kind _ k' hkc, Get_unhashable kind _ k' hkc]
  · rw [Get_comparable kind _ k hk, Option.map_some', h5]

/-- Witness for C14 (amended): the first half of `TestLRU`; "garfield" arrives in the full
container "yoko", "chef", "jerry" (latest use first). -/
theorem Put_evicts_least_recent_witness :
    ∃ s, run sampleKind (New 3 : LRU SampleKey Nat)
        [Call.put (SampleKey.str "chef") 1, Call.put (SampleKey.str "yoko") 2,
          Call.put (SampleKey.str "tom") 3, Call.put (SampleKey.str "jerry") 4,
          Call.get (SampleKey.str "chef"), Call.get (SampleKey.str "yoko")] = some s ∧
      ∃ victim r, Put sampleKind s (SampleKey.str "garfield") 5 = some r ∧
        (Get sampleKind s victim).map (fun g => g.1.2) = some true ∧
        (Get sampleKind r.2 victim).map Prod.fst = some (none, false) ∧
        (Get sampleKind r.2 (SampleKey.str "garfield")).map Prod.fst = some (some 5, true) := by
  obtain ⟨s, hs, h⟩ := Put_evicts_least_recent sampleKind 3 (by decide)
    [Call.put (SampleKey.str "chef") 1, Call.put (SampleKey.str "yoko") 2,
      Call.put (SampleKey.str "tom") 3, Call.put (SampleKey.str "jerry") 4,
      Call.get (SampleKey.str "chef"), Call.get (SampleKey.str "yoko")]
    (SampleKey.str "garfield") 5 (by decide) (by decide)
  have hs' : s = (run sampleKind (New 3 : LRU SampleKey Nat)
      [Call.put (SampleKey.str "chef") 1, Call.put (SampleKey.str "yoko") 2,
        Call.put (SampleKey.str "tom") 3, Call.put (SampleKey.str "jerry") 4,
        Call.get (SampleKey.str "chef"), Call.get (SampleKey.str "yoko")]).getD (New 3) := by
    rw [hs]
    rfl
  obtain ⟨victim, r, h1, h2, _, h4, _, h6⟩ := h (by rw [hs']; decide) (by rw [hs']; decide)
  exact ⟨s, hs, victim, r, h1, h2, h4, h6⟩

/-- C20 (counterexample): after `New(2); Put(NaN, 1)` the container has `Size` 1, yet
`Get` succeeds for no key at all: the count of retrievable keys is 0. -/
theorem Size_counts_counterexample :
    (Put sampleKind (New 2 : LRU SampleKey Nat) SampleKey.nan 1).map (fun r => Size r.2) =
        some 1 ∧
      ∀ k : SampleKey,
        ((Put sampleKind (New 2 : LRU SampleKey Nat) SampleKey.nan 1).bind
          (fun r => Get sampleKind r.2 k)).map (fun g => g.1.2) ≠ some true := by
  refine ⟨by decide, ?_⟩
  intro k hk
  have hp : Put sampleKind (New 2 : LRU SampleKey Nat) SampleKey.nan 1 =
      some (true,
        { c := 2
          m := [(SampleKey.nan, { id := 0, Value := { k := SampleKey.nan, v := 1 } })]
          l := [{ id := 0, Value := { k := SampleKey.nan, v := 1 } }]
          alloc := 1 }) := by
    decide
  rw [hp, Option.some_bind] at hk
  have hc := Get_success_comparable sampleKind _ k hk
  rw [Get_comparable sampleKind _ k hc] at hk
  cases k with
  | str s =>
    simp [getCmp, mapLookup] at hk
  | nan => simp [sampleKind] at hc
  | slice => simp [sampleKind] at hc

/-- C20 (amended): for a container built by `New capacity` with `capacity ≥ 0`, after every
sequence of `Put` and `Get` calls with hashable keys: no call panics, `Size` does not
exceed the capacity, `Get` does not change `Size`, and `Put` changes `Size` by at most one;
when every key given to the calls is comparable (equal to itself), `Size` is also the
number of distinct keys for which `Get` succeeds. -/
theorem Size_invariant {K V : Type} [DecidableEq K] (kind : K → KeyKind) (capacity : Int)
    (hcap : 0 ≤ capacity) (calls : List (Call K V))
    (hhash : ∀ call ∈ calls, kind (callKey call) ≠ KeyKind.unhashable) :
    ∃ s, run kind (New capacity) calls = some s ∧
      (Size s : Int) ≤ capacity ∧
      (∀ k, kind k ≠ KeyKind.unhashable → ∃ g, Get kind s k = some g ∧ Size g.2 = Size s) ∧
      (∀ k v, kind k ≠ KeyKind.unhashable →
        ∃ r, Put kind s k v = some r ∧ Size r.2 ≤ Size s + 1 ∧ Size s ≤ Size r.2 + 1) ∧
      ((∀ call ∈ calls, kind (callKey call) = KeyKind.comparable) →
        ∃ keys : List K, keys.Nodup ∧
          (∀ k, k ∈ keys ↔ (Get kind s k).map (fun g => g.1.2) = some true) ∧
          Size s = keys.length) := by
  obtain ⟨s, hs⟩ := run_total kind calls (New capacity) hhash
  obtain ⟨hc, hb⟩ := run_size kind calls (New capacity) s hs
  refine ⟨s, hs, ?_, ?_, ?_, ?_⟩
  · have := hb (by simpa [New, Size, listLen] using hcap)
    simpa [New] using this
  · intro k hk
    obtain ⟨g, hg⟩ := Get_total kind s k hk
    exact ⟨g, hg, (Get_size kind s k g hg).2⟩
  · intro k v hk
    obtain ⟨r, hr⟩ := Put_total kind s k v hk
    obtain ⟨_, e2, e3, _⟩ := Put_size kind s k v r hr
    exact ⟨r, hr, e2, e3⟩
  · intro hkeys
    obtain ⟨hrun, hall⟩ := run_comparable kind capacity calls hkeys
    have hs' : s = runCmp (New capacity) calls := by
      rw [hrun] at hs
      exact (Option.some.inj hs).symm
    have hwf := WF_run (V := V) capacity calls
    rw [hs']
    refine ⟨(runCmp (New capacity) calls).l.map keyOf, nodup_keys _ hwf.1.1, ?_, ?_⟩
    · intro k
      constructor
      · intro hmem
        obtain ⟨e, he, hek⟩ := List.mem_map.1 hmem
        have hkc : kind k = KeyKind.comparable := by
          rw [← hek]
          exact hall e he
        rw [Get_comparable kind _ k hkc, Option.map_some',
          (Get_exist_iff _ k hwf.1).2 hmem]
      · intro hg
        have hkc := Get_success_comparable kind _ k hg
        rw [Get_comparable kind _ k hkc] at hg
        simp only [Option.map_some', Option.some.injEq] at hg
        exact (Get_exist_iff _ k hwf.1).1 hg
    · simp [Size, listLen]

/-- Witness for C20 (amended): a history with a NaN key on a container of capacity 2. -/
theorem Size_invariant_witness :
    ∃ s, run sampleKind (New 2 : LRU SampleKey Nat)
        [Call.put (SampleKey.str "chef") 60, Call.get (SampleKey.str "chef"),
          Call.put SampleKey.nan 100, Call.put (SampleKey.str "coco") 33,
          Call.get SampleKey.nan] = some s ∧ (Size s : Int) ≤ 2 := by
  obtain ⟨s, hs, h, _⟩ := Size_invariant sampleKind 2 (by decide)
    [Call.put (SampleKey.str "chef") 60, Call.get (SampleKey.str "chef"),
      Call.put SampleKey.nan 100, Call.put (SampleKey.str "coco") 33,
      Call.get SampleKey.nan] (by decide)
  exact ⟨s, hs, h⟩

end Lru

/-! # Properties of the circular queue -/

namespace Circularqueue

/-! ## Index arithmetic on the ring -/

theorem mod_cases (a n : Nat) (h : a < 2 * n) :
    (a < n ∧ a % n = a) ∨ (n ≤ a ∧ a % n = a - n) := by
  by_cases ha : a < n
  · exact Or.inl ⟨ha, Nat.mod_eq_of_lt ha⟩
  · right
    refine ⟨by omega, ?_⟩
    rw [Nat.mod_eq_sub_mod (by omega)]
    exact Nat.mod_eq_of_lt (by omega)

theorem size_lt (f l n : Nat) (hf : f < n) : (l + n - f) % n < n :=
  Nat.mod_lt _ (by omega)

theorem index_last (f l n : Nat) (hf : f < n) (hl : l < n) :
    (f + (l + n - f) % n) % n = l := by
  have h1 := mod_cases (l + n - f) n (by omega)
  have h2 := mod_cases (f + (l + n - f) % n) n (by omega)
  omega

theorem index_ne_last (f l n i : Nat) (hf : f < n) (hl : l < n) (hi : i < (l + n - f) % n) :
    (f + i) % n ≠ l := by
  have h1 := mod_cases (l + n - f) n (by omega)
  have h2 := mod_cases (f + i) n (by omega)
  omega

theorem size_push (f l n : Nat) (hf : f < n) (hl : l < n) (hfull : (l + 1) % n ≠ f) :
    ((l + 1) % n + n - f) % n = (l + n - f) % n + 1 := by
  have h1 := mod_cases (l + n - f) n (by omega)
  have h2 := mod_cases (l + 1) n (by omega)
  have h3 := mod_cases ((l + 1) % n + n - f) n (by omega)
  omega

theorem full_iff (f l n : Nat) (hf : f < n) (hl : l < n) :
    (l + 1) % n = f ↔ (l + n - f) % n = n - 1 := by
  have h1 := mod_cases (l + n - f) n (by omega)
  have h2 := mod_cases (l + 1) n (by omega)
  omega

theorem empty_iff (f l n : Nat) (hf : f < n) (hl : l < n) :
    f = l ↔ (l + n - f) % n = 0 := by
  have h1 := mod_cases (l + n - f) n (by omega)
  omega

theorem size_pop (f l n : Nat) (hf : f < n) (hl : l < n) (hne : f ≠ l) :
    (l + n - (f + 1) % n) % n + 1 = (l + n - f) % n := by
  have h1 := mod_cases (l + n - f) n (by omega)
  have h2 := mod_cases (f + 1) n (by omega)
  have h3 := mod_cases (l + n - (f + 1) % n) n (by omega)
  omega

theorem index_pop (f n i : Nat) (hf : f < n) (hi : i + 1 < n) :
    ((f + 1) % n + i) % n = (f + (i + 1)) % n := by
  have h1 := mod_cases (f + 1) n (by omega)
  have h2 := mod_cases ((f + 1) % n + i) n (by omega)
  have h3 := mod_cases (f + (i + 1)) n (by omega)
  omega

theorem index_back (f l n : Nat) (hf : f < n) (hl : l < n) (hne : f ≠ l) :
    (l + n - 1) % n = (f + ((l + n - f) % n - 1)) % n := by
  have h1 := mod_cases (l + n - f) n (by omega)
  have h2 := mod_cases (l + n - 1) n (by omega)
  have h3 := mod_cases (f + ((l + n - f) % n - 1)) n (by omega)
  omega

theorem getD_set_eq {α : Type} (l : List α) (i : Nat) (a d : α) (h : i < l.length) :
    (l.set i a).getD i d = a := by
  simp [List.getD_eq_getElem?_getD, h]

theorem getD_set_ne {α : Type} (l : List α) (i j : Nat) (a d : α) (h : i ≠ j) :
    (l.set i a).getD j d = l.getD j d := by
  simp [List.getD_eq_getElem?_getD, List.getElem?_set_ne h]

/-! ## Each operation against the list model -/

theorem Rel_New {V : Type} (cap : Nat) : Rel cap (New cap : CircularQueue V) [] := by
  refine ⟨rfl, ?_, ?_, ?_, ?_, ?_⟩
  · simp [New]
  · simp [New]
  · simp [New]
  · simp [New, Size]
  · intro i hi
    simp at hi

theorem Rel_length_le {V : Type} (cap : Nat) (c : CircularQueue V) (xs : List V)
    (h : Rel cap c xs) : xs.length ≤ cap := by
  obtain ⟨hcap, _, hf, _, hsz, _⟩ := h
  have := size_lt c.first c.last c.capacity (by omega)
  unfold Size at hsz
  omega

theorem Full_iff {V : Type} (cap : Nat) (c : CircularQueue V) (xs : List V)
    (h : Rel cap c xs) : Full c = true ↔ xs.length = cap := by
  obtain ⟨hcap, _, hf, hl, hsz, _⟩ := h
  unfold Full
  unfold Size at hsz
  rw [decide_eq_true_iff, full_iff c.first c.last c.capacity (by omega) (by omega), hsz, hcap]
  omega

theorem Empty_iff {V : Type} (cap : Nat) (c : CircularQueue V) (xs : List V)
    (h : Rel cap c xs) : Empty c = true ↔ xs.length = 0 := by
  obtain ⟨hcap, _, hf, hl, hsz, _⟩ := h
  unfold Empty
  unfold Size at hsz
  rw [decide_eq_true_iff, empty_iff c.first c.last c.capacity (by omega) (by omega), hsz]

theorem PushBack_spec {V : Type} (cap : Nat) (c : CircularQueue V) (xs : List V) (v : V)
    (h : Rel cap c xs) :
    (PushBack c v).1 = (specPushBack cap xs v).1 ∧
      Rel cap (PushBack c v).2 (specPushBack cap xs v).2 := by
  have hle := Rel_length_le cap c xs h
  have hfull := Full_iff cap c xs h
  obtain ⟨hcap, hcore, hf, hl, hsz, hpt⟩ := h
  unfold PushBack specPushBack
  by_cases hF : Full c = true
  · have hlen : ¬ xs.length < cap := by
      have := hfull.1 hF
      omega
    rw [if_pos hF, if_neg hlen]
    exact ⟨rfl, hcap, hcore, hf, hl, hsz, hpt⟩
  · have hlen : xs.length < cap := by
      have : xs.length ≠ cap := fun e => hF (hfull.2 e)
      omega
    rw [if_neg hF, if_pos hlen]
    have hnf : (c.last + 1) % c.capacity ≠ c.first := by
      intro e
      apply hF
      unfold Full
      exact decide_eq_true e
    have hsz' : ((c.last + 1) % c.capacity + c.capacity - c.first) % c.capacity =
        xs.length + 1 := by
      rw [size_push c.first c.last c.capacity (by omega) (by omega) hnf]
      unfold Size at hsz
      rw [hsz]
    refine ⟨rfl, hcap, ?_, hf, ?_, ?_, ?_⟩
    · simp only [List.length_set]
      exact hcore
    · have := Nat.mod_lt (c.last + 1) (show 0 < c.capacity by omega)
      show (c.last + 1) % c.capacity < cap + 1
      omega
    · show ((c.last + 1) % c.capacity + c.capacity - c.first) % c.capacity =
        (xs ++ [v]).length
      rw [hsz']
      simp
    · intro i hi
      show (c.core.set c.last (some v)).getD ((c.first + i) % c.capacity) none =
        (xs ++ [v])[i]?
      simp only [List.length_append, List.length_singleton] at hi
      by_cases hix : i < xs.length
      · have hne : c.last ≠ (c.first + i) % c.capacity := by
          have := index_ne_last c.first c.last c.capacity i (by omega) (by omega)
            (by unfold Size at hsz; omega)
          exact fun e => this e.symm
        rw [getD_set_ne _ _ _ _ _ hne, hpt i hix, List.getElem?_append_left hix]
      · have hieq : i = xs.length := by omega
        subst hieq
        have hidx : (c.first + xs.length) % c.capacity = c.last := by
          have := index_last c.first c.last c.capacity (by omega) (by omega)
          unfold Size at hsz
          rw [hsz] at this
          exact this
        rw [hidx, getD_set_eq _ _ _ _ (by omega)]
        simp

theorem PopFront_spec {V : Type} (cap : Nat) (c : CircularQueue V) (xs : List V)
    (h : Rel cap c xs) :
    (PopFront c).1 = (specPopFront xs).1 ∧ Rel cap (PopFront c).2 (specPopFront xs).2 := by
  have hempty := Empty_iff cap c xs h
  obtain ⟨hcap, hcore, hf, hl, hsz, hpt⟩ := h
  unfold PopFront
  cases xs with
  | nil =>
    have hE : Empty c = true := hempty.2 rfl
    rw [if_pos hE]
    exact ⟨rfl, hcap, hcore, hf, hl, hsz, hpt⟩
  | cons x r =>
    have hE : ¬ Empty c = true := by
      intro e
      have := hempty.1 e
      simp at this
    rw [if_neg hE]
    have hne : c.first ≠ c.last := by
      intro e
      apply hE
      unfold Empty
      exact decide_eq_true e
    have h0 := hpt 0 (by simp)
    rw [Nat.add_zero, Nat.mod_eq_of_lt (show c.first < c.capacity by omega)] at h0
    simp only [List.length_cons] at hsz
    unfold Size at hsz
    refine ⟨?_, hcap, hcore, ?_, hl, ?_, ?_⟩
    · show (c.core.getD c.first none, (none : Option Error)) = (some x, none)
      rw [h0]
      simp
    · have := Nat.mod_lt (c.first + 1) (show 0 < c.capacity by omega)
      show (c.first + 1) % c.capacity < cap + 1
      omega
    · show (c.last + c.capacity - (c.first + 1) % c.capacity) % c.capacity = r.length
      have := size_pop c.first c.last c.capacity (by omega) (by omega) hne
      omega
    · intro i hi
      show c.core.getD (((c.first + 1) % c.capacity + i) % c.capacity) none = r[i]?
      have hi' : i < r.length := hi
      have hsl := size_lt c.first c.last c.capacity (by omega)
      rw [index_pop c.first c.capacity i (by omega) (by omega),
        hpt (i + 1) (by simp only [List.length_cons]; omega)]
      simp

theorem Front_spec {V : Type} (cap : Nat) (c : CircularQueue V) (xs : List V)
    (h : Rel cap c xs) : Front c = specFront xs := by
  have hempty := Empty_iff cap c xs h
  obtain ⟨hcap, _, hf, _, _, hpt⟩ := h
  unfold Front
  cases xs with
  | nil =>
    rw [if_pos (hempty.2 rfl)]
    rfl
  | cons x r =>
    have hE : ¬ Empty c = true := by
      intro e
      have := hempty.1 e
      simp at this
    rw [if_neg hE]
    have h0 := hpt 0 (by simp)
    rw [Nat.add_zero, Nat.mod_eq_of_lt (show c.first < c.capacity by omega)] at h0
    rw [h0]
    simp [specFront]

theorem Back_spec {V : Type} (cap : Nat) (c : CircularQueue V) (xs : List V)
    (h : Rel cap c xs) : Back c = specBack xs := by
  have hempty := Empty_iff cap c xs h
  obtain ⟨hcap, _, hf, hl, hsz, hpt⟩ := h
  unfold Back specBack
  by_cases hx : xs.length = 0
  · rw [if_pos (hempty.2 hx), List.length_eq_zero.1 hx]
    rfl
  · have hE : ¬ Empty c = true := fun e => hx (hempty.1 e)
    rw [if_neg hE]
    have hne : c.first ≠ c.last := by
      intro e
      apply hE
      unfold Empty
      exact decide_eq_true e
    have hidx := index_back c.first c.last c.capacity (by omega) (by omega) hne
    unfold Size at hsz
    rw [hsz] at hidx
    rw [hidx, hpt (xs.length - 1) (by omega), ← List.getLast?_eq_getElem?]
    cases hg : xs.getLast? with
    | none =>
      rw [List.getLast?_eq_none_iff] at hg
      rw [hg] at hx
      simp at hx
    | some y => rfl

theorem At_spec {V : Type} (cap : Nat) (c : CircularQueue V) (xs : List V) (i : Nat)
    (h : Rel cap c xs) : At c i = specAt xs i := by
  obtain ⟨_, _, _, _, hsz, hpt⟩ := h
  unfold At specAt
  rw [hsz]
  by_cases hi : i < xs.length
  · have hgt : ¬ (i : Int) > (xs.length : Int) - 1 := by omega
    rw [if_neg hgt, hpt i hi]
    rw [List.getElem?_eq_getElem hi]
  · have hgt : (i : Int) > (xs.length : Int) - 1 := by omega
    rw [if_pos hgt, List.getElem?_eq_none (by omega)]

/-! ## Refinement under every sequence of calls -/

theorem step_spec {V : Type} (cap : Nat) (c : CircularQueue V) (xs : List V)
    (call : QCall V) (h : Rel cap c xs) :
    (stepImpl c call).1 = (stepSpec cap xs call).1 ∧
      Rel cap (stepImpl c call).2 (stepSpec cap xs call).2 := by
  cases call with
  | pushBack v =>
    obtain ⟨h1, h2⟩ := PushBack_spec cap c xs v h
    exact ⟨congrArg QResult.err h1, h2⟩
  | popFront =>
    obtain ⟨h1, h2⟩ := PopFront_spec cap c xs h
    exact ⟨congrArg QResult.val h1, h2⟩
  | front => exact ⟨congrArg QResult.val (Front_spec cap c xs h), h⟩
  | back => exact ⟨congrArg QResult.val (Back_spec cap c xs h), h⟩
  | atIndex i => exact ⟨congrArg QResult.val (At_spec cap c xs i h), h⟩
  | size => exact ⟨congrArg QResult.num h.2.2.2.2.1, h⟩
  | full =>
    refine ⟨congrArg QResult.flag ?_, h⟩
    have := Full_iff cap c xs h
    by_cases hl : xs.length = cap
    · rw [this.2 hl]
      simp [hl]
    · have hF : Full c = false := by
        cases hb : Full c with
        | false => rfl
        | true => exact absurd (this.1 hb) hl
      rw [hF]
      simp [hl]
  | empty =>
    refine ⟨congrArg QResult.flag ?_, h⟩
    have := Empty_iff cap c xs h
    by_cases hl : xs.length = 0
    · rw [this.2 hl]
      simp [hl]
    · have hE : Empty c = false := by
        cases hb : Empty c with
        | false => rfl
        | true => exact absurd (this.1 hb) hl
      rw [hE]
      simp [hl]

theorem foldl_spec {V : Type} (cap : Nat) (calls : List (QCall V)) :
    ∀ (acc : List (QResult V)) (c : CircularQueue V) (xs : List V), Rel cap c xs →
      (calls.foldl
          (fun a call => (a.1 ++ [(stepImpl a.2 call).1], (stepImpl a.2 call).2)) (acc, c)).1 =
        (calls.foldl
          (fun a call => (a.1 ++ [(stepSpec cap a.2 call).1], (stepSpec cap a.2 call).2))
          (acc, xs)).1 ∧
      Rel cap
        (calls.foldl
          (fun a call => (a.1 ++ [(stepImpl a.2 call).1], (stepImpl a.2 call).2)) (acc, c)).2
        (calls.foldl
          (fun a call => (a.1 ++ [(stepSpec cap a.2 call).1], (stepSpec cap a.2 call).2))
          (acc, xs)).2 := by
  induction calls with
  | nil => intro acc c xs h; exact ⟨rfl, h⟩
  | cons call calls ih =>
    intro acc c xs h
    obtain ⟨h1, h2⟩ := step_spec cap c xs call h
    rw [List.foldl_cons, List.foldl_cons]
    simp only
    rw [h1]
    exact ih _ _ _ h2

theorem toList_eq_of_Rel {V : Type} (cap : Nat) (c : CircularQueue V) (xs : List V)
    (h : Rel cap c xs) : toList c = xs.map some := by
  obtain ⟨_, _, _, _, hsz, hpt⟩ := h
  unfold toList
  rw [hsz]
  apply List.ext_getElem?
  intro i
  by_cases hi : i < xs.length
  · rw [List.getElem?_map, List.getElem?_map, List.getElem?_range hi]
    simp only [Option.map_some']
    rw [hpt i hi, List.getElem?_eq_getElem hi]
    rfl
  · rw [List.getElem?_eq_none (by simp; omega), List.getElem?_eq_none (by simp; omega)]

/-- C16: for every capacity `cap ≥ 0` the queue built by `New cap` refines the bounded FIFO
list of at most `cap` elements: every sequence of `PushBack`, `PopFront`, `Front`, `Back`,
`At`, `Size`, `Full` and `Empty` calls returns the same results on the queue as on the
list model, the queue holds afterwards the elements of the list in the same order, the
list never exceeds `cap` elements, and a `PushBack` on a full queue leaves it unchanged. -/
theorem queue_refines_fifo {V : Type} (cap : Nat) (calls : List (QCall V)) :
    (runImpl (New cap) calls).1 = (runSpec cap [] calls).1 ∧
      toList (runImpl (New cap) calls).2 = (runSpec cap [] calls).2.map some ∧
      Size (runImpl (New cap) calls).2 = (runSpec cap [] calls).2.length ∧
      (runSpec cap [] calls).2.length ≤ cap ∧
      ∀ v, Full (runImpl (New cap) calls).2 = true →
        PushBack (runImpl (New cap) calls).2 v =
          (some Error.ErrCircularQueue, (runImpl (New cap) calls).2) := by
  obtain ⟨h1, h2⟩ := foldl_spec cap calls [] (New cap) [] (Rel_New cap)
  refine ⟨h1, toList_eq_of_Rel cap _ _ h2, h2.2.2.2.2.1, Rel_length_le cap _ _ h2, ?_⟩
  intro v hF
  unfold PushBack
  rw [if_pos hF]

end Circularqueue
